import Mathlib

/-!
# Verification of the `llm_data_pipeline` document-processing core

This file is a shallow embedding, in Lean 4, of the document-processing
pipeline of the `llm_data_pipeline` repository
(`src/data_processing/{base,cleaning,tokenization,filtering}.py`), together
with theorems settling the specification claims about it.

Modelling conventions:
* Python `float` arithmetic is modelled by `ℚ` (all quantities involved are
  exact small rationals; the claims are order/range properties).
* Python's insertion-ordered `dict` used for `processing_metadata` is
  modelled by an association list `List (String × MVal)` where updating an
  existing key keeps its position and a new key is appended.
* `hashlib` content hashes, the builtin `hash` used by the simhash sketch,
  the NLTK sentence segmenter, and compiled regex patterns of the content
  filter are external collaborators: they are taken as function parameters
  of the corresponding operations (`hashFn`, `h`, `split`, `String → Bool`
  matchers), exactly where the Python code calls out to them.
* `filter_reason` strings produced by `ContentFilter` are modelled by the
  inductive type `FilterReason` recording which check produced the reason
  (with its numeric payloads); distinct reason strings map to distinct
  constructors.
-/

namespace Pipeline

/-- Reasons recorded by `ContentFilter` on the first failing check.  Each
constructor corresponds to one of the distinct f-strings in
`ContentFilter.process`. -/
inductive FilterReason : Type where
  | tooShort (textLength minLength : Int)
  | tooLong (textLength maxLength : Int)
  | lowQuality (score minScore : ℚ)
  | missingRequired (patternIdx : Nat)
  | containsExcluded (patternIdx : Nat)
  deriving DecidableEq

/-- Scalar values appearing inside per-step metadata dicts (every
`add_processing_step` call site passes a dict of scalars; `noneV` is
Python's `None`, e.g. an unset `max_length`). -/
inductive SVal : Type where
  | b : Bool → SVal
  | i : Int → SVal
  | q : ℚ → SVal
  | str : String → SVal
  | noneV : SVal
  deriving DecidableEq

/-- Values stored in `processing_metadata` (a heterogeneous Python dict). -/
inductive MVal : Type where
  | b : Bool → MVal
  | i : Int → MVal
  | q : ℚ → MVal
  | str : String → MVal
  | reason : FilterReason → MVal
  | strs : List String → MVal
  | dict : List (String × SVal) → MVal
  | spans : List (Int × Int) → MVal
  deriving DecidableEq

/-- An insertion-ordered string-keyed dictionary (Python `dict`). -/
abbrev Meta := List (String × MVal)

/-- `d[k] = v` on a Python dict: replace in place if the key exists
(keeping its position), otherwise append at the end. -/
def msets (m : Meta) (k : String) (v : MVal) : Meta :=
  if (m.lookup k).isSome then
    m.map (fun kv => if kv.1 = k then (k, v) else kv)
  else
    m ++ [(k, v)]

/-- `d.get(k)` (no default): first binding of `k`. -/
def mget (m : Meta) (k : String) : Option MVal := m.lookup k

/-- `d.get(k, 0)` where an `int` is expected (as in
`QualityScorer.process` reading `sentence_count`). -/
def mgetInt (m : Meta) (k : String) : Int :=
  match m.lookup k with
  | some (MVal.i n) => n
  | _ => 0

/-- `ProcessedDocument` (`src/data_processing/base.py`). -/
structure ProcessedDocument : Type where
  id : String
  source : String
  source_id : String
  text : String
  tokens : Option (List String) := none
  token_count : Option Int := none
  quality_score : Option ℚ := none
  quality_metrics : List (String × ℚ) := []
  processing_metadata : Meta := []
  original_metadata : Meta := []
  enhanced_metadata : Meta := []
  processing_history : List String := []
  deriving DecidableEq

namespace ProcessedDocument

/-- `ProcessedDocument.add_processing_step`: append the step name to the
history; store the (non-empty) step metadata under the step name. -/
def add_processing_step (d : ProcessedDocument) (step_name : String)
    (metadata : List (String × SVal)) : ProcessedDocument :=
  { d with
    processing_history := d.processing_history ++ [step_name]
    processing_metadata :=
      if metadata = [] then d.processing_metadata
      else msets d.processing_metadata step_name (MVal.dict metadata) }

end ProcessedDocument

/-- Accumulator pass for `pySplit`: words are collected in reverse in
`acc`; whitespace flushes the current word. -/
def pySplitAux : List Char → List Char → List String
  | [], acc => if acc.isEmpty then [] else [String.mk acc.reverse]
  | c :: rest, acc =>
    if c.isWhitespace then
      if acc.isEmpty then pySplitAux rest []
      else String.mk acc.reverse :: pySplitAux rest []
    else pySplitAux rest (c :: acc)

/-- Python `str.split()`: split on whitespace runs, dropping empty pieces. -/
def pySplit (s : String) : List String := pySplitAux s.data []

/-- `text.count(c)` for a single character. -/
def countChar (s : String) (c : Char) : Int :=
  ((s.data.filter (fun x => x = c)).length : Int)

/-- Default quality weights of `QualityScorer.__init__`
(`0.2, 0.1, 0.2, 0.2, 0.3`). -/
def defaultWeights : List (String × ℚ) :=
  [("length_score", 1/5),
   ("avg_word_length_score", 1/10),
   ("sentence_count_score", 1/5),
   ("repetition_score", 1/5),
   ("alphanumeric_score", 3/10)]

/-- Configuration of `QualityScorer` (`filtering.py`), with the constructor
defaults. -/
structure QualityScorer : Type where
  min_length : Int := 100
  max_length : Option Int := none
  min_avg_word_length : ℚ := 3
  max_avg_word_length : ℚ := 15
  min_sentence_count : Int := 3
  max_repetition_ratio : ℚ := 3/10
  min_alphanumeric_ratio : ℚ := 7/10
  weights : List (String × ℚ) := defaultWeights

namespace QualityScorer

/-- The `length_score` block of `QualityScorer.process`. -/
def lengthScore (cfg : QualityScorer) (L : Int) : ℚ :=
  match cfg.max_length with
  | some M =>
      let base : ℚ := min 1 (max 0
        (if M > cfg.min_length then
          ((L - cfg.min_length : Int) : ℚ) / ((M - cfg.min_length : Int) : ℚ)
         else 0))
      if L > M then max 0 (1 - ((L - M : Int) : ℚ) / (M : ℚ)) else base
  | none => if L ≥ cfg.min_length then 1 else (L : ℚ) / (cfg.min_length : ℚ)

/-- The `avg_word_length_score` branch for a non-empty word list. -/
def avgWordLengthScore (cfg : QualityScorer) (avg : ℚ) : ℚ :=
  if avg < cfg.min_avg_word_length then avg / cfg.min_avg_word_length
  else if avg > cfg.max_avg_word_length then
    max 0 (1 - (avg - cfg.max_avg_word_length) / cfg.max_avg_word_length)
  else 1

/-- Rough sentence-count estimation when no prior tokenization stored one:
`max(1, text.count('.') + text.count('!') + text.count('?'))`. -/
def estimateSentenceCount (text : String) : Int :=
  max 1 (countChar text '.' + countChar text '!' + countChar text '?')

/-- `sentence_count = metadata.get("sentence_count", 0)`, re-estimated
whenever the read value equals `0`. -/
def sentenceCountUsed (md : Meta) (text : String) : Int :=
  let sc := mgetInt md "sentence_count"
  if sc = 0 then estimateSentenceCount text else sc

/-- The clamped repetition score: `max(0, min(1, 1 - ratio/max_ratio))`. -/
def repetitionScore (cfg : QualityScorer) (ratio : ℚ) : ℚ :=
  max 0 (min 1 (1 - ratio / cfg.max_repetition_ratio))

/-- The `avg_word_length` value of `QualityScorer.process` (`0` for an
empty word list). -/
def avgWordLength (words : List String) : ℚ :=
  if words.length ≠ 0 then
    (((words.map String.length).sum : Int) : ℚ) / ((words.length : Int) : ℚ)
  else 0

/-- The `metrics` dict built by `QualityScorer.process`, in insertion
order. -/
def computeMetrics (cfg : QualityScorer) (d : ProcessedDocument) :
    List (String × ℚ) :=
  let text := d.text
  let text_length : Int := (text.length : Int)
  let length_score := lengthScore cfg text_length
  let words := pySplit text
  let word_count : Int := (words.length : Int)
  let avg_word_length : ℚ := avgWordLength words
  let avg_word_length_score : ℚ :=
    if words.length ≠ 0 then avgWordLengthScore cfg avg_word_length else 0
  let sentence_count := sentenceCountUsed d.processing_metadata text
  let sentence_count_score : ℚ :=
    min 1 ((sentence_count : ℚ) / (cfg.min_sentence_count : ℚ))
  let unique_words : Int := (words.toFinset.card : Int)
  let repetition_ratio : ℚ :=
    if words.length ≠ 0 then 1 - (unique_words : ℚ) / (word_count : ℚ) else 1
  let repetition_score : ℚ :=
    if words.length ≠ 0 then repetitionScore cfg repetition_ratio else 0
  let alphanumeric_chars : Int := ((text.data.filter Char.isAlphanum).length : Int)
  let alphanumeric_ratio : ℚ :=
    if text_length > 0 then (alphanumeric_chars : ℚ) / (text_length : ℚ) else 0
  let alphanumeric_score : ℚ :=
    if alphanumeric_ratio < cfg.min_alphanumeric_ratio then
      alphanumeric_ratio / cfg.min_alphanumeric_ratio
    else 1
  [("text_length", (text_length : ℚ)),
   ("length_score", length_score),
   ("word_count", (word_count : ℚ)),
   ("avg_word_length", avg_word_length),
   ("avg_word_length_score", avg_word_length_score),
   ("sentence_count", (sentence_count : ℚ)),
   ("sentence_count_score", sentence_count_score),
   ("repetition_ratio", repetition_ratio),
   ("repetition_score", repetition_score),
   ("alphanumeric_ratio", alphanumeric_ratio),
   ("alphanumeric_score", alphanumeric_score)]

/-- `sum(metrics[metric] * weight for metric, weight in weights.items()
if metric in metrics)`. -/
def compositeScore (weights : List (String × ℚ)) (metrics : List (String × ℚ)) :
    ℚ :=
  weights.foldl
    (fun acc kw =>
      match metrics.lookup kw.1 with
      | some v => acc + v * kw.2
      | none => acc) 0

/-- `QualityScorer.process`.  Mirrors `filtering.py` lines 63–185; all
float arithmetic is exact rational arithmetic there, modelled in `ℚ`
(integer metrics are stored as the corresponding rationals). -/
def process (cfg : QualityScorer) (d : ProcessedDocument) : ProcessedDocument :=
  let metrics := computeMetrics cfg d
  let quality_score : ℚ := compositeScore cfg.weights metrics
  let d' := { d with quality_metrics := metrics, quality_score := some quality_score }
  d'.add_processing_step "quality_assessment"
    (("quality_score", SVal.q quality_score) ::
      metrics.map (fun kv => (kv.1, SVal.q kv.2)))

end QualityScorer

/-- Configuration of `ContentFilter` (`filtering.py`).  Compiled
case-insensitive regexes are external collaborators; a pattern is modelled
by its `search`-semantics: a function telling whether it matches somewhere
in a given text. -/
structure ContentFilter : Type where
  min_quality_score : ℚ := 1/2
  min_length : Int := 100
  max_length : Option Int := none
  required_patterns : List (String → Bool) := []
  excluded_patterns : List (String → Bool) := []
  keep_document : Bool := true

namespace ContentFilter

/-- The repeated rejection block of `ContentFilter.process`: drop the
document when `keep_document` is false, otherwise mark it `filtered` with
the given reason. -/
def reject (cfg : ContentFilter) (d : ProcessedDocument) (r : FilterReason) :
    Option ProcessedDocument :=
  if cfg.keep_document = false then none
  else
    let md := msets (msets d.processing_metadata "filtered" (MVal.b true))
      "filter_reason" (MVal.reason r)
    some { d with processing_metadata := md }

/-- `ContentFilter.process`, final block: the document passed all filters
(`filtered = False` plus the `content_filtering` history entry). -/
def passDoc (cfg : ContentFilter) (d : ProcessedDocument) : ProcessedDocument :=
  let md := msets d.processing_metadata "filtered" (MVal.b false)
  let d1 := { d with processing_metadata := md }
  d1.add_processing_step "content_filtering"
    [("passed", SVal.b true),
     ("min_quality_score", SVal.q cfg.min_quality_score),
     ("min_length", SVal.i cfg.min_length),
     ("max_length",
       match cfg.max_length with
       | some M => SVal.i M
       | none => SVal.noneV),
     ("required_patterns_count", SVal.i (cfg.required_patterns.length : Int)),
     ("excluded_patterns_count", SVal.i (cfg.excluded_patterns.length : Int))]

/-- The two pattern loops of `ContentFilter.process`. -/
def checkPatterns (cfg : ContentFilter) (d : ProcessedDocument) :
    Option ProcessedDocument :=
  match cfg.required_patterns.findIdx? (fun p => !(p d.text)) with
  | some i => reject cfg d (FilterReason.missingRequired i)
  | none =>
    match cfg.excluded_patterns.findIdx? (fun p => p d.text) with
    | some i => reject cfg d (FilterReason.containsExcluded i)
    | none => some (passDoc cfg d)

/-- The quality-score check (only performed when a score exists). -/
def checkQuality (cfg : ContentFilter) (d : ProcessedDocument) :
    Option ProcessedDocument :=
  match d.quality_score with
  | some q =>
    if q < cfg.min_quality_score then
      reject cfg d (FilterReason.lowQuality q cfg.min_quality_score)
    else checkPatterns cfg d
  | none => checkPatterns cfg d

/-- `ContentFilter.process` (`filtering.py` lines 238–312). -/
def process (cfg : ContentFilter) (d : ProcessedDocument) :
    Option ProcessedDocument :=
  let text_length : Int := (d.text.length : Int)
  if text_length < cfg.min_length then
    reject cfg d (FilterReason.tooShort text_length cfg.min_length)
  else
    match cfg.max_length with
    | some M =>
      if text_length > M then
        reject cfg d (FilterReason.tooLong text_length M)
      else checkQuality cfg d
    | none => checkQuality cfg d

/-- Modelled from the spec: the reason of the first failing check in the
documented fixed order — minimum length, maximum length, minimum quality
score (only if a score exists), required patterns in configured order,
excluded patterns — or `none` when every check passes.  This definition
follows the spec's words; the theorems compare it against
`ContentFilter.process` above, which follows the code. -/
def firstFailingCheck (cfg : ContentFilter) (d : ProcessedDocument) :
    Option FilterReason :=
  let L : Int := (d.text.length : Int)
  if L < cfg.min_length then some (FilterReason.tooShort L cfg.min_length)
  else
    let afterLength : Option FilterReason :=
      let afterQuality : Option FilterReason :=
        match cfg.required_patterns.findIdx? (fun p => !(p d.text)) with
        | some i => some (FilterReason.missingRequired i)
        | none =>
          match cfg.excluded_patterns.findIdx? (fun p => p d.text) with
          | some i => some (FilterReason.containsExcluded i)
          | none => none
      match d.quality_score with
      | some q =>
        if q < cfg.min_quality_score then
          some (FilterReason.lowQuality q cfg.min_quality_score)
        else afterQuality
      | none => afterQuality
    match cfg.max_length with
    | some M => if L > M then some (FilterReason.tooLong L M) else afterLength
    | none => afterLength

end ContentFilter

/-- Python truthiness of an `Optional[int]` (`None` and `0` are falsy), as
used in `if self.min_sentence_length > 0 or self.max_sentence_length`. -/
def pyTruthyOptInt : Option Int → Bool
  | some m => m ≠ 0
  | none => false

/-- Python `text.find(sub, start)`: smallest index `i ≥ start` at which
`sub` occurs in `text`, or `-1`. -/
def findSub (hay need : List Char) (start : Nat) : Int :=
  match (List.range (hay.length + 1)).find?
      (fun i => decide (start ≤ i) && need.isPrefixOf (hay.drop i)) with
  | some i => (i : Int)
  | none => -1

/-- Configuration of `SentenceTokenizer` (`tokenization.py`). -/
structure SentenceTokenizer : Type where
  language : String := "english"
  store_sentence_spans : Bool := false
  min_sentence_length : Int := 3
  max_sentence_length : Option Int := none

namespace SentenceTokenizer

/-- The sentence length filter of `SentenceTokenizer.process`: keep a
sentence when its word count is at least `min_sentence_length` and, if a
maximum is configured, at most `max_sentence_length`. -/
def keepSentence (cfg : SentenceTokenizer) (sentence : String) : Bool :=
  let word_count : Int := ((pySplit sentence).length : Int)
  decide (word_count ≥ cfg.min_sentence_length) &&
    (match cfg.max_sentence_length with
     | none => true
     | some m => decide (word_count ≤ m))

/-- The span-scanning loop: for each sentence, search forward from the
running cursor; unfindable sentences are skipped. -/
def scanSpans (text : String) (sentences : List String) :
    List (Int × Int) :=
  (sentences.foldl
    (fun (acc : List (Int × Int) × Nat) s =>
      let ss := findSub text.data s.data acc.2
      if ss ≥ 0 then
        (acc.1 ++ [(ss, ss + (s.length : Int))], (ss + (s.length : Int)).toNat)
      else acc)
    ([], 0)).1

/-- `SentenceTokenizer.process` (`tokenization.py` lines 87–146).  The
sentence segmenter (NLTK, with its regex fallback) is an external
collaborator, passed in as `split`. -/
def process (split : String → List String) (cfg : SentenceTokenizer)
    (d : ProcessedDocument) : ProcessedDocument :=
  let text := d.text
  let sentences0 := split text
  let sentences :=
    if cfg.min_sentence_length > 0 ∨ pyTruthyOptInt cfg.max_sentence_length then
      sentences0.filter (keepSentence cfg)
    else sentences0
  let md0 :=
    if cfg.store_sentence_spans then
      msets d.processing_metadata "sentence_spans"
        (MVal.spans (scanSpans text sentences))
    else d.processing_metadata
  let md1 := msets md0 "sentences" (MVal.strs sentences)
  let md2 := msets md1 "sentence_count" (MVal.i (sentences.length : Int))
  let d1 := { d with processing_metadata := md2 }
  d1.add_processing_step "sentence_tokenization"
    [("language", SVal.str cfg.language),
     ("sentence_count", SVal.i (sentences.length : Int)),
     ("min_sentence_length", SVal.i cfg.min_sentence_length),
     ("max_sentence_length",
       match cfg.max_sentence_length with
       | some m => SVal.i m
       | none => SVal.noneV)]

end SentenceTokenizer

/-- `metadata.get(key, False)` where a `bool` is expected. -/
def mgetBool (m : Meta) (k : String) : Bool :=
  match m.lookup k with
  | some (MVal.b v) => v
  | _ => false

/-- `metadata.get(key, default)` where a `float` is expected. -/
def mgetQ (m : Meta) (k : String) (dflt : ℚ) : ℚ :=
  match m.lookup k with
  | some (MVal.q v) => v
  | _ => dflt

/-- Configuration of `Deduplicator` (`filtering.py`), post-validation. -/
structure Deduplicator : Type where
  method : String := "exact"
  similarity_threshold : ℚ := 9/10
  hash_function : String := "md5"
  ngram_size : Nat := 3
  keep_first : Bool := true

namespace Deduplicator

/-- `Deduplicator.__init__`: attributes are set, then the method name and
then the hash-function name are validated; an unsupported name raises a
`ValueError` before any document is processed. -/
def init (method : String) (similarity_threshold : ℚ) (hash_function : String)
    (ngram_size : Nat) (keep_first : Bool) : Except String Deduplicator :=
  if method ∉ (["exact", "simhash", "minhash"] : List String) then
    Except.error ("Unsupported deduplication method: " ++ method)
  else if hash_function ∉ (["md5", "sha1", "sha256"] : List String) then
    Except.error ("Unsupported hash function: " ++ hash_function)
  else
    Except.ok
      { method := method, similarity_threshold := similarity_threshold,
        hash_function := hash_function, ngram_size := ngram_size,
        keep_first := keep_first }

/-- Mark a document as a duplicate of `keeperId` (exact method). -/
def markDup (d : ProcessedDocument) (keeperId : String) : ProcessedDocument :=
  let md := msets (msets d.processing_metadata "duplicate" (MVal.b true))
    "duplicate_of" (MVal.str keeperId)
  { d with processing_metadata := md }

/-- Mark a document as unique (`duplicate = False`). -/
def markUniq (d : ProcessedDocument) : ProcessedDocument :=
  let md := msets d.processing_metadata "duplicate" (MVal.b false)
  { d with processing_metadata := md }

/-- The marking loop of `_exact_deduplication`: a hash→id map `seen`
collects first occurrences; later documents with a seen hash are marked
duplicates of the mapped id.  The content hash (`hashlib.md5/sha1/sha256`
hexdigest) is an external collaborator `hashFn`. -/
def exactMark (hashFn : String → String) :
    List ProcessedDocument → List (String × String) → List ProcessedDocument
  | [], _ => []
  | d :: ds, seen =>
    let h := hashFn d.text
    match seen.lookup h with
    | some keeperId => markDup d keeperId :: exactMark hashFn ds seen
    | none => markUniq d :: exactMark hashFn ds (seen ++ [(h, d.id)])

/-- The `deduplication` history entry added to every document by
`_exact_deduplication`. -/
def exactStep (cfg : Deduplicator) (d : ProcessedDocument) : ProcessedDocument :=
  d.add_processing_step "deduplication"
    [("method", SVal.str "exact"),
     ("hash_function", SVal.str cfg.hash_function),
     ("is_duplicate", SVal.b (mgetBool d.processing_metadata "duplicate"))]

/-- `_exact_deduplication` applied to a whole batch: every document is
marked and receives a history entry (`documents` and `deduplicated` alias
the same mutable objects in the source). -/
def exactFull (hashFn : String → String) (cfg : Deduplicator)
    (docs : List ProcessedDocument) : List ProcessedDocument :=
  (exactMark hashFn docs []).map (exactStep cfg)

/-- The list returned by `_exact_deduplication`: the unique documents when
`keep_first`, else the whole annotated batch. -/
def exactOutput (hashFn : String → String) (cfg : Deduplicator)
    (docs : List ProcessedDocument) : List ProcessedDocument :=
  let full := exactFull hashFn cfg docs
  if cfg.keep_first then
    full.filter (fun d => mgetBool d.processing_metadata "duplicate" = false)
  else full

end Deduplicator

/-- `get_ngrams(text, n)`: `[text[i:i+n] for i in range(len(text)-n+1)]`
(empty when the text is shorter than `n`). -/
def getNgrams (t : String) (n : Nat) : List String :=
  if t.length < n then []
  else (List.range (t.length - n + 1)).map
    (fun i => String.mk ((t.data.drop i).take n))

/-- Number of set bits (the `while xor: distance += 1; xor &= xor - 1`
loop of `hamming_distance` counts exactly the set bits of its input). -/
def popcount (n : Nat) : Nat :=
  if h : n = 0 then 0 else popcount (n / 2) + n % 2
decreasing_by exact Nat.div_lt_self (Nat.pos_of_ne_zero h) (by decide)

/-- `hamming_distance` between two 64-bit signatures. -/
def hammingDistance (h1 h2 : Nat) : Nat := popcount (h1 ^^^ h2)

/-- `calculate_similarity`: `1 - distance/64`. -/
def simSimilarity (h1 h2 : Nat) : ℚ :=
  1 - (hammingDistance h1 h2 : ℚ) / 64

/-- `calculate_simhash(text, n)`: per bit position `i < 64`, sum plus or
minus one according to bit `i` of `hash(ngram) % 2**64` over all n-grams; the
signature has bit `i` set when the counter is positive.  Python's builtin
string `hash` is an external collaborator `h` (stable within one
interpreter run). -/
def calculateSimhash (h : String → Int) (t : String) (n : Nat) : Nat :=
  let ngrams := getNgrams t n
  if ngrams = [] then 0
  else
    let hashes : List Nat := ngrams.map (fun g => ((h g) % (2 ^ 64 : Int)).toNat)
    ((List.range 64).map (fun i =>
      if 0 < (hashes.map (fun hg => if hg.testBit i then (1 : Int) else -1)).sum
      then 2 ^ i else 0)).sum

namespace Deduplicator

/-- Mark a document as a duplicate with a similarity value (approximate
methods set `duplicate`, `duplicate_of` and `similarity`). -/
def markDupSim (d : ProcessedDocument) (keeperId : String) (s : ℚ) :
    ProcessedDocument :=
  let md := msets (msets (msets d.processing_metadata
    "duplicate" (MVal.b true)) "duplicate_of" (MVal.str keeperId))
    "similarity" (MVal.q s)
  { d with processing_metadata := md }

/-- The marking loop of `_simhash_deduplication`: each document's signature
is compared against the signatures accepted as unique so far, in
acceptance order; the first one whose similarity meets the threshold wins. -/
def simhashMark (h : String → Int) (cfg : Deduplicator) :
    List ProcessedDocument → List (String × Nat) → List ProcessedDocument
  | [], _ => []
  | d :: ds, seen =>
    let sig := calculateSimhash h d.text cfg.ngram_size
    match seen.find?
        (fun u => decide (cfg.similarity_threshold ≤ simSimilarity sig u.2)) with
    | some u =>
      markDupSim d u.1 (simSimilarity sig u.2) :: simhashMark h cfg ds seen
    | none => markUniq d :: simhashMark h cfg ds (seen ++ [(d.id, sig)])

/-- The `deduplication` history entry of `_simhash_deduplication`. -/
def simhashStepMeta (cfg : Deduplicator) (d : ProcessedDocument) :
    ProcessedDocument :=
  d.add_processing_step "deduplication"
    [("method", SVal.str "simhash"),
     ("ngram_size", SVal.i (cfg.ngram_size : Int)),
     ("similarity_threshold", SVal.q cfg.similarity_threshold),
     ("is_duplicate", SVal.b (mgetBool d.processing_metadata "duplicate")),
     ("similarity", SVal.q (mgetQ d.processing_metadata "similarity" 1))]

/-- `_simhash_deduplication` applied to a whole batch (marking pass then
history pass over the same documents). -/
def simhashFull (h : String → Int) (cfg : Deduplicator)
    (docs : List ProcessedDocument) : List ProcessedDocument :=
  (simhashMark h cfg docs []).map (simhashStepMeta cfg)

/-- The list returned by `_simhash_deduplication`. -/
def simhashOutput (h : String → Int) (cfg : Deduplicator)
    (docs : List ProcessedDocument) : List ProcessedDocument :=
  let full := simhashFull h cfg docs
  if cfg.keep_first then
    full.filter (fun d => mgetBool d.processing_metadata "duplicate" = false)
  else full

end Deduplicator

/-- `get_shingles(text, n)`: the set of character n-grams. -/
def getShingles (t : String) (n : Nat) : Finset String :=
  (getNgrams t n).toFinset

/-- `jaccard_similarity`: `0` when either set is empty, else
`|s1 ∩ s2| / |s1 ∪ s2|`. -/
def jaccardSimilarity (s1 s2 : Finset String) : ℚ :=
  if s1 = ∅ ∨ s2 = ∅ then 0
  else ((s1 ∩ s2).card : ℚ) / ((s1 ∪ s2).card : ℚ)

namespace Deduplicator

/-- The marking loop of `_minhash_deduplication` (exact Jaccard over full
shingle sets, first match wins). -/
def minhashMark (cfg : Deduplicator) :
    List ProcessedDocument → List (String × Finset String) →
    List ProcessedDocument
  | [], _ => []
  | d :: ds, seen =>
    let sh := getShingles d.text cfg.ngram_size
    match seen.find?
        (fun u => decide (cfg.similarity_threshold ≤ jaccardSimilarity sh u.2)) with
    | some u =>
      markDupSim d u.1 (jaccardSimilarity sh u.2) :: minhashMark cfg ds seen
    | none => markUniq d :: minhashMark cfg ds (seen ++ [(d.id, sh)])

/-- The `deduplication` history entry of `_minhash_deduplication`. -/
def minhashStepMeta (cfg : Deduplicator) (d : ProcessedDocument) :
    ProcessedDocument :=
  d.add_processing_step "deduplication"
    [("method", SVal.str "minhash"),
     ("ngram_size", SVal.i (cfg.ngram_size : Int)),
     ("similarity_threshold", SVal.q cfg.similarity_threshold),
     ("is_duplicate", SVal.b (mgetBool d.processing_metadata "duplicate")),
     ("similarity", SVal.q (mgetQ d.processing_metadata "similarity" 1))]

/-- `_minhash_deduplication` applied to a whole batch. -/
def minhashFull (cfg : Deduplicator) (docs : List ProcessedDocument) :
    List ProcessedDocument :=
  (minhashMark cfg docs []).map (minhashStepMeta cfg)

/-- The list returned by `_minhash_deduplication`. -/
def minhashOutput (cfg : Deduplicator) (docs : List ProcessedDocument) :
    List ProcessedDocument :=
  let full := minhashFull cfg docs
  if cfg.keep_first then
    full.filter (fun d => mgetBool d.processing_metadata "duplicate" = false)
  else full

/-- `Deduplicator.process_batch`: dispatch on the configured method (the
trailing `else` branch is unreachable after `__init__` validation). -/
def process_batch (hashFn : String → String) (h : String → Int)
    (cfg : Deduplicator) (docs : List ProcessedDocument) :
    List ProcessedDocument :=
  if cfg.method = "exact" then exactOutput hashFn cfg docs
  else if cfg.method = "simhash" then simhashOutput h cfg docs
  else if cfg.method = "minhash" then minhashOutput cfg docs
  else docs

end Deduplicator

/-! ## `TextNormalizer` (`cleaning.py` lines 285–478)

`re.sub(r'\b' + re.escape(key) + r'\b', repl, text)` for a literal `key`
is modelled by the scanner `subWB`: it walks the text left to right,
replaces every leftmost non-overlapping occurrence of `key` whose two ends
lie on word boundaries, and computes boundaries on the original text (as
the `re` module does).  The word-character predicate `\w` is an external
collaborator `w : Char → Bool` (Python's is Unicode-aware); theorems
assume only its standard values on the ASCII characters appearing in the
substitution dictionaries. -/

/-- `\w` on an optional character; positions outside the string count as
non-word, which is how `\b` treats the ends of the text. -/
def wOpt (w : Char → Bool) : Option Char → Bool
  | some c => w c
  | none => false

/-- A `\bkey\b` match starting at the current position: `key` is a prefix
of the remaining text `s`, the boundary before (against the previous
character `prev`) holds, and the boundary after `key` holds. -/
def matchAt (w : Char → Bool) (key : List Char) (prev : Option Char)
    (s : List Char) : Bool :=
  !key.isEmpty && key.isPrefixOf s &&
    (wOpt w prev != wOpt w key.head?) &&
    (wOpt w key.getLast? != wOpt w (s.drop key.length).head?)

/-- A successful `matchAt` has a non-empty key. -/
theorem matchAt_ne_nil {w : Char → Bool} {key : List Char} {prev : Option Char}
    {s : List Char} (h : matchAt w key prev s = true) : key ≠ [] := by
  intro hk
  subst hk
  simp [matchAt] at h

/-- `re.sub` for the literal word-bounded pattern: scan the text, emitting
`repl` for each leftmost non-overlapping match and continuing after it. -/
def subWB (w : Char → Bool) (key repl : List Char) :
    Option Char → List Char → List Char
  | _, [] => []
  | prev, c :: rest =>
    if h : matchAt w key prev (c :: rest) = true then
      repl ++ subWB w key repl key.getLast? ((c :: rest).drop key.length)
    else
      c :: subWB w key repl (some c) rest
termination_by _ s => s.length
decreasing_by
  · have hne := matchAt_ne_nil h
    have hl : 1 ≤ key.length := List.length_pos.mpr hne
    simp [List.length_drop]
    omega
  · simp

/-- Number of leading `'.'` characters. -/
def dotRun : List Char → Nat
  | [] => 0
  | c :: rest => if c = '.' then dotRun rest + 1 else 0

/-- `re.sub(r'\.{2,}', '...', text)`: collapse every maximal run of two or
more periods to exactly three. -/
def collapseDots (s : List Char) : List Char :=
  match s with
  | [] => []
  | c :: rest =>
    if _h : c = '.' ∧ dotRun rest ≠ 0 then
      '.' :: '.' :: '.' :: collapseDots (rest.drop (dotRun rest))
    else
      c :: collapseDots rest
termination_by s.length
decreasing_by
  · simp [List.length_drop]; omega
  · simp

/-- `text.replace(k, r)` for single characters. -/
def replaceChar (s : List Char) (k r : Char) : List Char :=
  s.map (fun c => if c = k then r else c)

/-- The `for char, replacement in mapping.items(): text = text.replace(...)`
loops for the quote and dash mappings. -/
def applyCharMap (m : List (Char × Char)) (s : List Char) : List Char :=
  m.foldl (fun acc kv => replaceChar acc kv.1 kv.2) s

/-- `text.replace('&', 'and')`. -/
def expandAmp : List Char → List Char
  | [] => []
  | c :: rest =>
    if c = '&' then 'a' :: 'n' :: 'd' :: expandAmp rest
    else c :: expandAmp rest

/-- The word-bounded substitution loops for the abbreviation and
contraction dictionaries, in dictionary order. -/
def applySubs (w : Char → Bool) (dict : List (String × String))
    (s : List Char) : List Char :=
  dict.foldl (fun acc kv => subWB w kv.1.data kv.2.data none acc) s

/-- `text.replace(k, r)` for an arbitrary (non-empty) string key `k`:
leftmost non-overlapping occurrences are replaced and scanning resumes
after the inserted replacement, which is never rescanned. The fuel
argument (instantiated with the text length in `strReplace`) only makes
the recursion structural; every step consumes at least one character, so
the fuel never runs out before the text does. -/
def strReplaceAux (k r : List Char) : Nat → List Char → List Char
  | 0, s => s
  | _ + 1, [] => []
  | n + 1, c :: rest =>
    if k.isPrefixOf (c :: rest) then
      r ++ strReplaceAux k r n ((c :: rest).drop k.length)
    else
      c :: strReplaceAux k r n rest

def strReplace (k r s : List Char) : List Char :=
  strReplaceAux k r s.length s

/-- The `for char, replacement in mapping.items(): text = text.replace(...)`
loop for the quote mapping, whose keys are strings. -/
def applyStrMap (m : List (String × String)) (s : List Char) : List Char :=
  m.foldl (fun acc kv => strReplace kv.1.data kv.2.data acc) s

/-- `self.quote_chars`, as the dict literal actually parses (insertion
order). The literal's first two entries both use the plain ASCII key
`'"'`, so the dict keeps a single identity entry for it; the lines
commented "left/right single quotation mark" begin with three consecutive
apostrophes and therefore parse as one triple-quoted 49-character key
(everything up to the next triple apostrophe, including the first line's
trailing comment, the newline and the 12 spaces of indentation) mapped to
a single apostrophe. No curly-quote single quotation keys exist. -/
def quoteKey : String :=
  ": \"'\",  # left single quotation mark\n            "

def quoteChars : List (String × String) :=
  [("\"", "\""), ("„", "\""), ("‟", "\""),
   (quoteKey, "'"), ("‚", "'"), ("‛", "'")]

/-- `self.dash_chars` (insertion order). -/
def dashChars : List (Char × Char) :=
  [('–', '-'), ('—', '-'), ('―', '-'), ('‐', '-'),
   ('‑', '-'), ('‒', '-'), ('−', '-')]

/-- `self.abbreviations` (insertion order). -/
def abbreviations : List (String × String) :=
  [("U.S.", "United States"),
   ("U.S.C.", "United States Code"),
   ("C.F.R.", "Code of Federal Regulations"),
   ("Fed. Reg.", "Federal Register"),
   ("et al.", "et alia"),
   ("et seq.", "et sequentes"),
   ("i.e.", "that is"),
   ("e.g.", "for example")]

/-- `self.contractions` (insertion order). -/
def contractions : List (String × String) :=
  [("ain't", "is not"), ("aren't", "are not"), ("can't", "cannot"),
   ("couldn't", "could not"), ("didn't", "did not"), ("doesn't", "does not"),
   ("don't", "do not"), ("hadn't", "had not"), ("hasn't", "has not"),
   ("haven't", "have not"), ("he'd", "he would"), ("he'll", "he will"),
   ("he's", "he is"), ("I'd", "I would"), ("I'll", "I will"),
   ("I'm", "I am"), ("I've", "I have"), ("isn't", "is not"),
   ("it's", "it is"), ("let's", "let us"), ("mightn't", "might not"),
   ("mustn't", "must not"), ("shan't", "shall not"), ("she'd", "she would"),
   ("she'll", "she will"), ("she's", "she is"), ("shouldn't", "should not"),
   ("that's", "that is"), ("there's", "there is"), ("they'd", "they would"),
   ("they'll", "they will"), ("they're", "they are"), ("they've", "they have"),
   ("we'd", "we would"), ("we're", "we are"), ("we've", "we have"),
   ("weren't", "were not"), ("what'll", "what will"), ("what're", "what are"),
   ("what's", "what is"), ("what've", "what have"), ("where's", "where is"),
   ("who'd", "who would"), ("who'll", "who will"), ("who're", "who are"),
   ("who's", "who is"), ("who've", "who have"), ("won't", "will not"),
   ("wouldn't", "would not"), ("you'd", "you would"), ("you'll", "you will"),
   ("you're", "you are"), ("you've", "you have")]

/-- Configuration of `TextNormalizer`, with the constructor defaults. -/
structure TextNormalizer : Type where
  normalize_quotes : Bool := true
  normalize_dashes : Bool := true
  normalize_ellipses : Bool := true
  normalize_ampersands : Bool := true
  normalize_abbreviations : Bool := false
  expand_contractions : Bool := false

namespace TextNormalizer

/-- The text transformation of `TextNormalizer.process`: the six optional
normalization steps in source order. -/
def processText (w : Char → Bool) (cfg : TextNormalizer) (s : List Char) :
    List Char :=
  let s1 := if cfg.normalize_quotes then applyStrMap quoteChars s else s
  let s2 := if cfg.normalize_dashes then applyCharMap dashChars s1 else s1
  let s3 := if cfg.normalize_ellipses then collapseDots s2 else s2
  let s4 := if cfg.normalize_ampersands then expandAmp s3 else s3
  let s5 := if cfg.normalize_abbreviations then applySubs w abbreviations s4
            else s4
  if cfg.expand_contractions then applySubs w contractions s5 else s5

/-- `TextNormalizer.process`: rewrite the text and record the step. -/
def process (w : Char → Bool) (cfg : TextNormalizer)
    (d : ProcessedDocument) : ProcessedDocument :=
  let d1 := { d with text := String.mk (processText w cfg d.text.data) }
  d1.add_processing_step "text_normalization"
    [("normalize_quotes", SVal.b cfg.normalize_quotes),
     ("normalize_dashes", SVal.b cfg.normalize_dashes),
     ("normalize_ellipses", SVal.b cfg.normalize_ellipses),
     ("normalize_ampersands", SVal.b cfg.normalize_ampersands),
     ("normalize_abbreviations", SVal.b cfg.normalize_abbreviations),
     ("expand_contractions", SVal.b cfg.expand_contractions)]

end TextNormalizer

/-! ## `ProcessingPipeline` (`base.py` lines 161–263)

A stage is one of the modelled processors, one per processing category
(cleaning, tokenization, quality assessment, filtering, deduplication).
External collaborators of a stage (the `\w` predicate, the sentence
segmenter, the content hash, the builtin string hash) travel with it.
Values flowing between per-document stages are `Option ProcessedDocument`
(`none` is Python's `None`, produced by a dropping `ContentFilter`);
a processor given anything but a `ProcessedDocument` raises `TypeError`,
modelled by `Except.error`. -/

inductive PStage : Type where
  | cleaning (w : Char → Bool) (cfg : TextNormalizer)
  | tokenization (split : String → List String) (cfg : SentenceTokenizer)
  | quality (cfg : QualityScorer)
  | filtering (cfg : ContentFilter)
  | dedup (hashFn : String → String) (h : String → Int) (cfg : Deduplicator)

namespace PStage

/-- Whether the stage is a `BatchProcessor` (only the `Deduplicator` is). -/
def isBatchStage : PStage → Bool
  | dedup _ _ _ => true
  | _ => false

/-- `processor.process(value)` for a per-document processor: the
`isinstance` check raises `TypeError` on anything but a document. -/
def procDoc : PStage → Option ProcessedDocument →
    Except String (Option ProcessedDocument)
  | _, none => Except.error "Expected ProcessedDocument"
  | cleaning w cfg, some d => Except.ok (some (TextNormalizer.process w cfg d))
  | tokenization split cfg, some d =>
      Except.ok (some (SentenceTokenizer.process split cfg d))
  | quality cfg, some d => Except.ok (some (QualityScorer.process cfg d))
  | filtering cfg, some d => Except.ok (ContentFilter.process cfg d)
  | dedup _ _ _, some d => Except.ok (some d)

end PStage

/-- The sub-batches `documents[i:i+batch_size]` for
`i in range(0, len(documents), batch_size)`.  (`batch_size = 0` would raise
in Python; the claims only use positive sizes.) -/
def chunks (bs : Nat) : List α → List (List α)
  | [] => []
  | a :: l =>
    if h : bs = 0 then []
    else (a :: l).take bs :: chunks bs ((a :: l).drop bs)
termination_by l => l.length
decreasing_by
  have hb : 1 ≤ bs := Nat.one_le_iff_ne_zero.mpr h
  simp [List.length_drop]
  omega

/-- One stage of `ProcessingPipeline.process_document`: batch processors
are skipped by the `isinstance(processor, Processor)` test. -/
def pdStep (o : Option ProcessedDocument) :
    PStage → Except String (Option ProcessedDocument)
  | PStage.dedup _ _ _ => Except.ok o
  | st => st.procDoc o

/-- `ProcessingPipeline.process_document`: apply per-document processors in
order. -/
def processDocument (stages : List PStage) (d : ProcessedDocument) :
    Except String (Option ProcessedDocument) :=
  stages.foldlM pdStep (some d)

/-- One stage of `ProcessingPipeline.process_batch`: a batch stage first
type-checks every element, then processes sub-batches of size `bs`
independently and concatenates the results; a per-document stage is mapped
over the current batch. -/
def pbStep (bs : Nat) (batch : List (Option ProcessedDocument)) :
    PStage → Except String (List (Option ProcessedDocument))
  | PStage.dedup hashFn h cfg => do
      let pds ← batch.mapM
        (fun o =>
          match o with
          | some d => Except.ok d
          | none => Except.error "Expected ProcessedDocument")
      Except.ok
        (((chunks bs pds).map
            (Deduplicator.process_batch hashFn h cfg)).flatten.map some)
  | st => batch.mapM st.procDoc

/-- `ProcessingPipeline.process_batch`: thread the whole batch through the
stage list. -/
def processBatch (stages : List PStage) (bs : Nat)
    (docs : List ProcessedDocument) :
    Except String (List (Option ProcessedDocument)) :=
  stages.foldlM (pbStep bs) (docs.map some)

/-! ## Claim C6: construction-time validation of the `Deduplicator` -/

/-- C6.  Constructing a `Deduplicator` with a method name outside
`{exact, simhash, minhash}` or a hash-function name outside
`{md5, sha1, sha256}` fails at construction time with an error, before any
document is processed; construction with names inside those sets succeeds
(and records the given configuration). -/
theorem claim_C6 (method : String) (thr : ℚ) (hf : String) (n : Nat)
    (kf : Bool) :
    (method ∈ (["exact", "simhash", "minhash"] : List String) ∧
        hf ∈ (["md5", "sha1", "sha256"] : List String) →
      Deduplicator.init method thr hf n kf =
        Except.ok
          { method := method, similarity_threshold := thr,
            hash_function := hf, ngram_size := n, keep_first := kf }) ∧
    (method ∉ (["exact", "simhash", "minhash"] : List String) ∨
        hf ∉ (["md5", "sha1", "sha256"] : List String) →
      ∃ e, Deduplicator.init method thr hf n kf = Except.error e) := by
  constructor
  · rintro ⟨hm, hh⟩
    simp [Deduplicator.init, hm, hh]
  · intro hbad
    unfold Deduplicator.init
    by_cases hm : method ∈ (["exact", "simhash", "minhash"] : List String)
    · have hh : hf ∉ (["md5", "sha1", "sha256"] : List String) := by
        rcases hbad with h1 | h2
        · exact absurd hm h1
        · exact h2
      simp [hm, hh]
    · simp [hm]

/-- Witness for C6: both sides at concrete names — construction succeeds
for `("exact", "md5")` and fails for the unsupported method `"fuzzy"`. -/
theorem claim_C6_witness :
    Deduplicator.init "exact" (9/10) "md5" 3 true =
      Except.ok
        { method := "exact", similarity_threshold := 9/10,
          hash_function := "md5", ngram_size := 3, keep_first := true } ∧
    ∃ e, Deduplicator.init "fuzzy" (9/10) "md5" 3 true = Except.error e :=
  ⟨(claim_C6 "exact" (9/10) "md5" 3 true).1 (by decide),
   (claim_C6 "fuzzy" (9/10) "md5" 3 true).2 (Or.inl (by decide))⟩

/-! ## Dictionary lemmas -/

theorem lookup_mapReplace_ne {l : Meta} {k k' : String} {v : MVal}
    (h : k' ≠ k) :
    (l.map (fun kv => if kv.1 = k then (k, v) else kv)).lookup k' =
      l.lookup k' := by
  induction l with
  | nil => rfl
  | cons b t ih =>
    by_cases hb : b.1 = k
    · simp only [List.map_cons, hb, if_true]
      rw [List.lookup_cons, List.lookup_cons]
      have hne : (k' == k) = false := beq_false_of_ne h
      have hne2 : (k' == b.1) = false := beq_false_of_ne (hb ▸ h)
      simp [hne, hne2, ih]
    · simp only [List.map_cons, hb, if_false]
      rw [List.lookup_cons, List.lookup_cons]
      by_cases he : k' = b.1
      · simp [he]
      · simp [beq_false_of_ne he, ih]

theorem msets_cons_eq {a : String × MVal} {l : Meta} {k : String} {v : MVal}
    (h : a.1 = k) :
    msets (a :: l) k v =
      (k, v) :: l.map (fun kv => if kv.1 = k then (k, v) else kv) := by
  have hl : ((a :: l).lookup k).isSome = true := by
    rw [List.lookup_cons]
    simp [← h]
  simp [msets, hl, h]

theorem msets_cons_ne {a : String × MVal} {l : Meta} {k : String} {v : MVal}
    (h : a.1 ≠ k) :
    msets (a :: l) k v = a :: msets l k v := by
  have hbe : (k == a.1) = false := beq_false_of_ne (Ne.symm h)
  have hl : (a :: l).lookup k = l.lookup k := by
    rw [List.lookup_cons]
    simp [hbe]
  by_cases hc : (l.lookup k).isSome
  · simp [msets, hl, hc, h]
  · simp only [msets, hl, hc, if_false, Bool.false_eq_true]
    simp [List.cons_append]

theorem lookup_msets_self (m : Meta) (k : String) (v : MVal) :
    (msets m k v).lookup k = some v := by
  induction m with
  | nil => simp [msets, List.lookup]
  | cons a l ih =>
    by_cases h : a.1 = k
    · rw [msets_cons_eq h, List.lookup_cons]
      simp
    · rw [msets_cons_ne h, List.lookup_cons]
      simp [beq_false_of_ne (Ne.symm h), ih]

theorem lookup_msets_ne (m : Meta) {k k' : String} (v : MVal) (h : k' ≠ k) :
    (msets m k v).lookup k' = m.lookup k' := by
  induction m with
  | nil => simp [msets, List.lookup, beq_false_of_ne h]
  | cons a l ih =>
    by_cases ha : a.1 = k
    · rw [msets_cons_eq ha, List.lookup_cons, List.lookup_cons]
      have : (k' == k) = false := beq_false_of_ne h
      simp only [this]
      by_cases he : k' = a.1
      · exact absurd (he.trans ha) h
      · simp [beq_false_of_ne he, lookup_mapReplace_ne h, ha ▸ beq_false_of_ne he]
    · rw [msets_cons_ne ha, List.lookup_cons, List.lookup_cons]
      by_cases he : k' = a.1
      · simp [he]
      · simp [beq_false_of_ne he, ih]

/-! ## Claim C3: filter check order and `filter_reason` -/

namespace ContentFilter

/-- `process` and the spec-order function agree: the code rejects with the
reason of the first failing check and passes exactly when none fails. -/
theorem process_eq_firstFailing (cfg : ContentFilter) (d : ProcessedDocument) :
    process cfg d =
      match firstFailingCheck cfg d with
      | some r => reject cfg d r
      | none => some (passDoc cfg d) := by
  unfold process firstFailingCheck checkQuality checkPatterns
  by_cases h1 : (d.text.length : Int) < cfg.min_length
  · simp [h1]
  · simp only [h1, if_false]
    cases hm : cfg.max_length with
    | some M =>
      by_cases h2 : (d.text.length : Int) > M
      · simp [h2]
      · simp only [h2, if_false]
        cases hq : d.quality_score with
        | some q =>
          by_cases h3 : q < cfg.min_quality_score
          · simp [h3]
          · simp only [h3, if_false]
            cases hr : cfg.required_patterns.findIdx? (fun p => !(p d.text)) with
            | some i => simp
            | none =>
              cases hx : cfg.excluded_patterns.findIdx? (fun p => p d.text) with
              | some i => simp [hr]
              | none => simp [hr]
        | none =>
          cases hr : cfg.required_patterns.findIdx? (fun p => !(p d.text)) with
          | some i => simp
          | none =>
            cases hx : cfg.excluded_patterns.findIdx? (fun p => p d.text) with
            | some i => simp [hr]
            | none => simp [hr]
    | none =>
      cases hq : d.quality_score with
      | some q =>
        by_cases h3 : q < cfg.min_quality_score
        · simp [h3]
        · simp only [h3, if_false]
          cases hr : cfg.required_patterns.findIdx? (fun p => !(p d.text)) with
          | some i => simp
          | none =>
            cases hx : cfg.excluded_patterns.findIdx? (fun p => p d.text) with
            | some i => simp [hr]
            | none => simp [hr]
      | none =>
        cases hr : cfg.required_patterns.findIdx? (fun p => !(p d.text)) with
        | some i => simp
        | none =>
          cases hx : cfg.excluded_patterns.findIdx? (fun p => p d.text) with
          | some i => simp [hr]
          | none => simp [hr]

end ContentFilter

/-- C3.  For every record and every `ContentFilter` configuration, the
checks run in the fixed order minimum length, maximum length, minimum
quality score (only if a score exists), required patterns in configured
order, excluded patterns (`firstFailingCheck`), and the recorded
`filter_reason` is that of the first failing check; in particular, for a
record violating a length bound (and possibly also a required pattern),
the reason reports the length violation. -/
theorem claim_C3 (cfg : ContentFilter) (d : ProcessedDocument) :
    (∀ r, ContentFilter.firstFailingCheck cfg d = some r →
      (cfg.keep_document = true →
        ∃ d', ContentFilter.process cfg d = some d' ∧
          mget d'.processing_metadata "filter_reason" = some (MVal.reason r) ∧
          mget d'.processing_metadata "filtered" = some (MVal.b true)) ∧
      (cfg.keep_document = false → ContentFilter.process cfg d = none)) ∧
    (ContentFilter.firstFailingCheck cfg d = none →
      ∃ d', ContentFilter.process cfg d = some d' ∧
        mget d'.processing_metadata "filtered" = some (MVal.b false)) ∧
    ((d.text.length : Int) < cfg.min_length →
      ContentFilter.firstFailingCheck cfg d =
        some (FilterReason.tooShort (d.text.length : Int) cfg.min_length)) := by
  have hpf := ContentFilter.process_eq_firstFailing cfg d
  refine ⟨?_, ?_, ?_⟩
  · intro r hr
    rw [hr] at hpf
    constructor
    · intro hkeep
      rw [hpf]
      simp only [ContentFilter.reject, hkeep]
      rw [if_neg (by simp)]
      refine ⟨_, rfl, ?_, ?_⟩
      · show List.lookup "filter_reason"
          (msets (msets d.processing_metadata "filtered" (MVal.b true))
            "filter_reason" (MVal.reason r)) = some (MVal.reason r)
        exact lookup_msets_self _ _ _
      · show List.lookup "filtered"
          (msets (msets d.processing_metadata "filtered" (MVal.b true))
            "filter_reason" (MVal.reason r)) = some (MVal.b true)
        rw [lookup_msets_ne _ _ (by decide)]
        exact lookup_msets_self _ _ _
    · intro hkeep
      rw [hpf]
      simp [ContentFilter.reject, hkeep]
  · intro hn
    rw [hn] at hpf
    refine ⟨_, hpf, ?_⟩
    simp only [ContentFilter.passDoc, ProcessedDocument.add_processing_step, mget]
    rw [if_neg (by simp)]
    show List.lookup "filtered"
      (msets (msets d.processing_metadata "filtered" (MVal.b false))
        "content_filtering" _) = some (MVal.b false)
    rw [lookup_msets_ne _ _ (by decide)]
    exact lookup_msets_self _ _ _
  · intro hlen
    unfold ContentFilter.firstFailingCheck
    simp [hlen]

/-- A filter configuration whose length bound and required pattern are both
violated by `docC3w`. -/
def cfgC3w : ContentFilter :=
  { min_length := 10,
    required_patterns := [fun t => decide (t.length ≥ 100)] }

/-- A five-character record (violating both the length bound and the
required pattern of `cfgC3w`). -/
def docC3w : ProcessedDocument :=
  { id := "d1", source := "test", source_id := "t1", text := "short" }

/-- Witness for C3: on a record violating both the minimum length and a
required pattern, the recorded reason is the length violation. -/
theorem claim_C3_witness :
    ∃ d', ContentFilter.process cfgC3w docC3w = some d' ∧
      mget d'.processing_metadata "filter_reason" =
        some (MVal.reason (FilterReason.tooShort 5 10)) := by
  have h := claim_C3 cfgC3w docC3w
  have hf : ContentFilter.firstFailingCheck cfgC3w docC3w =
      some (FilterReason.tooShort 5 10) := by decide
  obtain ⟨d', h1, h2, _⟩ := (h.1 _ hf).1 (by decide)
  exact ⟨d', h1, h2⟩

/-! ## Claim C4: quality sub-scores and composite score ranges -/

/-- A list of naturals that are all at least one sums to at least its
length. -/
theorem length_le_sum_of_one_le :
    ∀ (l : List Nat), (∀ x ∈ l, 1 ≤ x) → l.length ≤ l.sum := by
  intro l
  induction l with
  | nil => intro _; simp
  | cons a t ih =>
    intro h
    have ha := h a (by simp)
    have ht := ih (fun x hx => h x (by simp [hx]))
    simp only [List.length_cons, List.sum_cons]
    omega

namespace QualityScorer

theorem lengthScore_range (cfg : QualityScorer) (L : Int) (hL : 0 ≤ L)
    (hM : ∀ M, cfg.max_length = some M → 0 < M) :
    0 ≤ lengthScore cfg L ∧ lengthScore cfg L ≤ 1 := by
  unfold lengthScore
  cases hm : cfg.max_length with
  | none =>
    by_cases hge : L ≥ cfg.min_length
    · simp [hge]
    · have hmin : 0 < cfg.min_length := lt_of_le_of_lt hL (not_le.mp hge)
      have hminq : (0 : ℚ) < (cfg.min_length : ℚ) := by exact_mod_cast hmin
      simp only [hge, if_false]
      constructor
      · exact div_nonneg (by exact_mod_cast hL) (le_of_lt hminq)
      · rw [div_le_one hminq]
        exact_mod_cast le_of_lt (not_le.mp hge)
  | some M =>
    have hMpos : 0 < M := hM M hm
    have hMq : (0 : ℚ) < (M : ℚ) := by exact_mod_cast hMpos
    by_cases hgt : L > M
    · simp only [hgt, if_true]
      constructor
      · exact le_max_left 0 _
      · apply max_le (by norm_num)
        have hx : (0 : ℚ) ≤ ((L - M : Int) : ℚ) / (M : ℚ) := by
          apply div_nonneg _ (le_of_lt hMq)
          have : (0 : Int) ≤ L - M := by omega
          exact_mod_cast this
        linarith
    · simp only [hgt, if_false]
      constructor
      · exact le_min (by norm_num) (le_max_left 0 _)
      · exact min_le_left 1 _

theorem avgWordLengthScore_range (cfg : QualityScorer) (avg : ℚ)
    (havg : 0 < avg) (hmax : 0 < cfg.max_avg_word_length) :
    0 ≤ avgWordLengthScore cfg avg ∧ avgWordLengthScore cfg avg ≤ 1 := by
  unfold avgWordLengthScore
  by_cases h1 : avg < cfg.min_avg_word_length
  · have hminpos : 0 < cfg.min_avg_word_length := lt_trans havg h1
    simp only [h1, if_true]
    constructor
    · exact div_nonneg (le_of_lt havg) (le_of_lt hminpos)
    · rw [div_le_one hminpos]
      exact le_of_lt h1
  · simp only [h1, if_false]
    by_cases h2 : avg > cfg.max_avg_word_length
    · simp only [h2, if_true]
      constructor
      · exact le_max_left 0 _
      · apply max_le (by norm_num)
        have : 0 ≤ (avg - cfg.max_avg_word_length) / cfg.max_avg_word_length :=
          div_nonneg (by linarith) (le_of_lt hmax)
        linarith
    · simp [h2]

theorem sentenceCountUsed_pos (md : Meta) (text : String)
    (h : 0 ≤ mgetInt md "sentence_count") :
    1 ≤ sentenceCountUsed md text := by
  unfold sentenceCountUsed
  by_cases h0 : mgetInt md "sentence_count" = 0
  · simp only [h0, if_true]
    exact le_max_left 1 _
  · simp only [h0, if_false]
    omega

theorem sentenceCountScore_range (cfg : QualityScorer) (sc : Int)
    (hsc : 1 ≤ sc) (hmin : 1 ≤ cfg.min_sentence_count) :
    0 ≤ min 1 ((sc : ℚ) / (cfg.min_sentence_count : ℚ)) ∧
      min 1 ((sc : ℚ) / (cfg.min_sentence_count : ℚ)) ≤ 1 := by
  constructor
  · apply le_min (by norm_num)
    apply div_nonneg
    · exact_mod_cast le_trans (by norm_num) hsc
    · exact_mod_cast le_trans (by norm_num) hmin
  · exact min_le_left 1 _

theorem repetitionScore_range (cfg : QualityScorer) (ratio : ℚ) :
    0 ≤ repetitionScore cfg ratio ∧ repetitionScore cfg ratio ≤ 1 := by
  unfold repetitionScore
  constructor
  · exact le_max_left 0 _
  · exact max_le (by norm_num) (min_le_left 1 _)

theorem alnumScore_range (cfg : QualityScorer) (ratio : ℚ)
    (h0 : 0 ≤ ratio) :
    0 ≤ (if ratio < cfg.min_alphanumeric_ratio then
          ratio / cfg.min_alphanumeric_ratio else 1) ∧
      (if ratio < cfg.min_alphanumeric_ratio then
          ratio / cfg.min_alphanumeric_ratio else 1) ≤ 1 := by
  by_cases h : ratio < cfg.min_alphanumeric_ratio
  · have hpos : 0 < cfg.min_alphanumeric_ratio := lt_of_le_of_lt h0 h
    simp only [h, if_true]
    constructor
    · exact div_nonneg h0 (le_of_lt hpos)
    · rw [div_le_one hpos]
      exact le_of_lt h
  · simp [h]

theorem stringMk_ne_empty {l : List Char} (h : l ≠ []) : String.mk l ≠ "" := by
  intro he
  apply h
  have hd := congrArg String.data he
  simpa using hd

theorem pySplitAux_all_ne :
    ∀ (l acc : List Char), ∀ w ∈ pySplitAux l acc, w ≠ "" := by
  intro l
  induction l with
  | nil =>
    intro acc w hw
    unfold pySplitAux at hw
    by_cases h : acc.isEmpty
    · simp [h] at hw
    · simp only [h, Bool.false_eq_true, if_false, List.mem_singleton] at hw
      subst hw
      apply stringMk_ne_empty
      simp only [ne_eq, List.reverse_eq_nil_iff]
      intro hnil
      simp [hnil] at h
  | cons c rest ih =>
    intro acc w hw
    unfold pySplitAux at hw
    by_cases hws : c.isWhitespace
    · simp only [hws, if_true] at hw
      by_cases h : acc.isEmpty
      · simp only [h, if_true] at hw
        exact ih [] w hw
      · simp only [h, Bool.false_eq_true, if_false, List.mem_cons] at hw
        rcases hw with rfl | hmem
        · apply stringMk_ne_empty
          simp only [ne_eq, List.reverse_eq_nil_iff]
          intro hnil
          simp [hnil] at h
        · exact ih [] w hmem
    · simp only [hws, Bool.false_eq_true, if_false] at hw
      exact ih (c :: acc) w hw

theorem pySplit_all_ne (s : String) : ∀ w ∈ pySplit s, w ≠ "" :=
  pySplitAux_all_ne s.data []

theorem avgWordLength_pos (words : List String) (hne : words.length ≠ 0)
    (hw : ∀ w ∈ words, w ≠ "") : 0 < avgWordLength words := by
  unfold avgWordLength
  simp only [hne, if_true, ne_eq, not_false_iff]
  have hlen : 0 < words.length := Nat.pos_of_ne_zero hne
  have hsum : words.length ≤ (words.map String.length).sum := by
    have := length_le_sum_of_one_le (words.map String.length) ?_
    · simpa using this
    · intro x hx
      obtain ⟨w, hwmem, rfl⟩ := List.mem_map.mp hx
      have hwne : w ≠ "" := hw w hwmem
      have hpos : 0 < w.length := by
        rcases w with ⟨cs⟩
        have hcs : cs ≠ [] := by
          intro hnil
          subst hnil
          exact hwne rfl
        simpa [String.length] using List.length_pos.mpr hcs
      omega
  apply div_pos
  · have : (0 : Int) < ((words.map String.length).sum : Int) := by
      exact_mod_cast lt_of_lt_of_le hlen hsum
    exact_mod_cast this
  · exact_mod_cast hlen

end QualityScorer

/-- The five sub-score keys of the quality metrics dict. -/
def scoreKeys : List String :=
  ["length_score", "avg_word_length_score", "sentence_count_score",
   "repetition_score", "alphanumeric_score"]

namespace QualityScorer

/-- The `length_score` recorded for a document. -/
def lengthScoreOf (cfg : QualityScorer) (d : ProcessedDocument) : ℚ :=
  lengthScore cfg (d.text.length : Int)

/-- The `avg_word_length_score` recorded for a document. -/
def awlScoreOf (cfg : QualityScorer) (d : ProcessedDocument) : ℚ :=
  if (pySplit d.text).length ≠ 0 then
    avgWordLengthScore cfg (avgWordLength (pySplit d.text))
  else 0

/-- The `sentence_count_score` recorded for a document. -/
def scScoreOf (cfg : QualityScorer) (d : ProcessedDocument) : ℚ :=
  min 1 ((sentenceCountUsed d.processing_metadata d.text : ℚ) /
    (cfg.min_sentence_count : ℚ))

/-- The `repetition_ratio` recorded for a document. -/
def repRatioOf (d : ProcessedDocument) : ℚ :=
  if (pySplit d.text).length ≠ 0 then
    1 - (((pySplit d.text).toFinset.card : Int) : ℚ) /
      (((pySplit d.text).length : Int) : ℚ)
  else 1

/-- The `repetition_score` recorded for a document. -/
def repScoreOf (cfg : QualityScorer) (d : ProcessedDocument) : ℚ :=
  if (pySplit d.text).length ≠ 0 then repetitionScore cfg (repRatioOf d)
  else 0

/-- The `alphanumeric_ratio` recorded for a document. -/
def alnumRatioOf (d : ProcessedDocument) : ℚ :=
  if (d.text.length : Int) > 0 then
    (((d.text.data.filter Char.isAlphanum).length : Int) : ℚ) /
      ((d.text.length : Int) : ℚ)
  else 0

/-- The `alphanumeric_score` recorded for a document. -/
def alnumScoreOf (cfg : QualityScorer) (d : ProcessedDocument) : ℚ :=
  if alnumRatioOf d < cfg.min_alphanumeric_ratio then
    alnumRatioOf d / cfg.min_alphanumeric_ratio
  else 1

theorem metrics_lookup_length (cfg : QualityScorer) (d : ProcessedDocument) :
    (computeMetrics cfg d).lookup "length_score" = some (lengthScoreOf cfg d) :=
  rfl

theorem metrics_lookup_awl (cfg : QualityScorer) (d : ProcessedDocument) :
    (computeMetrics cfg d).lookup "avg_word_length_score" =
      some (awlScoreOf cfg d) :=
  rfl

theorem metrics_lookup_sc (cfg : QualityScorer) (d : ProcessedDocument) :
    (computeMetrics cfg d).lookup "sentence_count_score" =
      some (scScoreOf cfg d) :=
  rfl

theorem metrics_lookup_scount (cfg : QualityScorer) (d : ProcessedDocument) :
    (computeMetrics cfg d).lookup "sentence_count" =
      some ((sentenceCountUsed d.processing_metadata d.text : Int) : ℚ) :=
  rfl

theorem metrics_lookup_rep (cfg : QualityScorer) (d : ProcessedDocument) :
    (computeMetrics cfg d).lookup "repetition_score" =
      some (repScoreOf cfg d) :=
  rfl

theorem metrics_lookup_alnum (cfg : QualityScorer) (d : ProcessedDocument) :
    (computeMetrics cfg d).lookup "alphanumeric_score" =
      some (alnumScoreOf cfg d) :=
  rfl

theorem composite_default_eq (cfg : QualityScorer) (d : ProcessedDocument) :
    compositeScore defaultWeights (computeMetrics cfg d) =
      0 + lengthScoreOf cfg d * (1/5) + awlScoreOf cfg d * (1/10) +
        scScoreOf cfg d * (1/5) + repScoreOf cfg d * (1/5) +
        alnumScoreOf cfg d * (3/10) :=
  rfl

theorem lengthScoreOf_range (cfg : QualityScorer) (d : ProcessedDocument)
    (hM : ∀ M, cfg.max_length = some M → 0 < M) :
    0 ≤ lengthScoreOf cfg d ∧ lengthScoreOf cfg d ≤ 1 :=
  lengthScore_range cfg _ (Int.ofNat_nonneg _) hM

theorem awlScoreOf_range (cfg : QualityScorer) (d : ProcessedDocument)
    (hmax : 0 < cfg.max_avg_word_length) :
    0 ≤ awlScoreOf cfg d ∧ awlScoreOf cfg d ≤ 1 := by
  unfold awlScoreOf
  by_cases hne : (pySplit d.text).length ≠ 0
  · simp only [hne, if_true, ne_eq, not_false_iff]
    exact avgWordLengthScore_range cfg _
      (avgWordLength_pos _ hne (pySplit_all_ne d.text)) hmax
  · simp [hne]

theorem scScoreOf_range (cfg : QualityScorer) (d : ProcessedDocument)
    (hmin : 1 ≤ cfg.min_sentence_count)
    (hstored : 0 ≤ mgetInt d.processing_metadata "sentence_count") :
    0 ≤ scScoreOf cfg d ∧ scScoreOf cfg d ≤ 1 :=
  sentenceCountScore_range cfg _
    (sentenceCountUsed_pos d.processing_metadata d.text hstored) hmin

theorem repScoreOf_range (cfg : QualityScorer) (d : ProcessedDocument) :
    0 ≤ repScoreOf cfg d ∧ repScoreOf cfg d ≤ 1 := by
  unfold repScoreOf
  by_cases hne : (pySplit d.text).length ≠ 0
  · simp only [hne, if_true, ne_eq, not_false_iff]
    exact repetitionScore_range cfg _
  · simp [hne]

theorem alnumScoreOf_range (cfg : QualityScorer) (d : ProcessedDocument) :
    0 ≤ alnumScoreOf cfg d ∧ alnumScoreOf cfg d ≤ 1 := by
  have hratio : 0 ≤ alnumRatioOf d := by
    unfold alnumRatioOf
    by_cases h : (d.text.length : Int) > 0
    · simp only [h, if_true]
      apply div_nonneg
      · exact_mod_cast Int.ofNat_nonneg _
      · exact_mod_cast le_of_lt h
    · simp [h]
  exact alnumScore_range cfg _ hratio

end QualityScorer

/-- C4 (amended).  For every input text and every `QualityScorer`
configuration whose numeric thresholds are sensible — `min_sentence_count`
at least 1, non-zero `max_repetition_ratio`, a positive `max_length` when
one is set, positive `max_avg_word_length` — and whose record carries no
negative stored `sentence_count`, each of the five sub-scores lies in
`[0,1]`, and with the default weight mapping the composite `quality_score`
also lies in `[0,1]`.  (The restriction is forced: `claim_C4_cex` shows a
configuration with a negative `min_sentence_count` produces a
`sentence_count_score` below 0.) -/
theorem claim_C4 (cfg : QualityScorer) (d : ProcessedDocument)
    (h1 : 1 ≤ cfg.min_sentence_count)
    (h2 : cfg.max_repetition_ratio ≠ 0)
    (h3 : ∀ M, cfg.max_length = some M → 0 < M)
    (h4 : 0 < cfg.max_avg_word_length)
    (h5 : 0 ≤ mgetInt d.processing_metadata "sentence_count") :
    (∀ k ∈ scoreKeys, ∀ v,
      (QualityScorer.process cfg d).quality_metrics.lookup k = some v →
        0 ≤ v ∧ v ≤ 1) ∧
    (cfg.weights = defaultWeights →
      ∀ q, (QualityScorer.process cfg d).quality_score = some q →
        0 ≤ q ∧ q ≤ 1) := by
  have hqm : (QualityScorer.process cfg d).quality_metrics =
      QualityScorer.computeMetrics cfg d := rfl
  constructor
  · intro k hk v hv
    rw [hqm] at hv
    have hmem : k = "length_score" ∨ k = "avg_word_length_score" ∨
        k = "sentence_count_score" ∨ k = "repetition_score" ∨
        k = "alphanumeric_score" := by
      simpa [scoreKeys] using hk
    rcases hmem with rfl | rfl | rfl | rfl | rfl
    · rw [QualityScorer.metrics_lookup_length] at hv
      exact Option.some_injective _ hv ▸ QualityScorer.lengthScoreOf_range cfg d h3
    · rw [QualityScorer.metrics_lookup_awl] at hv
      exact Option.some_injective _ hv ▸ QualityScorer.awlScoreOf_range cfg d h4
    · rw [QualityScorer.metrics_lookup_sc] at hv
      exact Option.some_injective _ hv ▸ QualityScorer.scScoreOf_range cfg d h1 h5
    · rw [QualityScorer.metrics_lookup_rep] at hv
      exact Option.some_injective _ hv ▸ QualityScorer.repScoreOf_range cfg d
    · rw [QualityScorer.metrics_lookup_alnum] at hv
      exact Option.some_injective _ hv ▸ QualityScorer.alnumScoreOf_range cfg d
  · intro hw q hq
    have hqs : (QualityScorer.process cfg d).quality_score =
        some (QualityScorer.compositeScore cfg.weights
          (QualityScorer.computeMetrics cfg d)) := rfl
    rw [hqs] at hq
    have hqeq := Option.some_injective _ hq
    rw [hw, QualityScorer.composite_default_eq] at hqeq
    obtain ⟨a0, a1⟩ := QualityScorer.lengthScoreOf_range cfg d h3
    obtain ⟨b0, b1⟩ := QualityScorer.awlScoreOf_range cfg d h4
    obtain ⟨c0, c1⟩ := QualityScorer.scScoreOf_range cfg d h1 h5
    obtain ⟨e0, e1⟩ := QualityScorer.repScoreOf_range cfg d
    obtain ⟨f0, f1⟩ := QualityScorer.alnumScoreOf_range cfg d
    constructor
    · rw [← hqeq]; linarith
    · rw [← hqeq]; linarith

/-- A `QualityScorer` configuration with a negative `min_sentence_count`
(nothing in the constructor validates thresholds). -/
def cfgC4cex : QualityScorer := { min_sentence_count := -2 }

/-- A small record scored by `cfgC4cex`. -/
def docC4cex : ProcessedDocument :=
  { id := "q1", source := "test", source_id := "t1", text := "Hello." }

/-- Counterexample to C4 as stated: under the configuration
`min_sentence_count = -2` (legal for the constructor), the recorded
`sentence_count_score` of a one-sentence record is `-1/2`, outside
`[0, 1]`. -/
theorem claim_C4_cex :
    (QualityScorer.process cfgC4cex docC4cex).quality_metrics.lookup
        "sentence_count_score" = some (-(1/2) : ℚ) ∧
    ¬(0 ≤ (-(1/2) : ℚ)) := by
  constructor
  · have h1 : (QualityScorer.process cfgC4cex docC4cex).quality_metrics =
        QualityScorer.computeMetrics cfgC4cex docC4cex := rfl
    rw [h1, QualityScorer.metrics_lookup_sc]
    congr 1
    unfold QualityScorer.scScoreOf
    have hsc : QualityScorer.sentenceCountUsed docC4cex.processing_metadata
        docC4cex.text = 1 := by decide
    rw [hsc]
    have hm : cfgC4cex.min_sentence_count = -2 := rfl
    rw [hm]
    rw [min_def]
    norm_num
  · norm_num

/-- A scorable record for the C4 witness. -/
def docC4w : ProcessedDocument :=
  { id := "q2", source := "test", source_id := "t2", text := "Hello world." }

/-- Witness for C4: the default configuration on a concrete record. -/
theorem claim_C4_witness :
    (∀ k ∈ scoreKeys, ∀ v,
      (QualityScorer.process {} docC4w).quality_metrics.lookup k = some v →
        0 ≤ v ∧ v ≤ 1) ∧
    (({} : QualityScorer).weights = defaultWeights →
      ∀ q, (QualityScorer.process {} docC4w).quality_score = some q →
        0 ≤ q ∧ q ≤ 1) :=
  claim_C4 {} docC4w (by decide)
    (by show (3/10 : ℚ) ≠ 0; norm_num)
    (by intro M hM; cases hM)
    (by show (0 : ℚ) < 15; norm_num)
    (by decide)

/-! ## Claim C8: source of `sentence_count` and its score -/

/-- C8 (amended).  For every record and configuration, the recorded
`sentence_count_score` equals `min(1, sentence_count/min_sentence_count)`
where `sentence_count` is the value stored in `processing_metadata` when
that value is present and non-zero, and otherwise the estimate
`max(1, #'.' + #'!' + #'?')`; a prior `SentenceTokenizer` stage stores its
(post-filtering) sentence count flat under the `"sentence_count"` key, so
a non-zero stored count is the one used — but a stored count of `0` is
re-estimated (see `claim_C8_cex`). -/
theorem claim_C8 (cfg : QualityScorer) (d : ProcessedDocument) :
    ((QualityScorer.process cfg d).quality_metrics.lookup "sentence_count_score" =
      some (min 1
        ((QualityScorer.sentenceCountUsed d.processing_metadata d.text : ℚ) /
          (cfg.min_sentence_count : ℚ)))) ∧
    (mgetInt d.processing_metadata "sentence_count" ≠ 0 →
      QualityScorer.sentenceCountUsed d.processing_metadata d.text =
        mgetInt d.processing_metadata "sentence_count") ∧
    (mgetInt d.processing_metadata "sentence_count" = 0 →
      QualityScorer.sentenceCountUsed d.processing_metadata d.text =
        QualityScorer.estimateSentenceCount d.text) ∧
    (∀ (split : String → List String) (tcfg : SentenceTokenizer),
      mget (SentenceTokenizer.process split tcfg d).processing_metadata
          "sentence_count" =
        some (MVal.i
          ((if tcfg.min_sentence_length > 0 ∨ pyTruthyOptInt tcfg.max_sentence_length
            then (split d.text).filter (SentenceTokenizer.keepSentence tcfg)
            else split d.text).length : Int))) := by
  refine ⟨rfl, ?_, ?_, ?_⟩
  · intro h
    unfold QualityScorer.sentenceCountUsed
    simp [h]
  · intro h
    unfold QualityScorer.sentenceCountUsed
    simp [h]
  · intro split tcfg
    unfold SentenceTokenizer.process
    simp only [ProcessedDocument.add_processing_step, mget]
    rw [if_neg (by simp)]
    rw [lookup_msets_ne _ _ (by decide)]
    exact lookup_msets_self _ _ _

/-- A record whose prior tokenization stage stored a non-zero
`sentence_count`. -/
def docC8w : ProcessedDocument :=
  { id := "c8w", source := "test", source_id := "t8w", text := "One. Two.",
    processing_metadata := [("sentence_count", MVal.i 2)] }

/-- Witness for `claim_C8` at a concrete record: the stored count `2` is
non-zero, and it is indeed the count used by the scorer. -/
theorem claim_C8_witness :
    mgetInt docC8w.processing_metadata "sentence_count" ≠ 0 ∧
    QualityScorer.sentenceCountUsed docC8w.processing_metadata docC8w.text =
      mgetInt docC8w.processing_metadata "sentence_count" :=
  ⟨by decide, (claim_C8 {} docC8w).2.1 (by decide)⟩

/-- The segmenter's output on the C8 counterexample text (one candidate
sentence). -/
def splitC8 : String → List String := fun s => [s]

/-- Default sentence tokenizer (word-count floor of 3). -/
def tokC8 : SentenceTokenizer := {}

/-- A record whose only candidate sentence falls below the word-count
floor, so the tokenizer stores `sentence_count = 0`. -/
def docC8 : ProcessedDocument :=
  { id := "c8", source := "test", source_id := "t8", text := "Hi." }

/-- Counterexample to C8 as stated: a prior sentence-tokenization stage
stored `sentence_count = 0` (all candidates filtered out), yet the quality
scorer does not use that stored value — it re-estimates and records
`sentence_count = 1`. -/
theorem claim_C8_cex :
    mgetInt (SentenceTokenizer.process splitC8 tokC8 docC8).processing_metadata
        "sentence_count" = 0 ∧
    (QualityScorer.process {}
        (SentenceTokenizer.process splitC8 tokC8 docC8)).quality_metrics.lookup
        "sentence_count" = some (1 : ℚ) ∧
    (1 : ℚ) ≠ 0 := by
  refine ⟨by decide, ?_, by norm_num⟩
  have h1 : (QualityScorer.process {}
      (SentenceTokenizer.process splitC8 tokC8 docC8)).quality_metrics =
      QualityScorer.computeMetrics {}
        (SentenceTokenizer.process splitC8 tokC8 docC8) := rfl
  rw [h1, QualityScorer.metrics_lookup_scount]
  have hsc : QualityScorer.sentenceCountUsed
      (SentenceTokenizer.process splitC8 tokC8 docC8).processing_metadata
      (SentenceTokenizer.process splitC8 tokC8 docC8).text = 1 := by decide
  rw [hsc]
  simp

/-! ## Claim C2: exact deduplication -/

theorem lookup_append {α β : Type} [BEq α] (l1 l2 : List (α × β)) (k : α) :
    (l1 ++ l2).lookup k =
      match l1.lookup k with
      | some v => some v
      | none => l2.lookup k := by
  induction l1 with
  | nil => simp [List.lookup]
  | cons a t ih =>
    rw [List.cons_append, List.lookup_cons, List.lookup_cons]
    by_cases h : (k == a.1) = true
    · simp [h]
    · simp only [Bool.not_eq_true] at h
      simp [h, ih]

theorem lookup_isSome_iff {α β : Type} [BEq α] [LawfulBEq α]
    (l : List (α × β)) (k : α) :
    (l.lookup k).isSome = true ↔ k ∈ l.map Prod.fst := by
  induction l with
  | nil => simp [List.lookup]
  | cons a t ih =>
    rw [List.lookup_cons]
    by_cases h : (k == a.1) = true
    · simp only [h, if_true, Option.isSome_some, true_iff]
      simp only [List.map_cons, List.mem_cons]
      exact Or.inl (eq_of_beq h)
    · simp only [Bool.not_eq_true] at h
      simp only [h, Bool.false_eq_true, if_false, List.map_cons, List.mem_cons, ih]
      constructor
      · exact Or.inr
      · rintro (rfl | hm)
        · simp at h
        · exact hm

namespace Deduplicator

theorem markDup_spec (d : ProcessedDocument) (kid : String) :
    (markDup d kid).id = d.id ∧ (markDup d kid).text = d.text ∧
    (markDup d kid).processing_history = d.processing_history ∧
    mgetBool (markDup d kid).processing_metadata "duplicate" = true ∧
    mget (markDup d kid).processing_metadata "duplicate_of" =
      some (MVal.str kid) := by
  refine ⟨rfl, rfl, rfl, ?_, ?_⟩
  · show mgetBool (msets (msets d.processing_metadata "duplicate" (MVal.b true))
      "duplicate_of" (MVal.str kid)) "duplicate" = true
    unfold mgetBool
    rw [lookup_msets_ne _ _ (by decide), lookup_msets_self]
  · show List.lookup "duplicate_of"
      (msets (msets d.processing_metadata "duplicate" (MVal.b true))
        "duplicate_of" (MVal.str kid)) = some (MVal.str kid)
    exact lookup_msets_self _ _ _

theorem markUniq_spec (d : ProcessedDocument) :
    (markUniq d).id = d.id ∧ (markUniq d).text = d.text ∧
    (markUniq d).processing_history = d.processing_history ∧
    mgetBool (markUniq d).processing_metadata "duplicate" = false := by
  refine ⟨rfl, rfl, rfl, ?_⟩
  show mgetBool (msets d.processing_metadata "duplicate" (MVal.b false))
    "duplicate" = false
  unfold mgetBool
  rw [lookup_msets_self]

theorem exactStep_spec (cfg : Deduplicator) (d : ProcessedDocument) :
    (exactStep cfg d).id = d.id ∧ (exactStep cfg d).text = d.text ∧
    (exactStep cfg d).processing_history =
      d.processing_history ++ ["deduplication"] ∧
    mgetBool (exactStep cfg d).processing_metadata "duplicate" =
      mgetBool d.processing_metadata "duplicate" ∧
    mget (exactStep cfg d).processing_metadata "duplicate_of" =
      mget d.processing_metadata "duplicate_of" := by
  refine ⟨rfl, rfl, rfl, ?_, ?_⟩
  · simp only [exactStep, ProcessedDocument.add_processing_step]
    rw [if_neg (by simp)]
    unfold mgetBool
    rw [lookup_msets_ne _ _ (by decide)]
  · simp only [exactStep, ProcessedDocument.add_processing_step, mget]
    rw [if_neg (by simp)]
    rw [lookup_msets_ne _ _ (by decide)]

/-- The id a document hashing to `h` would be attached to: a previously
seen id from the hash map, else the first among the already-processed
documents with the same content hash. -/
def keeperIn (hashFn : String → String) (seen : List (String × String))
    (docsBefore : List ProcessedDocument) (h : String) : Option String :=
  match seen.lookup h with
  | some kid => some kid
  | none =>
    (docsBefore.find? (fun d => hashFn d.text == h)).map (fun d => d.id)

/-- One marking step leaves `keeperIn` unchanged for later documents. -/
theorem keeperIn_cons (hashFn : String → String)
    (seen : List (String × String)) (d : ProcessedDocument)
    (rest : List ProcessedDocument) (h' : String) :
    keeperIn hashFn
      (match seen.lookup (hashFn d.text) with
       | some _ => seen
       | none => seen ++ [(hashFn d.text, d.id)]) rest h' =
    keeperIn hashFn seen (d :: rest) h' := by
  cases hd : seen.lookup (hashFn d.text) with
  | some kid0 =>
    unfold keeperIn
    cases hl : seen.lookup h' with
    | some kid => rfl
    | none =>
      simp only []
      rw [List.find?_cons]
      have hpred : (hashFn d.text == h') = false := by
        by_cases he : hashFn d.text = h'
        · rw [he] at hd
          rw [hd] at hl
          cases hl
        · exact beq_false_of_ne he
      rw [hpred]
  | none =>
    unfold keeperIn
    rw [lookup_append]
    cases hl : seen.lookup h' with
    | some kid => rfl
    | none =>
      simp only []
      rw [List.find?_cons]
      by_cases he : hashFn d.text = h'
      · have h1 : (h' == hashFn d.text) = true := by
          rw [he]
          exact beq_self_eq_true _
        have h2 : (hashFn d.text == h') = true := by
          rw [he]
          exact beq_self_eq_true _
        rw [List.lookup_cons]
        simp [h1, h2]
      · have h1 : (h' == hashFn d.text) = false :=
          beq_false_of_ne (fun he2 => he he2.symm)
        have h2 : (hashFn d.text == h') = false := beq_false_of_ne he
        rw [List.lookup_cons]
        simp [h1, h2, List.lookup]

/-- Pointwise characterization of the exact-deduplication marking pass:
the `i`-th output document is the `i`-th input with its `duplicate` /
`duplicate_of` metadata set according to `keeperIn` (id, text and history
unchanged). -/
theorem exactMark_get (hashFn : String → String) :
    ∀ (docs : List ProcessedDocument) (seen : List (String × String))
      (i : Nat) (di : ProcessedDocument), docs.get? i = some di →
    ∃ ai, (exactMark hashFn docs seen).get? i = some ai ∧
      ai.id = di.id ∧ ai.text = di.text ∧
      ai.processing_history = di.processing_history ∧
      (keeperIn hashFn seen (docs.take i) (hashFn di.text) = none →
        mgetBool ai.processing_metadata "duplicate" = false) ∧
      (∀ kid, keeperIn hashFn seen (docs.take i) (hashFn di.text) = some kid →
        mgetBool ai.processing_metadata "duplicate" = true ∧
        mget ai.processing_metadata "duplicate_of" = some (MVal.str kid)) := by
  intro docs
  induction docs with
  | nil => intro seen i di hget; cases hget
  | cons d ds ih =>
    intro seen i di hget
    cases i with
    | zero =>
      have hdi : di = d := by
        simpa using hget.symm
      subst hdi
      cases hd : seen.lookup (hashFn di.text) with
      | some kid0 =>
        have hstep : exactMark hashFn (di :: ds) seen =
            markDup di kid0 :: exactMark hashFn ds seen := by
          simp only [exactMark, hd]
        refine ⟨markDup di kid0, by rw [hstep]; rfl, (markDup_spec di kid0).1,
          (markDup_spec di kid0).2.1, (markDup_spec di kid0).2.2.1, ?_, ?_⟩
        · intro hk
          unfold keeperIn at hk
          rw [hd] at hk
          cases hk
        · intro kid hk
          unfold keeperIn at hk
          rw [hd] at hk
          cases hk
          exact ⟨(markDup_spec di kid0).2.2.2.1, (markDup_spec di kid0).2.2.2.2⟩
      | none =>
        have hstep : exactMark hashFn (di :: ds) seen =
            markUniq di :: exactMark hashFn ds
              (seen ++ [(hashFn di.text, di.id)]) := by
          simp only [exactMark, hd]
        refine ⟨markUniq di, by rw [hstep]; rfl, (markUniq_spec di).1,
          (markUniq_spec di).2.1, (markUniq_spec di).2.2.1, ?_, ?_⟩
        · intro _
          exact (markUniq_spec di).2.2.2
        · intro kid hk
          unfold keeperIn at hk
          rw [hd] at hk
          simp [List.find?] at hk
    | succ i =>
      have hget' : ds.get? i = some di := by
        simpa using hget
      cases hd : seen.lookup (hashFn d.text) with
      | some kid0 =>
        have hstep : exactMark hashFn (d :: ds) seen =
            markDup d kid0 :: exactMark hashFn ds seen := by
          simp only [exactMark, hd]
        obtain ⟨ai, hai, h1, h2, h3, h4, h5⟩ := ih seen i di hget'
        refine ⟨ai, by rw [hstep]; simpa using hai, h1, h2, h3, ?_, ?_⟩
        · intro hk
          apply h4
          rw [← hk]
          have hkc := keeperIn_cons hashFn seen d (ds.take i) (hashFn di.text)
          rw [hd] at hkc
          rw [hkc]
          rfl
        · intro kid hk
          apply h5
          have hkc := keeperIn_cons hashFn seen d (ds.take i) (hashFn di.text)
          rw [hd] at hkc
          rw [hkc]
          exact hk
      | none =>
        have hstep : exactMark hashFn (d :: ds) seen =
            markUniq d :: exactMark hashFn ds
              (seen ++ [(hashFn d.text, d.id)]) := by
          simp only [exactMark, hd]
        obtain ⟨ai, hai, h1, h2, h3, h4, h5⟩ :=
          ih (seen ++ [(hashFn d.text, d.id)]) i di hget'
        refine ⟨ai, by rw [hstep]; simpa using hai, h1, h2, h3, ?_, ?_⟩
        · intro hk
          apply h4
          rw [← hk]
          have hkc := keeperIn_cons hashFn seen d (ds.take i) (hashFn di.text)
          rw [hd] at hkc
          rw [hkc]
          rfl
        · intro kid hk
          apply h5
          have hkc := keeperIn_cons hashFn seen d (ds.take i) (hashFn di.text)
          rw [hd] at hkc
          rw [hkc]
          exact hk

/-- The unique-marked documents of the marking pass are counted by the
distinct content hashes not already in the seen map. -/
theorem exactMark_uniq_length (hashFn : String → String) :
    ∀ (docs : List ProcessedDocument) (seen : List (String × String)),
      ((exactMark hashFn docs seen).filter
        (fun d => mgetBool d.processing_metadata "duplicate" = false)).length =
      ((docs.map (fun d => hashFn d.text)).toFinset \
        (seen.map Prod.fst).toFinset).card := by
  intro docs
  induction docs with
  | nil => intro seen; simp [exactMark]
  | cons d ds ih =>
    intro seen
    cases hd : seen.lookup (hashFn d.text) with
    | some kid =>
      have hstep : exactMark hashFn (d :: ds) seen =
          markDup d kid :: exactMark hashFn ds seen := by
        simp only [exactMark, hd]
      have hmem : hashFn d.text ∈ (seen.map Prod.fst).toFinset := by
        rw [List.mem_toFinset]
        rw [← lookup_isSome_iff]
        rw [hd]
        rfl
      rw [hstep, List.filter_cons]
      have hpred : (decide
          (mgetBool (markDup d kid).processing_metadata "duplicate" = false)) =
          false := by
        rw [(markDup_spec d kid).2.2.2.1]
        decide
      rw [hpred]
      simp only [Bool.false_eq_true, if_false]
      rw [ih seen]
      congr 1
      rw [List.map_cons, List.toFinset_cons]
      exact (Finset.insert_sdiff_of_mem _ hmem).symm
    | none =>
      have hstep : exactMark hashFn (d :: ds) seen =
          markUniq d :: exactMark hashFn ds
            (seen ++ [(hashFn d.text, d.id)]) := by
        simp only [exactMark, hd]
      have hnmem : hashFn d.text ∉ (seen.map Prod.fst).toFinset := by
        rw [List.mem_toFinset]
        rw [← lookup_isSome_iff]
        rw [hd]
        simp
      rw [hstep, List.filter_cons]
      have hpred : (decide
          (mgetBool (markUniq d).processing_metadata "duplicate" = false)) =
          true := by
        rw [(markUniq_spec d).2.2.2]
        decide
      rw [hpred]
      simp only [if_true]
      rw [List.length_cons, ih]
      have hseen' : ((seen ++ [(hashFn d.text, d.id)]).map Prod.fst).toFinset =
          (seen.map Prod.fst).toFinset ∪ {hashFn d.text} := by
        rw [List.map_append, List.toFinset_append]
        rfl
      rw [hseen', List.map_cons, List.toFinset_cons]
      have hsets : insert (hashFn d.text)
            ((ds.map (fun x => hashFn x.text)).toFinset) \
            (seen.map Prod.fst).toFinset =
          insert (hashFn d.text)
            ((ds.map (fun x => hashFn x.text)).toFinset \
              ((seen.map Prod.fst).toFinset ∪ {hashFn d.text})) := by
        ext x
        simp only [Finset.mem_sdiff, Finset.mem_insert, Finset.mem_union,
          Finset.mem_singleton]
        constructor
        · rintro ⟨rfl | hx, hns⟩
          · exact Or.inl rfl
          · by_cases hxe : x = hashFn d.text
            · exact Or.inl hxe
            · exact Or.inr ⟨hx, by tauto⟩
        · rintro (rfl | ⟨hx, hns⟩)
          · exact ⟨Or.inl rfl, hnmem⟩
          · exact ⟨Or.inr hx, fun hc => hns (Or.inl hc)⟩
      rw [hsets]
      rw [Finset.card_insert_of_not_mem (by
        intro hc
        have := (Finset.mem_sdiff.mp hc).2
        exact this (Finset.mem_union_right _ (Finset.mem_singleton_self _)))]

end Deduplicator

theorem list_toFinset_map {α β : Type} [DecidableEq α] [DecidableEq β]
    (l : List α) (f : α → β) :
    (l.map f).toFinset = l.toFinset.image f := by
  induction l with
  | nil => simp
  | cons a t ih => simp [ih]

/-- A list in which exactly `k ≥ 1` entries equal `t` and the remaining
entries are pairwise distinct has `length - k + 1` distinct entries. -/
theorem distinct_texts_card (texts : List String) (t : String) (k : Nat)
    (hk : (texts.filter (fun s => s == t)).length = k)
    (hk1 : 1 ≤ k)
    (hnd : (texts.filter (fun s => !(s == t))).Nodup) :
    texts.toFinset.card = texts.length - k + 1 := by
  have hperm := List.filter_append_perm (fun s => s == t) texts
  have htf : texts.toFinset =
      (texts.filter (fun s => s == t)).toFinset ∪
        (texts.filter (fun s => !(s == t))).toFinset := by
    rw [← List.toFinset_append]
    exact (List.toFinset_eq_of_perm _ _ hperm).symm
  have hA : (texts.filter (fun s => s == t)).toFinset = {t} := by
    have hlen : 0 < (texts.filter (fun s => s == t)).length := by omega
    obtain ⟨y, hy⟩ := List.exists_mem_of_length_pos hlen
    obtain ⟨hym, hyt⟩ := List.mem_filter.mp hy
    have hyteq : y = t := eq_of_beq hyt
    ext x
    simp only [List.mem_toFinset, Finset.mem_singleton, List.mem_filter]
    constructor
    · rintro ⟨_, hxt⟩
      exact eq_of_beq hxt
    · intro hx
      rw [hx]
      exact ⟨hyteq ▸ hym, beq_self_eq_true t⟩
  have hlens := hperm.length_eq
  rw [List.length_append, hk] at hlens
  have hBcard : (texts.filter (fun s => !(s == t))).toFinset.card =
      texts.length - k := by
    rw [List.toFinset_card_of_nodup hnd]
    omega
  have htB : t ∉ (texts.filter (fun s => !(s == t))).toFinset := by
    rw [List.mem_toFinset]
    intro hmem
    have := (List.mem_filter.mp hmem).2
    simp at this
  rw [htf, hA, ← Finset.insert_eq,
    Finset.card_insert_of_not_mem htB, hBcard]

/-- A `find?` hit within a prefix is a hit on the whole list. -/
theorem find?_take_eq {α : Type} (l : List α) (i : Nat) (p : α → Bool)
    (x : α) (h : (l.take i).find? p = some x) : l.find? p = some x := by
  conv_lhs => rw [← List.take_append_drop i l]
  rw [List.find?_append, h]
  rfl

/-- Under an injective content hash, comparing hashes compares texts. -/
theorem hash_pred_eq (hashFn : String → String)
    (hinj : Function.Injective hashFn) (t : String) :
    (fun d : ProcessedDocument => hashFn d.text == hashFn t) =
      (fun d : ProcessedDocument => d.text == t) := by
  funext d
  by_cases h : d.text = t
  · rw [h]
    simp
  · have hne : hashFn d.text ≠ hashFn t := fun hc => h (hinj hc)
    rw [beq_false_of_ne h, beq_false_of_ne hne]

theorem filter_map_length {α β : Type} (f : α → β) (p : β → Bool)
    (q : α → Bool) (hcomp : ∀ x, p (f x) = q x) (l : List α) :
    ((l.map f).filter p).length = (l.filter q).length := by
  induction l with
  | nil => rfl
  | cons a tl ih =>
    rw [List.map_cons, List.filter_cons, List.filter_cons, hcomp]
    cases hq : q a
    · simpa using ih
    · simpa using ih

namespace Deduplicator

/-- The kept output of exact deduplication counts the distinct content
hashes of the batch. -/
theorem exactOutput_length (hashFn : String → String) (cfg : Deduplicator)
    (hkf : cfg.keep_first = true) (docs : List ProcessedDocument) :
    (exactOutput hashFn cfg docs).length =
      ((docs.map (fun d => hashFn d.text)).toFinset).card := by
  unfold exactOutput
  simp only [hkf, if_true]
  unfold exactFull
  rw [filter_map_length (exactStep cfg) _
    (fun d => mgetBool d.processing_metadata "duplicate" = false)
    (fun x => by
      have hx := (exactStep_spec cfg x).2.2.2.1
      simp [hx])]
  rw [exactMark_uniq_length]
  simp

end Deduplicator

/-- C2.  For every batch in which exactly `k ≥ 1` records share the text
`t` and all other texts are pairwise distinct, exact deduplication with
`keep_first = true` (under an injective content hash, as `hashlib` digests
are collision-free on any realistic batch) returns exactly `n − k + 1`
records; the first-seen record with text `t` (the keeper) is marked unique
and present in the output, and each later record with that text is marked
`duplicate = true` with `duplicate_of` the keeper's id and is absent from
the output. -/
theorem claim_C2 (hashFn : String → String) (hinj : Function.Injective hashFn)
    (cfg : Deduplicator) (hkf : cfg.keep_first = true)
    (docs : List ProcessedDocument) (t : String) (k : Nat)
    (hk : ((docs.map (fun d => d.text)).filter (fun s => s == t)).length = k)
    (hk1 : 1 ≤ k)
    (hnd : ((docs.map (fun d => d.text)).filter (fun s => !(s == t))).Nodup) :
    (Deduplicator.exactOutput hashFn cfg docs).length = docs.length - k + 1 ∧
    ∃ keeper, docs.find? (fun d => d.text == t) = some keeper ∧
      keeper.text = t ∧
      (∀ i di, docs.get? i = some di → di.text = t →
        ∃ bi, (Deduplicator.exactFull hashFn cfg docs).get? i = some bi ∧
          bi.id = di.id ∧ bi.text = t ∧
          ((docs.take i).find? (fun d => d.text == t) = none →
            mgetBool bi.processing_metadata "duplicate" = false ∧
            bi ∈ Deduplicator.exactOutput hashFn cfg docs) ∧
          ((docs.take i).find? (fun d => d.text == t) ≠ none →
            mgetBool bi.processing_metadata "duplicate" = true ∧
            mget bi.processing_metadata "duplicate_of" =
              some (MVal.str keeper.id) ∧
            bi ∉ Deduplicator.exactOutput hashFn cfg docs)) := by
  constructor
  · rw [Deduplicator.exactOutput_length hashFn cfg hkf docs]
    have hmm : docs.map (fun d => hashFn d.text) =
        (docs.map (fun d => d.text)).map hashFn := by
      rw [List.map_map]
      rfl
    rw [hmm, list_toFinset_map, Finset.card_image_of_injective _ hinj]
    have := distinct_texts_card (docs.map (fun d => d.text)) t k hk hk1 hnd
    rw [this, List.length_map]
  · have hkeeper : ∃ keeper, docs.find? (fun d => d.text == t) = some keeper := by
      rw [← Option.isSome_iff_exists]
      rw [List.find?_isSome]
      have hlen : 0 < ((docs.map (fun d => d.text)).filter
          (fun s => s == t)).length := by omega
      obtain ⟨y, hy⟩ := List.exists_mem_of_length_pos hlen
      obtain ⟨hym, hyt⟩ := List.mem_filter.mp hy
      obtain ⟨d0, hd0, hd0y⟩ := List.mem_map.mp hym
      exact ⟨d0, hd0, by rw [hd0y]; exact hyt⟩
    obtain ⟨keeper, hkeq⟩ := hkeeper
    have hkbeq := @List.find?_some ProcessedDocument
      (fun d => d.text == t) keeper docs hkeq
    have hkt : keeper.text = t := eq_of_beq hkbeq
    refine ⟨keeper, hkeq, hkt, ?_⟩
    intro i di hget htext
    obtain ⟨ai, hai, hid, htx, _, h4, h5⟩ :=
      Deduplicator.exactMark_get hashFn docs [] i di hget
    refine ⟨Deduplicator.exactStep cfg ai, ?_, ?_, ?_, ?_, ?_⟩
    · unfold Deduplicator.exactFull
      rw [List.get?_map, hai]
      rfl
    · rw [(Deduplicator.exactStep_spec cfg ai).1, hid]
    · rw [(Deduplicator.exactStep_spec cfg ai).2.1, htx, htext]
    · intro hnone
      have hkin : Deduplicator.keeperIn hashFn [] (docs.take i)
          (hashFn di.text) = none := by
        unfold Deduplicator.keeperIn
        rw [htext]
        rw [hash_pred_eq hashFn hinj t]
        simp [List.lookup, hnone]
      have hflag := h4 hkin
      have hflag2 : mgetBool (Deduplicator.exactStep cfg ai).processing_metadata
          "duplicate" = false := by
        rw [(Deduplicator.exactStep_spec cfg ai).2.2.2.1, hflag]
      refine ⟨hflag2, ?_⟩
      unfold Deduplicator.exactOutput
      simp only [hkf, if_true]
      apply List.mem_filter.mpr
      constructor
      · apply List.get?_mem
        show (Deduplicator.exactFull hashFn cfg docs).get? i = _
        unfold Deduplicator.exactFull
        rw [List.get?_map, hai]
        rfl
      · simp [hflag2]
    · intro hsome
      obtain ⟨x, hx⟩ := Option.ne_none_iff_exists.mp hsome
      have hkin : Deduplicator.keeperIn hashFn [] (docs.take i)
          (hashFn di.text) = some x.id := by
        unfold Deduplicator.keeperIn
        rw [htext]
        rw [hash_pred_eq hashFn hinj t]
        simp only [List.lookup]
        rw [← hx]
        rfl
      obtain ⟨hflag, hdof⟩ := h5 x.id hkin
      have hxk : x = keeper := by
        have := find?_take_eq docs i _ x hx.symm
        rw [hkeq] at this
        exact (Option.some_injective _ this).symm
      have hflag2 : mgetBool (Deduplicator.exactStep cfg ai).processing_metadata
          "duplicate" = true := by
        rw [(Deduplicator.exactStep_spec cfg ai).2.2.2.1, hflag]
      refine ⟨hflag2, ?_, ?_⟩
      · rw [(Deduplicator.exactStep_spec cfg ai).2.2.2.2, hdof, hxk]
      · unfold Deduplicator.exactOutput
        simp only [hkf, if_true]
        intro hmem
        have := (List.mem_filter.mp hmem).2
        rw [hflag2] at this
        simp at this

/-- An injective stand-in for the `hashlib` hexdigest collaborator. -/
def idHash : String → String := fun s => s

/-- A default (exact, md5, keep-first) deduplicator. -/
def cfgC2 : Deduplicator := {}

/-- The spec's concrete scenario batch. -/
def docsC2 : List ProcessedDocument :=
  [{ id := "a", source := "s", source_id := "sa", text := "Hello world." },
   { id := "b", source := "s", source_id := "sb", text := "Hello world." },
   { id := "c", source := "s", source_id := "sc",
     text := "Something else entirely different." }]

/-- Witness for C2: the spec scenario — `[a:"Hello world.",
b:"Hello world.", c:"Something else…"]` dedups to `[a, c]` with `b`
marked `duplicate_of = "a"`. -/
theorem claim_C2_witness :
    (Deduplicator.exactOutput idHash cfgC2 docsC2).length = 2 ∧
    (Deduplicator.exactOutput idHash cfgC2 docsC2).map (fun d => d.id) =
      ["a", "c"] ∧
    ((Deduplicator.exactFull idHash cfgC2 docsC2).get? 1).map
      (fun d => (mgetBool d.processing_metadata "duplicate",
        mget d.processing_metadata "duplicate_of")) =
      some (true, some (MVal.str "a")) := by
  have h := claim_C2 idHash (fun a b hh => hh) cfgC2 rfl docsC2
    "Hello world." 2 (by decide) (by decide) (by decide)
  refine ⟨?_, by decide, by decide⟩
  simpa using h.1

/-! ## Claims C7 and C10: approximate deduplication -/

/-- The unique/duplicate partition data of an annotated batch: per record,
its id, its `duplicate` flag and its `duplicate_of` assignment. -/
def extractOf (l : List ProcessedDocument) :
    List (String × Bool × Option MVal) :=
  l.map (fun d => (d.id, mgetBool d.processing_metadata "duplicate",
    mget d.processing_metadata "duplicate_of"))

namespace Deduplicator

theorem markDupSim_spec (d : ProcessedDocument) (kid : String) (s : ℚ) :
    (markDupSim d kid s).id = d.id ∧ (markDupSim d kid s).text = d.text ∧
    (markDupSim d kid s).processing_history = d.processing_history ∧
    mgetBool (markDupSim d kid s).processing_metadata "duplicate" = true ∧
    mget (markDupSim d kid s).processing_metadata "duplicate_of" =
      some (MVal.str kid) ∧
    mget (markDupSim d kid s).processing_metadata "similarity" =
      some (MVal.q s) := by
  refine ⟨rfl, rfl, rfl, ?_, ?_, ?_⟩
  · show mgetBool (msets (msets (msets d.processing_metadata
      "duplicate" (MVal.b true)) "duplicate_of" (MVal.str kid))
      "similarity" (MVal.q s)) "duplicate" = true
    unfold mgetBool
    rw [lookup_msets_ne _ _ (by decide), lookup_msets_ne _ _ (by decide),
      lookup_msets_self]
  · show List.lookup "duplicate_of" (msets (msets (msets d.processing_metadata
      "duplicate" (MVal.b true)) "duplicate_of" (MVal.str kid))
      "similarity" (MVal.q s)) = some (MVal.str kid)
    rw [lookup_msets_ne _ _ (by decide), lookup_msets_self]
  · show List.lookup "similarity" (msets (msets (msets d.processing_metadata
      "duplicate" (MVal.b true)) "duplicate_of" (MVal.str kid))
      "similarity" (MVal.q s)) = some (MVal.q s)
    exact lookup_msets_self _ _ _

theorem markUniq_dupOf (d : ProcessedDocument) :
    mget (markUniq d).processing_metadata "duplicate_of" =
      mget d.processing_metadata "duplicate_of" := by
  show List.lookup "duplicate_of"
    (msets d.processing_metadata "duplicate" (MVal.b false)) = _
  rw [lookup_msets_ne _ _ (by decide)]
  rfl

theorem simhashStepMeta_spec (cfg : Deduplicator) (d : ProcessedDocument) :
    (simhashStepMeta cfg d).id = d.id ∧
    (simhashStepMeta cfg d).text = d.text ∧
    mgetBool (simhashStepMeta cfg d).processing_metadata "duplicate" =
      mgetBool d.processing_metadata "duplicate" ∧
    mget (simhashStepMeta cfg d).processing_metadata "duplicate_of" =
      mget d.processing_metadata "duplicate_of" ∧
    (simhashStepMeta cfg d).processing_history =
      d.processing_history ++ ["deduplication"] := by
  refine ⟨rfl, rfl, ?_, ?_, rfl⟩
  · simp only [simhashStepMeta, ProcessedDocument.add_processing_step]
    rw [if_neg (by simp)]
    unfold mgetBool
    rw [lookup_msets_ne _ _ (by decide)]
  · simp only [simhashStepMeta, ProcessedDocument.add_processing_step, mget]
    rw [if_neg (by simp)]
    rw [lookup_msets_ne _ _ (by decide)]

theorem minhashStepMeta_spec (cfg : Deduplicator) (d : ProcessedDocument) :
    (minhashStepMeta cfg d).id = d.id ∧
    (minhashStepMeta cfg d).text = d.text ∧
    mgetBool (minhashStepMeta cfg d).processing_metadata "duplicate" =
      mgetBool d.processing_metadata "duplicate" ∧
    mget (minhashStepMeta cfg d).processing_metadata "duplicate_of" =
      mget d.processing_metadata "duplicate_of" ∧
    (minhashStepMeta cfg d).processing_history =
      d.processing_history ++ ["deduplication"] := by
  refine ⟨rfl, rfl, ?_, ?_, rfl⟩
  · simp only [minhashStepMeta, ProcessedDocument.add_processing_step]
    rw [if_neg (by simp)]
    unfold mgetBool
    rw [lookup_msets_ne _ _ (by decide)]
  · simp only [minhashStepMeta, ProcessedDocument.add_processing_step, mget]
    rw [if_neg (by simp)]
    rw [lookup_msets_ne _ _ (by decide)]

/-- Re-marking an already annotated batch (second run on the mutated
documents) yields the same id/flag/assignment data: the marking decisions
depend only on ids and texts, which annotation preserves; `duplicate_of` of
re-accepted uniques is never touched by either run. -/
theorem simhashMark_twice (h : String → Int) (cfg : Deduplicator) :
    ∀ (docs : List ProcessedDocument) (seen : List (String × Nat)),
      extractOf (simhashMark h cfg
        ((simhashMark h cfg docs seen).map (simhashStepMeta cfg)) seen) =
      extractOf (simhashMark h cfg docs seen) := by
  intro docs
  induction docs with
  | nil => intro seen; rfl
  | cons d ds ih =>
    intro seen
    cases hf : seen.find? (fun u => decide (cfg.similarity_threshold ≤
        simSimilarity (calculateSimhash h d.text cfg.ngram_size) u.2)) with
    | some u =>
      have hstep : simhashMark h cfg (d :: ds) seen =
          markDupSim d u.1 (simSimilarity
            (calculateSimhash h d.text cfg.ngram_size) u.2) ::
            simhashMark h cfg ds seen := by
        simp only [simhashMark, hf]
      rw [hstep]
      set a := markDupSim d u.1 (simSimilarity
        (calculateSimhash h d.text cfg.ngram_size) u.2) with ha
      have hat : (simhashStepMeta cfg a).text = d.text := by
        rw [(simhashStepMeta_spec cfg a).2.1, ha]
        exact (markDupSim_spec d u.1 _).2.1
      have hf2 : seen.find? (fun v => decide (cfg.similarity_threshold ≤
          simSimilarity (calculateSimhash h
            (simhashStepMeta cfg a).text cfg.ngram_size) v.2)) = some u := by
        rw [hat]
        exact hf
      have hstep2 : simhashMark h cfg
          ((simhashStepMeta cfg a) ::
            (simhashMark h cfg ds seen).map (simhashStepMeta cfg)) seen =
          markDupSim (simhashStepMeta cfg a) u.1 (simSimilarity
            (calculateSimhash h (simhashStepMeta cfg a).text cfg.ngram_size)
              u.2) ::
            simhashMark h cfg
              ((simhashMark h cfg ds seen).map (simhashStepMeta cfg)) seen := by
        simp only [simhashMark, hf2]
      rw [List.map_cons, hstep2]
      unfold extractOf
      rw [List.map_cons, List.map_cons]
      congr 1
      · have hs1 := markDupSim_spec (simhashStepMeta cfg a) u.1
          (simSimilarity (calculateSimhash h
            (simhashStepMeta cfg a).text cfg.ngram_size) u.2)
        have hs2 := markDupSim_spec d u.1
          (simSimilarity (calculateSimhash h d.text cfg.ngram_size) u.2)
        rw [Prod.ext_iff, Prod.ext_iff]
        refine ⟨?_, ?_, ?_⟩
        · rw [hs1.1, hs2.1, (simhashStepMeta_spec cfg a).1, ha,
            (markDupSim_spec d u.1 _).1]
        · rw [hs1.2.2.2.1, hs2.2.2.2.1]
        · rw [hs1.2.2.2.2.1, hs2.2.2.2.2.1]
      · exact ih seen
    | none =>
      have hstep : simhashMark h cfg (d :: ds) seen =
          markUniq d :: simhashMark h cfg ds
            (seen ++ [(d.id, calculateSimhash h d.text cfg.ngram_size)]) := by
        simp only [simhashMark, hf]
      rw [hstep]
      set a := markUniq d with ha
      have hat : (simhashStepMeta cfg a).text = d.text := by
        rw [(simhashStepMeta_spec cfg a).2.1, ha]
        exact (markUniq_spec d).2.1
      have haid : (simhashStepMeta cfg a).id = d.id := by
        rw [(simhashStepMeta_spec cfg a).1, ha]
        exact (markUniq_spec d).1
      have hf2 : seen.find? (fun v => decide (cfg.similarity_threshold ≤
          simSimilarity (calculateSimhash h
            (simhashStepMeta cfg a).text cfg.ngram_size) v.2)) = none := by
        rw [hat]
        exact hf
      have hstep2 : simhashMark h cfg
          ((simhashStepMeta cfg a) ::
            (simhashMark h cfg ds
              (seen ++ [(d.id, calculateSimhash h d.text cfg.ngram_size)])).map
                (simhashStepMeta cfg)) seen =
          markUniq (simhashStepMeta cfg a) ::
            simhashMark h cfg
              ((simhashMark h cfg ds
                (seen ++ [(d.id, calculateSimhash h d.text cfg.ngram_size)])).map
                  (simhashStepMeta cfg))
              (seen ++ [((simhashStepMeta cfg a).id,
                calculateSimhash h (simhashStepMeta cfg a).text
                  cfg.ngram_size)]) := by
        simp only [simhashMark, hf2]
      rw [List.map_cons, hstep2]
      unfold extractOf
      rw [List.map_cons, List.map_cons]
      congr 1
      · rw [Prod.ext_iff, Prod.ext_iff]
        refine ⟨?_, ?_, ?_⟩
        · rw [(markUniq_spec (simhashStepMeta cfg a)).1, haid, ha,
            (markUniq_spec d).1]
        · rw [(markUniq_spec (simhashStepMeta cfg a)).2.2.2,
            (markUniq_spec d).2.2.2]
        · dsimp only
          rw [markUniq_dupOf, (simhashStepMeta_spec cfg a).2.2.2.1, ha,
            markUniq_dupOf]
      · rw [hat, haid]
        exact ih (seen ++ [(d.id, calculateSimhash h d.text cfg.ngram_size)])

/-- `simhashMark_twice` for the shingle/Jaccard method. -/
theorem minhashMark_twice (cfg : Deduplicator) :
    ∀ (docs : List ProcessedDocument) (seen : List (String × Finset String)),
      extractOf (minhashMark cfg
        ((minhashMark cfg docs seen).map (minhashStepMeta cfg)) seen) =
      extractOf (minhashMark cfg docs seen) := by
  intro docs
  induction docs with
  | nil => intro seen; rfl
  | cons d ds ih =>
    intro seen
    cases hf : seen.find? (fun u => decide (cfg.similarity_threshold ≤
        jaccardSimilarity (getShingles d.text cfg.ngram_size) u.2)) with
    | some u =>
      have hstep : minhashMark cfg (d :: ds) seen =
          markDupSim d u.1 (jaccardSimilarity
            (getShingles d.text cfg.ngram_size) u.2) ::
            minhashMark cfg ds seen := by
        simp only [minhashMark, hf]
      rw [hstep]
      set a := markDupSim d u.1 (jaccardSimilarity
        (getShingles d.text cfg.ngram_size) u.2) with ha
      have hat : (minhashStepMeta cfg a).text = d.text := by
        rw [(minhashStepMeta_spec cfg a).2.1, ha]
        exact (markDupSim_spec d u.1 _).2.1
      have hf2 : seen.find? (fun v => decide (cfg.similarity_threshold ≤
          jaccardSimilarity (getShingles
            (minhashStepMeta cfg a).text cfg.ngram_size) v.2)) = some u := by
        rw [hat]
        exact hf
      have hstep2 : minhashMark cfg
          ((minhashStepMeta cfg a) ::
            (minhashMark cfg ds seen).map (minhashStepMeta cfg)) seen =
          markDupSim (minhashStepMeta cfg a) u.1 (jaccardSimilarity
            (getShingles (minhashStepMeta cfg a).text cfg.ngram_size) u.2) ::
            minhashMark cfg
              ((minhashMark cfg ds seen).map (minhashStepMeta cfg)) seen := by
        simp only [minhashMark, hf2]
      rw [List.map_cons, hstep2]
      unfold extractOf
      rw [List.map_cons, List.map_cons]
      congr 1
      · have hs1 := markDupSim_spec (minhashStepMeta cfg a) u.1
          (jaccardSimilarity (getShingles
            (minhashStepMeta cfg a).text cfg.ngram_size) u.2)
        have hs2 := markDupSim_spec d u.1
          (jaccardSimilarity (getShingles d.text cfg.ngram_size) u.2)
        rw [Prod.ext_iff, Prod.ext_iff]
        refine ⟨?_, ?_, ?_⟩
        · rw [hs1.1, hs2.1, (minhashStepMeta_spec cfg a).1, ha,
            (markDupSim_spec d u.1 _).1]
        · rw [hs1.2.2.2.1, hs2.2.2.2.1]
        · rw [hs1.2.2.2.2.1, hs2.2.2.2.2.1]
      · exact ih seen
    | none =>
      have hstep : minhashMark cfg (d :: ds) seen =
          markUniq d :: minhashMark cfg ds
            (seen ++ [(d.id, getShingles d.text cfg.ngram_size)]) := by
        simp only [minhashMark, hf]
      rw [hstep]
      set a := markUniq d with ha
      have hat : (minhashStepMeta cfg a).text = d.text := by
        rw [(minhashStepMeta_spec cfg a).2.1, ha]
        exact (markUniq_spec d).2.1
      have haid : (minhashStepMeta cfg a).id = d.id := by
        rw [(minhashStepMeta_spec cfg a).1, ha]
        exact (markUniq_spec d).1
      have hf2 : seen.find? (fun v => decide (cfg.similarity_threshold ≤
          jaccardSimilarity (getShingles
            (minhashStepMeta cfg a).text cfg.ngram_size) v.2)) = none := by
        rw [hat]
        exact hf
      have hstep2 : minhashMark cfg
          ((minhashStepMeta cfg a) ::
            (minhashMark cfg ds
              (seen ++ [(d.id, getShingles d.text cfg.ngram_size)])).map
                (minhashStepMeta cfg)) seen =
          markUniq (minhashStepMeta cfg a) ::
            minhashMark cfg
              ((minhashMark cfg ds
                (seen ++ [(d.id, getShingles d.text cfg.ngram_size)])).map
                  (minhashStepMeta cfg))
              (seen ++ [((minhashStepMeta cfg a).id,
                getShingles (minhashStepMeta cfg a).text cfg.ngram_size)]) := by
        simp only [minhashMark, hf2]
      rw [List.map_cons, hstep2]
      unfold extractOf
      rw [List.map_cons, List.map_cons]
      congr 1
      · rw [Prod.ext_iff, Prod.ext_iff]
        refine ⟨?_, ?_, ?_⟩
        · rw [(markUniq_spec (minhashStepMeta cfg a)).1, haid, ha,
            (markUniq_spec d).1]
        · rw [(markUniq_spec (minhashStepMeta cfg a)).2.2.2,
            (markUniq_spec d).2.2.2]
        · dsimp only
          rw [markUniq_dupOf, (minhashStepMeta_spec cfg a).2.2.2.1, ha,
            markUniq_dupOf]
      · rw [hat, haid]
        exact ih (seen ++ [(d.id, getShingles d.text cfg.ngram_size)])

/-- Extraction is blind to the history entries added by the step pass. -/
theorem extractOf_map_simhashStep (cfg : Deduplicator)
    (l : List ProcessedDocument) :
    extractOf (l.map (simhashStepMeta cfg)) = extractOf l := by
  induction l with
  | nil => rfl
  | cons a t ih =>
    unfold extractOf at ih ⊢
    rw [List.map_cons, List.map_cons, List.map_cons, ih]
    congr 1
    rw [Prod.ext_iff, Prod.ext_iff]
    exact ⟨(simhashStepMeta_spec cfg a).1, (simhashStepMeta_spec cfg a).2.2.1,
      (simhashStepMeta_spec cfg a).2.2.2.1⟩

theorem extractOf_map_minhashStep (cfg : Deduplicator)
    (l : List ProcessedDocument) :
    extractOf (l.map (minhashStepMeta cfg)) = extractOf l := by
  induction l with
  | nil => rfl
  | cons a t ih =>
    unfold extractOf at ih ⊢
    rw [List.map_cons, List.map_cons, List.map_cons, ih]
    congr 1
    rw [Prod.ext_iff, Prod.ext_iff]
    exact ⟨(minhashStepMeta_spec cfg a).1, (minhashStepMeta_spec cfg a).2.2.1,
      (minhashStepMeta_spec cfg a).2.2.2.1⟩

end Deduplicator

/-- C7.  Approximate deduplication is deterministic: running the simhash
(resp. minhash) deduplication a second time over the batch it has already
annotated (the in-place mutation the Python code performs) produces
exactly the same unique/duplicate partition — per record the same id,
`duplicate` flag and `duplicate_of` assignment — as the first run; the
n-gram hash `h` is fixed (Python's builtin `hash` is stable within an
interpreter run). -/
theorem claim_C7 (h : String → Int) (cfg : Deduplicator)
    (docs : List ProcessedDocument) :
    extractOf (Deduplicator.simhashFull h cfg
        (Deduplicator.simhashFull h cfg docs)) =
      extractOf (Deduplicator.simhashFull h cfg docs) ∧
    extractOf (Deduplicator.minhashFull cfg
        (Deduplicator.minhashFull cfg docs)) =
      extractOf (Deduplicator.minhashFull cfg docs) := by
  constructor
  · unfold Deduplicator.simhashFull
    rw [Deduplicator.extractOf_map_simhashStep,
      Deduplicator.extractOf_map_simhashStep]
    exact Deduplicator.simhashMark_twice h cfg docs []
  · unfold Deduplicator.minhashFull
    rw [Deduplicator.extractOf_map_minhashStep,
      Deduplicator.extractOf_map_minhashStep]
    exact Deduplicator.minhashMark_twice cfg docs []

/-! ## Claim C10: short texts under simhash -/

/-- A text shorter than the n-gram size yields no n-grams, hence the zero
signature. -/
theorem calculateSimhash_short (h : String → Int) (t : String) (n : Nat)
    (hlt : t.length < n) : calculateSimhash h t n = 0 := by
  unfold calculateSimhash getNgrams
  rw [if_pos hlt]
  rfl

theorem popcount_zero : popcount 0 = 0 := by
  unfold popcount
  rfl

/-- Two zero signatures are at Hamming distance 0, similarity 1. -/
theorem simSimilarity_zero : simSimilarity 0 0 = 1 := by
  have h1 : hammingDistance 0 0 = 0 := by
    unfold hammingDistance
    rw [Nat.xor_self]
    exact popcount_zero
  unfold simSimilarity
  rw [h1]
  norm_num

namespace Deduplicator

/-- History entries do not disturb the `similarity` metadata key. -/
theorem simhashStepMeta_sim (cfg : Deduplicator) (d : ProcessedDocument) :
    mget (simhashStepMeta cfg d).processing_metadata "similarity" =
      mget d.processing_metadata "similarity" := by
  simp only [simhashStepMeta, ProcessedDocument.add_processing_step, mget]
  rw [if_neg (by simp)]
  rw [lookup_msets_ne _ _ (by decide)]

/-- Once the zero signature heads the `seen` list (under id `kid`), every
later document whose text is shorter than the n-gram size is marked as a
duplicate of `kid` with similarity 1: its own signature is 0, the scan
tests `seen` in order, and the head already meets any threshold ≤ 1. -/
theorem simhashMark_zero_head (h : String → Int) (cfg : Deduplicator)
    (hθ : cfg.similarity_threshold ≤ 1) (kid : String) :
    ∀ (docs : List ProcessedDocument) (seen' : List (String × Nat)) (j : Nat)
      (d : ProcessedDocument),
      docs[j]? = some d → d.text.length < cfg.ngram_size →
      (simhashMark h cfg docs ((kid, 0) :: seen'))[j]? =
        some (markDupSim d kid 1) := by
  intro docs
  induction docs with
  | nil =>
    intro seen' j d hj _
    simp at hj
  | cons a ds ih =>
    intro seen' j d hj hd
    cases j with
    | zero =>
      have ha : a = d := by simpa using hj
      subst ha
      have hsig : calculateSimhash h a.text cfg.ngram_size = 0 :=
        calculateSimhash_short h a.text cfg.ngram_size hd
      have hpred : (fun u : String × Nat => decide (cfg.similarity_threshold ≤
          simSimilarity (calculateSimhash h a.text cfg.ngram_size) u.2))
            (kid, 0) = true := by
        simp only [hsig, simSimilarity_zero]
        exact decide_eq_true hθ
      have hf : ((kid, 0) :: seen').find?
          (fun u => decide (cfg.similarity_threshold ≤
            simSimilarity (calculateSimhash h a.text cfg.ngram_size) u.2)) =
          some (kid, 0) := List.find?_cons_of_pos _ hpred
      have hstep : simhashMark h cfg (a :: ds) ((kid, 0) :: seen') =
          markDupSim a kid
              (simSimilarity (calculateSimhash h a.text cfg.ngram_size) 0) ::
            simhashMark h cfg ds ((kid, 0) :: seen') := by
        simp only [simhashMark, hf]
      rw [hstep, List.getElem?_cons_zero, hsig, simSimilarity_zero]
    | succ j =>
      have hj' : ds[j]? = some d := by simpa using hj
      cases hf : ((kid, 0) :: seen').find?
          (fun u => decide (cfg.similarity_threshold ≤
            simSimilarity (calculateSimhash h a.text cfg.ngram_size) u.2)) with
      | some u =>
        have hstep : simhashMark h cfg (a :: ds) ((kid, 0) :: seen') =
            markDupSim a u.1
                (simSimilarity (calculateSimhash h a.text cfg.ngram_size) u.2) ::
              simhashMark h cfg ds ((kid, 0) :: seen') := by
          simp only [simhashMark, hf]
        rw [hstep, List.getElem?_cons_succ]
        exact ih seen' j d hj' hd
      | none =>
        have hstep : simhashMark h cfg (a :: ds) ((kid, 0) :: seen') =
            markUniq a ::
              simhashMark h cfg ds ((kid, 0) ::
                (seen' ++ [(a.id, calculateSimhash h a.text cfg.ngram_size)])) := by
          simp only [simhashMark, hf, List.cons_append]
        rw [hstep, List.getElem?_cons_succ]
        exact ih (seen' ++ [(a.id, calculateSimhash h a.text cfg.ngram_size)])
          j d hj' hd

end Deduplicator

/-- C10 (corrected).  Under the simhash method with a similarity threshold
at most 1, a record shorter than the n-gram size produces no n-grams and
receives the zero signature.  When the FIRST record of the batch is such a
short record, every later short record is marked `duplicate = true` with
`duplicate_of` the first record's id and similarity 1, however different
the texts.  The original claim quantified over ANY two short records and
said the later one points at the earlier of the pair; that is false —
the scan stops at the first accepted unique whose signature is within the
threshold, which need not be the other member of the pair
(see `claim_C10_cex`). -/
theorem claim_C10 (h : String → Int) (cfg : Deduplicator)
    (d0 d : ProcessedDocument) (rest : List ProcessedDocument) (j : Nat)
    (hθ : cfg.similarity_threshold ≤ 1)
    (h0 : d0.text.length < cfg.ngram_size)
    (hj : rest[j]? = some d)
    (hd : d.text.length < cfg.ngram_size) :
    calculateSimhash h d0.text cfg.ngram_size = 0 ∧
    calculateSimhash h d.text cfg.ngram_size = 0 ∧
    ∃ r, (Deduplicator.simhashFull h cfg (d0 :: rest))[j + 1]? = some r ∧
      r.id = d.id ∧
      mgetBool r.processing_metadata "duplicate" = true ∧
      mget r.processing_metadata "duplicate_of" = some (MVal.str d0.id) ∧
      mget r.processing_metadata "similarity" = some (MVal.q 1) := by
  have hs0 := calculateSimhash_short h d0.text cfg.ngram_size h0
  have hsd := calculateSimhash_short h d.text cfg.ngram_size hd
  refine ⟨hs0, hsd, ?_⟩
  have hstep : Deduplicator.simhashMark h cfg (d0 :: rest) [] =
      Deduplicator.markUniq d0 ::
        Deduplicator.simhashMark h cfg rest ((d0.id, 0) :: []) := by
    simp only [Deduplicator.simhashMark, List.find?_nil, List.nil_append, hs0]
  have hmark := Deduplicator.simhashMark_zero_head h cfg hθ d0.id rest [] j d
    hj hd
  refine ⟨Deduplicator.simhashStepMeta cfg (Deduplicator.markDupSim d d0.id 1),
    ?_, ?_, ?_, ?_, ?_⟩
  · unfold Deduplicator.simhashFull
    rw [List.getElem?_map, hstep, List.getElem?_cons_succ, hmark]
    rfl
  · rw [(Deduplicator.simhashStepMeta_spec cfg _).1,
      (Deduplicator.markDupSim_spec d d0.id 1).1]
  · rw [(Deduplicator.simhashStepMeta_spec cfg _).2.2.1,
      (Deduplicator.markDupSim_spec d d0.id 1).2.2.2.1]
  · rw [(Deduplicator.simhashStepMeta_spec cfg _).2.2.2.1,
      (Deduplicator.markDupSim_spec d d0.id 1).2.2.2.2.1]
  · rw [Deduplicator.simhashStepMeta_sim,
      (Deduplicator.markDupSim_spec d d0.id 1).2.2.2.2.2]

/-- A fixed n-gram hash collaborator for the C10 scenarios. -/
def hC10 : String → Int := fun _ => 0

/-- Simhash configuration with threshold 1 and n-gram size 3. -/
def cfgC10 : Deduplicator :=
  { method := "simhash", similarity_threshold := 1, hash_function := "md5",
    ngram_size := 3, keep_first := true }

def r1C10 : ProcessedDocument :=
  { id := "r1", source := "test", source_id := "t1", text := "ab" }

def r2C10 : ProcessedDocument :=
  { id := "r2", source := "test", source_id := "t2", text := "cd" }

def r3C10 : ProcessedDocument :=
  { id := "r3", source := "test", source_id := "t3", text := "ef" }

/-- Counterexample to C10 as stated: in the batch `[r1, r2, r3]` of three
pairwise-different short texts, the pair `(r2, r3)` consists of two short
records, yet the later one `r3` is marked `duplicate_of = "r1"`, not
`"r2"` — the first accepted unique wins, not the earlier member of the
pair. -/
theorem claim_C10_cex :
    r2C10.text.length < cfgC10.ngram_size ∧
    r3C10.text.length < cfgC10.ngram_size ∧
    cfgC10.similarity_threshold ≤ 1 ∧
    r2C10.id = "r2" ∧
    (∃ r, (Deduplicator.simhashFull hC10 cfgC10 [r1C10, r2C10, r3C10])[2]? =
        some r ∧
      r.id = r3C10.id ∧
      mget r.processing_metadata "duplicate_of" = some (MVal.str "r1")) ∧
    MVal.str "r1" ≠ MVal.str "r2" := by
  refine ⟨by decide, by decide, by norm_num [cfgC10], rfl, ?_, by decide⟩
  have hstep : Deduplicator.simhashMark hC10 cfgC10 [r1C10, r2C10, r3C10] [] =
      Deduplicator.markUniq r1C10 ::
        Deduplicator.simhashMark hC10 cfgC10 [r2C10, r3C10]
          (("r1", 0) :: []) := rfl
  have hmark := Deduplicator.simhashMark_zero_head hC10 cfgC10
    (by norm_num [cfgC10]) "r1" [r2C10, r3C10] [] 1 r3C10 rfl (by decide)
  refine ⟨Deduplicator.simhashStepMeta cfgC10
    (Deduplicator.markDupSim r3C10 "r1" 1), ?_, ?_, ?_⟩
  · unfold Deduplicator.simhashFull
    rw [List.getElem?_map, hstep,
      show (2 : Nat) = 1 + 1 from rfl, List.getElem?_cons_succ, hmark]
    rfl
  · rw [(Deduplicator.simhashStepMeta_spec cfgC10 _).1,
      (Deduplicator.markDupSim_spec r3C10 "r1" 1).1]
  · rw [(Deduplicator.simhashStepMeta_spec cfgC10 _).2.2.2.1,
      (Deduplicator.markDupSim_spec r3C10 "r1" 1).2.2.2.2.1]

def d0C10 : ProcessedDocument :=
  { id := "w0", source := "test", source_id := "s0", text := "Hi" }

def dC10 : ProcessedDocument :=
  { id := "w1", source := "test", source_id := "s1", text := "no" }

/-- Witness for `claim_C10`: batch head `"Hi"` and follower `"no"` are both
shorter than the n-gram size 3; the follower is marked duplicate of the
head with similarity 1. -/
theorem claim_C10_witness :
    (cfgC10.similarity_threshold ≤ 1 ∧
      d0C10.text.length < cfgC10.ngram_size ∧
      ([dC10] : List ProcessedDocument)[0]? = some dC10 ∧
      dC10.text.length < cfgC10.ngram_size) ∧
    (calculateSimhash hC10 d0C10.text cfgC10.ngram_size = 0 ∧
     calculateSimhash hC10 dC10.text cfgC10.ngram_size = 0 ∧
     ∃ r, (Deduplicator.simhashFull hC10 cfgC10 [d0C10, dC10])[0 + 1]? =
        some r ∧
       r.id = dC10.id ∧
       mgetBool r.processing_metadata "duplicate" = true ∧
       mget r.processing_metadata "duplicate_of" =
        some (MVal.str d0C10.id) ∧
       mget r.processing_metadata "similarity" = some (MVal.q 1)) :=
  ⟨⟨by norm_num [cfgC10], by decide, rfl, by decide⟩,
   claim_C10 hC10 cfgC10 d0C10 dC10 [dC10] 0
     (by norm_num [cfgC10]) (by decide) rfl (by decide)⟩

/-! ## Claim C9: rejected records under `keep_document = false` -/

/-- Every per-document processor raises (`TypeError`) on a `None` input. -/
theorem procDoc_none (st : PStage) :
    st.procDoc none = Except.error "Expected ProcessedDocument" := by
  cases st <;> rfl

/-- No per-document processor raises on a genuine document. -/
theorem procDoc_some_ok (st : PStage) (d : ProcessedDocument) :
    ∃ o, st.procDoc (some d) = Except.ok o := by
  cases st <;> exact ⟨_, rfl⟩

/-- Mapping the filter over a batch of documents keeps every slot in
place: a rejected document becomes a `None` entry, nothing is removed. -/
theorem mapM_filter_some (cfg : ContentFilter) :
    ∀ docs : List ProcessedDocument,
      (docs.map some).mapM (PStage.filtering cfg).procDoc =
        Except.ok (docs.map (ContentFilter.process cfg)) := by
  intro docs
  induction docs with
  | nil => rfl
  | cons d t ih =>
    rw [List.map_cons, List.mapM_cons]
    show ((t.map some).mapM (PStage.filtering cfg).procDoc >>= fun bs =>
        pure (ContentFilter.process cfg d :: bs)) =
      Except.ok (ContentFilter.process cfg d ::
        t.map (ContentFilter.process cfg))
    rw [ih]
    rfl

/-- A per-document pass over a batch containing a `None` placeholder stops
at the first such placeholder with the `isinstance` type error. -/
theorem mapM_procDoc_error (st : PStage) :
    ∀ l : List (Option ProcessedDocument), none ∈ l →
      l.mapM st.procDoc = Except.error "Expected ProcessedDocument" := by
  intro l
  induction l with
  | nil =>
    intro hmem
    simp at hmem
  | cons a t ih =>
    intro hmem
    cases a with
    | none =>
      rw [List.mapM_cons, procDoc_none]
      rfl
    | some d =>
      have ht : (none : Option ProcessedDocument) ∈ t := by
        rcases List.mem_cons.mp hmem with h1 | h2
        · exact absurd h1 (by simp)
        · exact h2
      obtain ⟨o, ho⟩ := procDoc_some_ok st d
      rw [List.mapM_cons, ho]
      show (t.mapM st.procDoc >>= fun bs => pure (o :: bs)) = _
      rw [ih ht]
      rfl

/-- A non-batch stage acts on the running batch by mapping its
per-document processor. -/
theorem pbStep_nonbatch (bs : Nat) (batch : List (Option ProcessedDocument))
    (st : PStage) (hst : st.isBatchStage = false) :
    pbStep bs batch st = batch.mapM st.procDoc := by
  cases st
  · rfl
  · rfl
  · rfl
  · rfl
  · simp [PStage.isBatchStage] at hst

/-- C9.  When the pipeline has delivered the batch `mids` to a
`ContentFilter` stage configured with `keep_document = false`, a record
`d` of the batch that fails some filter check is turned into `None`:
`process` returns `None` for it, and `process_batch` keeps that `None` in
place — the output has the same length with `None` at `d`'s position
rather than omitting the record; if any per-document stage follows the
filter, the whole batch call fails with the `isinstance` type error on the
first `None`. -/
theorem claim_C9 (pre : List PStage) (cfg : ContentFilter) (st : PStage)
    (bs : Nat) (docs mids : List ProcessedDocument) (j : Nat)
    (d : ProcessedDocument) (r : FilterReason)
    (hkeep : cfg.keep_document = false)
    (hpre : processBatch pre bs docs = Except.ok (mids.map some))
    (hj : mids[j]? = some d)
    (hfail : ContentFilter.firstFailingCheck cfg d = some r)
    (hst : st.isBatchStage = false) :
    ContentFilter.process cfg d = none ∧
    processBatch (pre ++ [PStage.filtering cfg]) bs docs =
      Except.ok (mids.map (ContentFilter.process cfg)) ∧
    (mids.map (ContentFilter.process cfg)).length = mids.length ∧
    (mids.map (ContentFilter.process cfg))[j]? = some none ∧
    processBatch (pre ++ [PStage.filtering cfg, st]) bs docs =
      Except.error "Expected ProcessedDocument" := by
  have hnone : ContentFilter.process cfg d = none := by
    rw [ContentFilter.process_eq_firstFailing, hfail]
    simp [ContentFilter.reject, hkeep]
  have hmem : (none : Option ProcessedDocument) ∈
      mids.map (ContentFilter.process cfg) := by
    have hd : d ∈ mids := List.getElem?_mem hj
    have hfd := List.mem_map_of_mem (ContentFilter.process cfg) hd
    rwa [hnone] at hfd
  refine ⟨hnone, ?_, List.length_map _ _, ?_, ?_⟩
  · unfold processBatch at hpre ⊢
    rw [List.foldlM_append, hpre]
    show (mids.map some).mapM (PStage.filtering cfg).procDoc >>= pure = _
    rw [bind_pure, mapM_filter_some]
  · rw [List.getElem?_map, hj]
    show some (ContentFilter.process cfg d) = some none
    rw [hnone]
  · unfold processBatch at hpre ⊢
    rw [List.foldlM_append, hpre]
    show ((mids.map some).mapM (PStage.filtering cfg).procDoc >>= fun b =>
        pbStep bs b st >>= pure) = Except.error "Expected ProcessedDocument"
    rw [mapM_filter_some]
    show (pbStep bs (mids.map (ContentFilter.process cfg)) st >>= pure) = _
    rw [pbStep_nonbatch bs _ st hst,
      mapM_procDoc_error st (mids.map (ContentFilter.process cfg)) hmem]
    rfl

/-- A dropping filter (`keep_document = false`, default length bound
100). -/
def cfgC9 : ContentFilter := { keep_document := false }

/-- A five-character record: far below the minimum length. -/
def docC9 : ProcessedDocument :=
  { id := "d9", source := "test", source_id := "t9", text := "short" }

/-- Witness for C9: the pipeline `[filter]` turns the failing record into
a `None` placeholder (kept, not removed), and the pipeline
`[filter, quality-scorer]` fails with the type error. -/
theorem claim_C9_witness :
    (cfgC9.keep_document = false ∧
     processBatch [] 10 [docC9] = Except.ok ([docC9].map some) ∧
     ([docC9] : List ProcessedDocument)[0]? = some docC9 ∧
     ContentFilter.firstFailingCheck cfgC9 docC9 =
       some (FilterReason.tooShort 5 100) ∧
     (PStage.quality {}).isBatchStage = false) ∧
    (ContentFilter.process cfgC9 docC9 = none ∧
     processBatch ([] ++ [PStage.filtering cfgC9]) 10 [docC9] =
       Except.ok ([docC9].map (ContentFilter.process cfgC9)) ∧
     ([docC9].map (ContentFilter.process cfgC9)).length = [docC9].length ∧
     ([docC9].map (ContentFilter.process cfgC9))[0]? = some none ∧
     processBatch ([] ++ [PStage.filtering cfgC9, PStage.quality {}]) 10
         [docC9] =
       Except.error "Expected ProcessedDocument") :=
  ⟨⟨rfl, rfl, rfl, rfl, rfl⟩,
   claim_C9 [] cfgC9 (PStage.quality {}) 10 [docC9] [docC9] 0 docC9
     (FilterReason.tooShort 5 100) rfl rfl rfl rfl rfl⟩

/-! ## Claim C1: history length vs. stages executed -/

/-- Each processing stage appends its step name to the history. -/
theorem cleaning_history (w : Char → Bool) (cfg : TextNormalizer)
    (d : ProcessedDocument) :
    (TextNormalizer.process w cfg d).processing_history =
      d.processing_history ++ ["text_normalization"] := rfl

theorem tokenization_history (split : String → List String)
    (cfg : SentenceTokenizer) (d : ProcessedDocument) :
    (SentenceTokenizer.process split cfg d).processing_history =
      d.processing_history ++ ["sentence_tokenization"] := rfl

theorem quality_history (cfg : QualityScorer) (d : ProcessedDocument) :
    (QualityScorer.process cfg d).processing_history =
      d.processing_history ++ ["quality_assessment"] := rfl

theorem passDoc_history (cfg : ContentFilter) (d : ProcessedDocument) :
    (ContentFilter.passDoc cfg d).processing_history =
      d.processing_history ++ ["content_filtering"] := rfl

/-- The rejection path never touches the history: a kept rejected record
gets `filtered` metadata but NO history entry. -/
theorem reject_history (cfg : ContentFilter) (d : ProcessedDocument)
    (r : FilterReason) (d2 : ProcessedDocument)
    (h : ContentFilter.reject cfg d r = some d2) :
    d2.processing_history = d.processing_history := by
  unfold ContentFilter.reject at h
  by_cases hk : cfg.keep_document = false
  · rw [if_pos hk] at h
    exact absurd h (by simp)
  · rw [if_neg hk] at h
    have h2 := Option.some.inj h
    rw [← h2]

/-- Accounting mirror of `processDocument`: alongside the surviving
record it returns the number of stages actually executed on the record
(`dedup` stages are skipped by `process_document` and do not count) and
the list of history entries those executions append, in execution order.
`None` (a dropping filter) aborts the accounting. -/
def runDoc : List PStage → ProcessedDocument →
    Option (ProcessedDocument × Nat × List String)
  | [], d => some (d, 0, [])
  | PStage.dedup _ _ _ :: rest, d => runDoc rest d
  | PStage.cleaning w cfg :: rest, d =>
      (runDoc rest (TextNormalizer.process w cfg d)).map
        (fun p => (p.1, p.2.1 + 1, "text_normalization" :: p.2.2))
  | PStage.tokenization split cfg :: rest, d =>
      (runDoc rest (SentenceTokenizer.process split cfg d)).map
        (fun p => (p.1, p.2.1 + 1, "sentence_tokenization" :: p.2.2))
  | PStage.quality cfg :: rest, d =>
      (runDoc rest (QualityScorer.process cfg d)).map
        (fun p => (p.1, p.2.1 + 1, "quality_assessment" :: p.2.2))
  | PStage.filtering cfg :: rest, d =>
      match ContentFilter.process cfg d with
      | some d2 =>
          (runDoc rest d2).map
            (fun p => (p.1, p.2.1 + 1,
              (if ContentFilter.firstFailingCheck cfg d = none
                then ["content_filtering"] else []) ++ p.2.2))
      | none => none

/-- C1 (corrected).  For a record surviving a stage sequence, the history
grows by exactly the entries of the executed stages that append one, in
execution order — and a filtering stage that rejects the record appends
NOTHING, so `len(processing_history)` can fall short of the number of
stages executed (`claim_C1_cex`); the two agree only when no executed
filter rejects.  The original claim's `==` and its "in particular a
rejected record still receives a filtering entry" are both false. -/
theorem claim_C1 : ∀ (stages : List PStage) (d d' : ProcessedDocument)
    (nExec : Nat) (names : List String),
    runDoc stages d = some (d', nExec, names) →
    processDocument stages d = Except.ok (some d') ∧
    d'.processing_history = d.processing_history ++ names ∧
    names.length ≤ nExec := by
  intro stages
  induction stages with
  | nil =>
    intro d d' nE names h
    simp only [runDoc, Option.some.injEq, Prod.mk.injEq] at h
    obtain ⟨rfl, rfl, rfl⟩ := h
    exact ⟨rfl, by simp, Nat.le_refl 0⟩
  | cons st rest ih =>
    intro d d' nE names h
    cases st with
    | cleaning w cfg =>
      simp only [runDoc] at h
      rcases Option.map_eq_some'.mp h with ⟨⟨p1, p2, p3⟩, hp, hfp⟩
      simp only [Prod.mk.injEq] at hfp
      obtain ⟨rfl, rfl, rfl⟩ := hfp
      obtain ⟨hI1, hI2, hI3⟩ := ih (TextNormalizer.process w cfg d) p1 p2 p3 hp
      refine ⟨?_, ?_, ?_⟩
      · show processDocument rest (TextNormalizer.process w cfg d) =
          Except.ok (some p1)
        exact hI1
      · rw [hI2, cleaning_history]
        simp
      · simp only [List.length_cons]
        omega
    | tokenization split cfg =>
      simp only [runDoc] at h
      rcases Option.map_eq_some'.mp h with ⟨⟨p1, p2, p3⟩, hp, hfp⟩
      simp only [Prod.mk.injEq] at hfp
      obtain ⟨rfl, rfl, rfl⟩ := hfp
      obtain ⟨hI1, hI2, hI3⟩ :=
        ih (SentenceTokenizer.process split cfg d) p1 p2 p3 hp
      refine ⟨?_, ?_, ?_⟩
      · show processDocument rest (SentenceTokenizer.process split cfg d) =
          Except.ok (some p1)
        exact hI1
      · rw [hI2, tokenization_history]
        simp
      · simp only [List.length_cons]
        omega
    | quality cfg =>
      simp only [runDoc] at h
      rcases Option.map_eq_some'.mp h with ⟨⟨p1, p2, p3⟩, hp, hfp⟩
      simp only [Prod.mk.injEq] at hfp
      obtain ⟨rfl, rfl, rfl⟩ := hfp
      obtain ⟨hI1, hI2, hI3⟩ := ih (QualityScorer.process cfg d) p1 p2 p3 hp
      refine ⟨?_, ?_, ?_⟩
      · show processDocument rest (QualityScorer.process cfg d) =
          Except.ok (some p1)
        exact hI1
      · rw [hI2, quality_history]
        simp
      · simp only [List.length_cons]
        omega
    | dedup hashFn hh cfg =>
      simp only [runDoc] at h
      obtain ⟨hI1, hI2, hI3⟩ := ih d d' nE names h
      refine ⟨?_, hI2, hI3⟩
      show processDocument rest d = Except.ok (some d')
      exact hI1
    | filtering cfg =>
      simp only [runDoc] at h
      cases hpd : ContentFilter.process cfg d with
      | none =>
        rw [hpd] at h
        exact absurd h (by simp)
      | some d2 =>
        rw [hpd] at h
        rcases Option.map_eq_some'.mp h with ⟨⟨p1, p2, p3⟩, hp, hfp⟩
        simp only [Prod.mk.injEq] at hfp
        obtain ⟨rfl, rfl, rfl⟩ := hfp
        obtain ⟨hI1, hI2, hI3⟩ := ih d2 p1 p2 p3 hp
        have hproc : processDocument (PStage.filtering cfg :: rest) d =
            Except.ok (some p1) := by
          unfold processDocument
          rw [List.foldlM_cons]
          have hs : pdStep (some d) (PStage.filtering cfg) =
              Except.ok (ContentFilter.process cfg d) := rfl
          rw [hs, hpd]
          show processDocument rest d2 = Except.ok (some p1)
          exact hI1
        have hpass := ContentFilter.process_eq_firstFailing cfg d
        rw [hpd] at hpass
        cases hff : ContentFilter.firstFailingCheck cfg d with
        | none =>
          rw [hff] at hpass
          have hd2 : some d2 = some (ContentFilter.passDoc cfg d) := hpass
          have hd2' := Option.some.inj hd2
          refine ⟨hproc, ?_, ?_⟩
          · rw [hI2, hd2', passDoc_history]
            simp
          · simp only [List.length_append]
            simp
            omega
        | some r =>
          rw [hff] at hpass
          have hrej : ContentFilter.reject cfg d r = some d2 := hpass.symm
          have hd2' := reject_history cfg d r d2 hrej
          refine ⟨hproc, ?_, ?_⟩
          · rw [hI2, hd2']
            simp
          · simp only [List.length_append]
            simp
            omega

/-- A default filter: `keep_document = true`, minimum length 100. -/
def cfgC1 : ContentFilter := {}

/-- A four-character record, rejected by `cfgC1`'s length bound. -/
def docC1 : ProcessedDocument :=
  { id := "d1c", source := "test", source_id := "t1c", text := "tiny" }

/-- Counterexample to C1 as stated: a one-stage pipeline (the filter)
executes its stage on the record — the record comes back marked
`filtered = True` — yet `processing_history` stays empty: the rejection
path of `ContentFilter.process` returns without `add_processing_step`, so
`len(processing_history) = 0 ≠ 1 =` number of stages executed. -/
theorem claim_C1_cex :
    ∃ d', processDocument [PStage.filtering cfgC1] docC1 =
        Except.ok (some d') ∧
      mget d'.processing_metadata "filtered" = some (MVal.b true) ∧
      d'.processing_history.length = 0 ∧
      ([PStage.filtering cfgC1] : List PStage).length = 1 ∧
      (0 : Nat) ≠ 1 :=
  ⟨_, rfl, by decide, rfl, rfl, by decide⟩

/-- A `\w` collaborator for the C1 witness. -/
def wC1 : Char → Bool := fun c => c.isAlphanum

/-- A filter that the witness record passes (length bound 1). -/
def cfgC1f : ContentFilter := { min_length := 1 }

/-- Cleaning configuration of the C1 witness. -/
def tnC1 : TextNormalizer := { normalize_ellipses := false }

def docC1w : ProcessedDocument :=
  { id := "d1w", source := "test", source_id := "t1w", text := "Hello world" }

/-- The record after the witness pipeline (cleaning, then a passing
filter). -/
def dC1fin : ProcessedDocument :=
  ContentFilter.passDoc cfgC1f (TextNormalizer.process wC1 tnC1 docC1w)

/-- Witness for `claim_C1`: a cleaning stage followed by a passing filter
executes twice and appends exactly the two step names, in order. -/
theorem claim_C1_witness :
    runDoc [PStage.cleaning wC1 tnC1, PStage.filtering cfgC1f] docC1w =
      some (dC1fin, 2, ["text_normalization", "content_filtering"]) ∧
    (processDocument [PStage.cleaning wC1 tnC1, PStage.filtering cfgC1f]
        docC1w = Except.ok (some dC1fin) ∧
     dC1fin.processing_history =
       docC1w.processing_history ++
         ["text_normalization", "content_filtering"] ∧
     (["text_normalization", "content_filtering"] : List String).length ≤ 2) :=
  ⟨rfl,
   claim_C1 [PStage.cleaning wC1 tnC1, PStage.filtering cfgC1f] docC1w dC1fin
     2 ["text_normalization", "content_filtering"] rfl⟩

/-! ## Claim C5: idempotence of the text normalization

The development below analyses one `re.sub` pass (`subWB`) generically:
a `\b key \b` occurrence in the output either corresponds to an occurrence
already present in the input, or overlaps an inserted replacement block in
one of finitely many alignments; each alignment is ruled out by a
decidable side condition on the concrete key/replacement strings, checked
once for every ordered pair of dictionary entries. -/

/-- The standard `\w` classification on the ASCII characters appearing in
the substitution dictionaries (letters are word characters; space, period
and apostrophe are not) — Python's `\w` agrees with `isAlphanum` there. -/
def stdW : Char → Bool := fun c => c.isAlphanum

/-- Somewhere in `s` (scanned with previous-character context `prev`)
there is a `\b key \b` match. -/
def hasMatch (w : Char → Bool) (key : List Char) :
    Option Char → List Char → Bool
  | _, [] => false
  | prev, c :: rest =>
      matchAt w key prev (c :: rest) || hasMatch w key (some c) rest

theorem subWB_nil (w : Char → Bool) (key repl : List Char)
    (prev : Option Char) : subWB w key repl prev [] = [] := by
  rw [subWB]

theorem subWB_match (w : Char → Bool) (key repl : List Char)
    (prev : Option Char) (c : Char) (rest : List Char)
    (h : matchAt w key prev (c :: rest) = true) :
    subWB w key repl prev (c :: rest) =
      repl ++ subWB w key repl key.getLast? ((c :: rest).drop key.length) := by
  rw [subWB]
  simp [h]

theorem subWB_nomatch (w : Char → Bool) (key repl : List Char)
    (prev : Option Char) (c : Char) (rest : List Char)
    (h : matchAt w key prev (c :: rest) ≠ true) :
    subWB w key repl prev (c :: rest) =
      c :: subWB w key repl (some c) rest := by
  rw [subWB]
  simp [h]

theorem matchAt_iff {w : Char → Bool} {key : List Char} {prev : Option Char}
    {s : List Char} :
    matchAt w key prev s = true ↔
      key ≠ [] ∧ key <+: s ∧ wOpt w prev ≠ wOpt w key.head? ∧
        wOpt w key.getLast? ≠ wOpt w (s.drop key.length).head? := by
  unfold matchAt
  simp [List.isPrefixOf_iff_prefix, and_assoc]

theorem matchAt_congr_prev {w : Char → Bool} {key : List Char}
    {p1 p2 : Option Char} (s : List Char) (h : wOpt w p1 = wOpt w p2) :
    matchAt w key p1 s = matchAt w key p2 s := by
  unfold matchAt
  rw [h]

theorem hasMatch_nil (w : Char → Bool) (key : List Char)
    (prev : Option Char) : hasMatch w key prev [] = false := rfl

theorem hasMatch_cons (w : Char → Bool) (key : List Char)
    (prev : Option Char) (c : Char) (rest : List Char) :
    hasMatch w key prev (c :: rest) =
      (matchAt w key prev (c :: rest) || hasMatch w key (some c) rest) := rfl

theorem hasMatch_congr_prev {w : Char → Bool} {key : List Char}
    {p1 p2 : Option Char} (s : List Char) (h : wOpt w p1 = wOpt w p2) :
    hasMatch w key p1 s = hasMatch w key p2 s := by
  cases s with
  | nil => rfl
  | cons c rest =>
    rw [hasMatch_cons, hasMatch_cons, matchAt_congr_prev _ h]

/-- Scan-context weakening: a match under context `p1` yields one under
context `p2` when the classes agree, or when `p1`'s class equals the
key-head class (which rules the position-0 match out). -/
theorem hasMatch_weaken {w : Char → Bool} {key : List Char}
    {p1 p2 : Option Char} (s : List Char)
    (hc : wOpt w p1 = wOpt w p2 ∨ wOpt w p1 = wOpt w key.head?)
    (h : hasMatch w key p1 s = true) : hasMatch w key p2 s = true := by
  rcases hc with hc | hc
  · rwa [hasMatch_congr_prev s hc] at h
  · cases s with
    | nil => exact absurd h (by simp [hasMatch_nil])
    | cons c rest =>
      rw [hasMatch_cons] at h ⊢
      rcases Bool.or_eq_true_iff.mp h with h0 | ht
      · exact absurd (matchAt_iff.mp h0).2.2.1 (by simp [hc])
      · simp [ht]

theorem subWB_id (w : Char → Bool) (key repl : List Char) :
    ∀ (s : List Char) (prev : Option Char),
      hasMatch w key prev s = false → subWB w key repl prev s = s := by
  intro s
  induction s with
  | nil => intro prev _; exact subWB_nil w key repl prev
  | cons c rest ih =>
    intro prev h
    rw [hasMatch_cons] at h
    rcases Bool.or_eq_false_iff.mp h with ⟨h1, h2⟩
    rw [subWB_nomatch w key repl prev c rest (by simp [h1]), ih _ h2]

/-- The head character class survives one substitution pass (replacements
start in the same class as keys). -/
theorem subWB_headClass {w : Char → Bool} {key repl : List Char}
    (hr : repl ≠ []) (hclass : wOpt w repl.head? = wOpt w key.head?) :
    ∀ (prev : Option Char) (s : List Char),
      wOpt w (subWB w key repl prev s).head? = wOpt w s.head? := by
  intro prev s
  cases s with
  | nil => rw [subWB_nil]
  | cons c rest =>
    by_cases h : matchAt w key prev (c :: rest) = true
    · rw [subWB_match w key repl prev c rest h]
      rcases matchAt_iff.mp h with ⟨hk, hpre, -, -⟩
      have hkh : key.head? = some c := by
        cases key with
        | nil => exact absurd rfl hk
        | cons a t => rw [(List.cons_prefix_cons.mp hpre).1]; rfl
      cases repl with
      | nil => exact absurd rfl hr
      | cons r0 rt =>
        show wOpt w (some r0) = wOpt w (some c)
        rw [show (some r0 : Option Char) = (r0 :: rt : List Char).head? from rfl,
          hclass, hkh]
    · rw [subWB_nomatch w key repl prev c rest h]
      rfl

/-- A `\b k \b` occurrence could lie inside an inserted replacement block
(ending strictly inside it, or flush with its end). -/
def innerBadB (k kj rj : List Char) : Bool :=
  (List.range rj.length).any (fun i =>
    ((rj.drop i).take k.length == k) &&
    (if i = 0 then wOpt stdW k.head?
     else wOpt stdW rj[i-1]? != wOpt stdW k.head?) &&
    (if i + k.length < rj.length then
       wOpt stdW k.getLast? != wOpt stdW rj[i + k.length]?
     else wOpt stdW k.getLast? == wOpt stdW kj.getLast?))

/-- A `\b k \b` occurrence could start inside a replacement block and
continue past its right end. -/
def rightBadB (k kj rj : List Char) : Bool :=
  (List.range k.length).any (fun p =>
    decide (1 ≤ p) && decide (p + 1 ≤ k.length) && decide (p ≤ rj.length) &&
    (rj.drop (rj.length - p) == k.take p) &&
    (if rj.length - p = 0 then wOpt stdW k.head?
     else wOpt stdW rj[rj.length - p - 1]? != wOpt stdW k.head?) &&
    (wOpt stdW k[p]? == !(wOpt stdW kj.getLast?)))

/-- A `\b k \b` occurrence could start before a replacement block and
continue into (or past) it. -/
def leftBadB (k kj rj : List Char) : Bool :=
  (List.range k.length).any (fun a =>
    decide (1 ≤ a) &&
    (wOpt stdW k[a-1]? != wOpt stdW kj.head?) &&
    (if k.length - a < rj.length then
       (k.drop a == rj.take (k.length - a)) &&
       (wOpt stdW k.getLast? != wOpt stdW rj[k.length - a]?)
     else if k.length - a = rj.length then
       (k.drop a == rj) &&
       (wOpt stdW k.getLast? == wOpt stdW kj.getLast?)
     else
       ((k.drop a).take rj.length == rj) &&
       (wOpt stdW k[a + rj.length]? == !(wOpt stdW kj.getLast?))))

/-- After a block, the scan context class is the replacement's final
character; matches of `k` survive the context change when that class
matches the key context or blocks position-0 matches. -/
def ctxOKB (k kj rj : List Char) : Bool :=
  (wOpt stdW rj.getLast? == wOpt stdW kj.getLast?) ||
  (wOpt stdW rj.getLast? == wOpt stdW k.head?)

def safeTriple (k kj rj : List Char) : Bool :=
  !(innerBadB k kj rj) && !(rightBadB k kj rj) && !(leftBadB k kj rj) &&
  ctxOKB k kj rj

def keyShape (kj rj : List Char) : Bool :=
  !kj.isEmpty && !rj.isEmpty && wOpt stdW kj.head? && wOpt stdW rj.head?

theorem wOpt_congr_mem {w : Char → Bool} {l : List Char}
    (hw : ∀ c ∈ l, w c = stdW c) {x : Option Char}
    (hx : ∀ c, x = some c → c ∈ l) : wOpt w x = wOpt stdW x := by
  cases x with
  | none => rfl
  | some c => exact hw c (hx c rfl)

theorem wOpt_head_congr {w : Char → Bool} {l : List Char}
    (hw : ∀ c ∈ l, w c = stdW c) : wOpt w l.head? = wOpt stdW l.head? :=
  wOpt_congr_mem hw (fun _ h => List.mem_of_mem_head? h)

theorem wOpt_getLast_congr {w : Char → Bool} {l : List Char}
    (hw : ∀ c ∈ l, w c = stdW c) : wOpt w l.getLast? = wOpt stdW l.getLast? :=
  wOpt_congr_mem hw (fun c h => by
    rw [List.getLast?_eq_getElem?] at h
    exact List.getElem?_mem h)

theorem wOpt_getElem_congr {w : Char → Bool} {l : List Char}
    (hw : ∀ c ∈ l, w c = stdW c) (i : Nat) : wOpt w l[i]? = wOpt stdW l[i]? :=
  wOpt_congr_mem hw (fun _ h => List.getElem?_mem h)

/-- Scan context at offset `i` of a walk along `u` started with `prev`. -/
def prevAt (prev : Option Char) (u : List Char) (i : Nat) : Option Char :=
  if i = 0 then prev else u[i-1]?

theorem hasMatch_of_matchAt {w : Char → Bool} {key : List Char}
    {prev : Option Char} {s : List Char} (h : matchAt w key prev s = true) :
    hasMatch w key prev s = true := by
  cases s with
  | nil =>
    rcases matchAt_iff.mp h with ⟨hk, hpre, -, -⟩
    exact absurd (List.prefix_nil.mp hpre) hk
  | cons c rest =>
    rw [hasMatch_cons, h]
    rfl

/-- Any match over a concatenation either sits at an offset inside `u`
(with the walk context) or lies wholly in `v`. -/
theorem hasMatch_append_cases {w : Char → Bool} {k : List Char} :
    ∀ (u : List Char) (prev : Option Char) (v : List Char),
      hasMatch w k prev (u ++ v) = true →
      (∃ i, i < u.length ∧
        matchAt w k (prevAt prev u i) (u.drop i ++ v) = true) ∨
      hasMatch w k (if u = [] then prev else u.getLast?) v = true := by
  intro u
  induction u with
  | nil =>
    intro prev v h
    right
    simpa using h
  | cons c ut ih =>
    intro prev v h
    rw [List.cons_append, hasMatch_cons] at h
    rcases Bool.or_eq_true_iff.mp h with h0 | ht
    · left
      exact ⟨0, Nat.succ_pos _, by simpa [prevAt] using h0⟩
    · rcases ih (some c) v ht with ⟨i, hi, hm⟩ | hv
      · left
        refine ⟨i + 1, by simpa using hi, ?_⟩
        have hctx : prevAt prev (c :: ut) (i + 1) = prevAt (some c) ut i := by
          unfold prevAt
          cases i with
          | zero => simp
          | succ n => simp
        rw [hctx]
        exact hm
      · right
        cases hu : ut with
        | nil =>
          subst hu
          simpa using hv
        | cons d dt =>
          subst hu
          rw [if_neg (by simp)] at hv ⊢
          rwa [List.getLast?_cons_cons]

/-- Lifting a match in `v` to a match in `u ++ v` when the entry context
class is the actual class at the seam. -/
theorem hasMatch_lift {w : Char → Bool} {k : List Char} :
    ∀ (u : List Char) (prev ctx : Option Char) (v : List Char),
      (u = [] → wOpt w ctx = wOpt w prev) →
      (u ≠ [] → wOpt w ctx = wOpt w u.getLast?) →
      hasMatch w k ctx v = true → hasMatch w k prev (u ++ v) = true := by
  intro u
  induction u with
  | nil =>
    intro prev ctx v he _ h
    rw [List.nil_append]
    rwa [hasMatch_congr_prev v (he rfl)] at h
  | cons c ut ih =>
    intro prev ctx v _ hne h
    rw [List.cons_append]
    cases hv : ut ++ v with
    | nil => -- then v = [], contradiction with hasMatch ctx v
      rcases List.append_eq_nil.mp hv with ⟨-, rfl⟩
      exact absurd h (by simp [hasMatch_nil])
    | cons d dt =>
      rw [← hv, hasMatch_cons, Bool.or_eq_true_iff]
      right
      refine ih (some c) ctx v ?_ ?_ h
      · intro hu
        subst hu
        exact hne (by simp)
      · intro hu
        have h2 := hne (by simp)
        cases hu2 : ut with
        | nil => exact absurd hu2 hu
        | cons e et =>
          subst hu2
          rwa [List.getLast?_cons_cons] at h2

theorem bool_resolve (a b : Bool) (h : a ≠ !b) : a = b := by
  cases a <;> cases b <;> simp_all

theorem keyShape_unpack {kj rj : List Char} (h : keyShape kj rj = true) :
    kj ≠ [] ∧ rj ≠ [] ∧ wOpt stdW kj.head? = true ∧
      wOpt stdW rj.head? = true := by
  simp only [keyShape, Bool.and_eq_true, Bool.not_eq_true',
    List.isEmpty_eq_false] at h
  exact ⟨h.1.1.1, h.1.1.2, h.1.2, h.2⟩

theorem safeTriple_unpack {k kj rj : List Char} (h : safeTriple k kj rj = true) :
    innerBadB k kj rj = false ∧ rightBadB k kj rj = false ∧
      leftBadB k kj rj = false ∧ ctxOKB k kj rj = true := by
  simp only [safeTriple, Bool.and_eq_true, Bool.not_eq_true'] at h
  exact ⟨h.1.1.1, h.1.1.2, h.1.2, h.2⟩

/-- Alignment pullback: when a tail `k.drop j` of the target key aligns at
the start of a substitution output (with scan context matching `k`'s
previous character class) and `k`'s trailing boundary holds there, the
same tail aligns at the start of the INPUT with the same boundary — under
the safety conditions an alignment can never enter a replacement block. -/
theorem align_pullback (w : Char → Bool) (k kj rj : List Char)
    (hwk : ∀ c ∈ k, w c = stdW c) (hwj : ∀ c ∈ kj, w c = stdW c)
    (hwr : ∀ c ∈ rj, w c = stdW c)
    (hshape : keyShape kj rj = true)
    (hsafe : safeTriple k kj rj = true) :
    ∀ (n : Nat) (s : List Char), s.length ≤ n →
    ∀ (prev : Option Char) (j : Nat),
      1 ≤ j → j < k.length →
      wOpt w prev = wOpt w k[j-1]? →
      (k.drop j) <+: (subWB w kj rj prev s) →
      wOpt w k.getLast? ≠
        wOpt w ((subWB w kj rj prev s).drop (k.length - j)).head? →
      (k.drop j) <+: s ∧
        wOpt w k.getLast? ≠ wOpt w (s.drop (k.length - j)).head? := by
  obtain ⟨hjne, hrne, hjh, hrh⟩ := keyShape_unpack hshape
  obtain ⟨hInner, hRight, hLeft, hctx⟩ := safeTriple_unpack hsafe
  intro n
  induction n with
  | zero =>
    intro s hs prev j hj1 hjk hprev hpre hend
    have hs0 : s = [] := List.length_eq_zero.mp (Nat.le_zero.mp hs)
    subst hs0
    rw [subWB_nil] at hpre
    have h0 : k.drop j = [] := List.prefix_nil.mp hpre
    have h1 : k.length ≤ j := by
      have h2 := congrArg List.length h0
      rw [List.length_drop] at h2
      simp at h2
      omega
    omega
  | succ n ihn =>
    intro s hs prev j hj1 hjk hprev hpre hend
    cases s with
    | nil =>
      rw [subWB_nil] at hpre
      have h0 : k.drop j = [] := List.prefix_nil.mp hpre
      have h1 : k.length ≤ j := by
        have h2 := congrArg List.length h0
        rw [List.length_drop] at h2
        simp at h2
        omega
      omega
    | cons c rest =>
      by_cases hm : matchAt w kj prev (c :: rest) = true
      · -- the alignment would enter a replacement block: excluded
        exfalso
        rw [subWB_match w kj rj prev c rest hm] at hpre hend
        rcases matchAt_iff.mp hm with ⟨-, -, hb1, hb2⟩
        have hentry : wOpt stdW k[j-1]? ≠ wOpt stdW kj.head? := by
          rw [← wOpt_getElem_congr hwk, ← wOpt_head_congr hwj]
          rw [hprev] at hb1
          exact hb1
        have hheadcls : wOpt w (subWB w kj rj kj.getLast?
            ((c :: rest).drop kj.length)).head? =
            wOpt w ((c :: rest).drop kj.length).head? := by
          apply subWB_headClass hrne
          rw [wOpt_head_congr hwr, wOpt_head_congr hwj, hjh, hrh]
        have hb2' : wOpt w (subWB w kj rj kj.getLast?
            ((c :: rest).drop kj.length)).head? = !(wOpt w kj.getLast?) := by
          rw [hheadcls]
          exact Bool.eq_not_of_ne (Ne.symm hb2)
        have hlen : (k.drop j).length = k.length - j := List.length_drop j k
        rcases Nat.lt_trichotomy (k.length - j) rj.length with hlt | heqq | hgt
        · -- tail shorter than the block
          have hBrj : k.drop j <+: rj :=
            List.prefix_of_prefix_length_le hpre (List.prefix_append rj _)
              (by rw [hlen]; omega)
          have hBtake : k.drop j = rj.take (k.length - j) := by
            have h3 := List.prefix_iff_eq_take.mp hBrj
            rwa [hlen] at h3
          have hendc : wOpt w k.getLast? ≠ wOpt w rj[k.length - j]? := by
            rw [List.drop_append_of_le_length (by omega)] at hend
            rw [List.head?_append_of_ne_nil _ (by
              rw [ne_eq, List.drop_eq_nil_iff]
              omega)] at hend
            rwa [List.head?_drop] at hend
          have hbad : leftBadB k kj rj = true := by
            rw [leftBadB, List.any_eq_true]
            refine ⟨j, List.mem_range.mpr hjk, ?_⟩
            rw [if_pos hlt]
            simp only [Bool.and_eq_true, decide_eq_true_eq, bne_iff_ne,
              beq_iff_eq]
            refine ⟨⟨hj1, hentry⟩, hBtake, ?_⟩
            rw [← wOpt_getLast_congr hwk, ← wOpt_getElem_congr hwr]
            exact hendc
          rw [hbad] at hLeft
          exact absurd hLeft (by simp)
        · -- tail flush with the block
          have hBrj : k.drop j <+: rj :=
            List.prefix_of_prefix_length_le hpre (List.prefix_append rj _)
              (by rw [hlen]; omega)
          have hBeq : k.drop j = rj := by
            have h3 := List.prefix_iff_eq_take.mp hBrj
            rwa [hlen, heqq, List.take_length] at h3
          have hendc : wOpt w k.getLast? = wOpt w kj.getLast? := by
            rw [heqq, List.drop_left] at hend
            rw [hb2'] at hend
            exact bool_resolve _ _ hend
          have hbad : leftBadB k kj rj = true := by
            rw [leftBadB, List.any_eq_true]
            refine ⟨j, List.mem_range.mpr hjk, ?_⟩
            rw [if_neg (by omega), if_pos heqq]
            simp only [Bool.and_eq_true, decide_eq_true_eq, bne_iff_ne,
              beq_iff_eq]
            refine ⟨⟨hj1, hentry⟩, hBeq, ?_⟩
            rw [← wOpt_getLast_congr hwk, ← wOpt_getLast_congr hwj]
            exact hendc
          rw [hbad] at hLeft
          exact absurd hLeft (by simp)
        · -- tail runs past the block
          have hrjB : rj <+: k.drop j :=
            List.prefix_of_prefix_length_le (List.prefix_append rj _) hpre
              (by rw [hlen]; omega)
          have htake : (k.drop j).take rj.length = rj :=
            (List.prefix_iff_eq_take.mp hrjB).symm
          have hB := List.prefix_iff_eq_take.mp hpre
          have hgetB : (k.drop j)[rj.length]? = (subWB w kj rj kj.getLast?
              ((c :: rest).drop kj.length)).head? := by
            rw [hB, List.getElem?_take, if_pos (by rw [hlen]; omega),
              List.getElem?_append_right (Nat.le_refl _), Nat.sub_self]
            exact (List.head?_eq_getElem? _).symm
          have hafter : wOpt w k[j + rj.length]? = !(wOpt w kj.getLast?) := by
            rw [← List.getElem?_drop, hgetB, hb2']
          have hbad : leftBadB k kj rj = true := by
            rw [leftBadB, List.any_eq_true]
            refine ⟨j, List.mem_range.mpr hjk, ?_⟩
            rw [if_neg (by omega), if_neg (by omega)]
            simp only [Bool.and_eq_true, decide_eq_true_eq, bne_iff_ne,
              beq_iff_eq]
            refine ⟨⟨hj1, hentry⟩, htake, ?_⟩
            rw [← wOpt_getElem_congr hwk, ← wOpt_getLast_congr hwj]
            exact hafter
          rw [hbad] at hLeft
          exact absurd hLeft (by simp)
      · rw [subWB_nomatch w kj rj prev c rest hm] at hpre hend
        have hdropj : k.drop j = k[j] :: k.drop (j+1) :=
          List.drop_eq_getElem_cons hjk
        rw [hdropj] at hpre
        obtain ⟨hc, hpre2⟩ := List.cons_prefix_cons.mp hpre
        by_cases hj2 : j + 1 = k.length
        · have hdropempty : k.drop (j+1) = [] := by
            rw [List.drop_eq_nil_iff]
            omega
          have hm1 : k.length - j = 1 := by omega
          refine ⟨?_, ?_⟩
          · rw [hdropj, hdropempty, hc]
            exact List.cons_prefix_cons.mpr ⟨rfl, List.nil_prefix⟩
          · rw [hm1] at hend ⊢
            rw [List.drop_succ_cons, List.drop_zero] at hend ⊢
            have hcls : wOpt w (subWB w kj rj (some c) rest).head? =
                wOpt w rest.head? := by
              apply subWB_headClass hrne
              rw [wOpt_head_congr hwr, wOpt_head_congr hwj, hjh, hrh]
            rwa [hcls] at hend
        · have hj2' : j + 1 < k.length := by omega
          have hstep : k.length - j = (k.length - (j+1)) + 1 := by omega
          rw [hstep, List.drop_succ_cons] at hend
          have hprev' : wOpt w (some c) = wOpt w k[(j+1)-1]? := by
            simp only [Nat.add_sub_cancel]
            rw [List.getElem?_eq_getElem hjk, ← hc]
          obtain ⟨hp2, he2⟩ := ihn rest (by
              have := hs
              simp only [List.length_cons] at this
              omega)
            (some c) (j+1) (by omega) hj2' hprev' hpre2 hend
          refine ⟨?_, ?_⟩
          · rw [hdropj, hc]
            exact List.cons_prefix_cons.mpr ⟨rfl, hp2⟩
          · rw [hstep, List.drop_succ_cons]
            exact he2

/-- Position-0 pullback: a `\b k \b` match at the very start of a
substitution output is a match at the very start of the input. -/
theorem matchAt_pullback (w : Char → Bool) (k kj rj : List Char)
    (hwk : ∀ c ∈ k, w c = stdW c) (hwj : ∀ c ∈ kj, w c = stdW c)
    (hwr : ∀ c ∈ rj, w c = stdW c)
    (hshape : keyShape kj rj = true)
    (hsafe : safeTriple k kj rj = true) :
    ∀ (s : List Char) (prev : Option Char),
      matchAt w k prev (subWB w kj rj prev s) = true →
      matchAt w k prev s = true := by
  obtain ⟨hjne, hrne, hjh, hrh⟩ := keyShape_unpack hshape
  obtain ⟨hInner, hRight, hLeft, hctx⟩ := safeTriple_unpack hsafe
  have hrpos : 0 < rj.length := List.length_pos.mpr hrne
  intro s prev hma
  cases s with
  | nil =>
    rw [subWB_nil] at hma
    exact hma
  | cons c rest =>
    by_cases hm : matchAt w kj prev (c :: rest) = true
    · -- a position-0 match overlapping the first block: excluded
      exfalso
      rw [subWB_match w kj rj prev c rest hm] at hma
      rcases matchAt_iff.mp hma with ⟨hk, hkpre, hstart, hendb⟩
      rcases matchAt_iff.mp hm with ⟨-, -, hb1, hb2⟩
      have hprevf : wOpt w prev = false := by
        have h1 : wOpt w kj.head? = true := by
          rw [wOpt_head_congr hwj]
          exact hjh
        rw [h1] at hb1
        simpa using hb1
      have hkh : wOpt stdW k.head? = true := by
        rw [hprevf] at hstart
        rw [← wOpt_head_congr hwk]
        simpa using (Ne.symm hstart)
      have hheadcls : wOpt w (subWB w kj rj kj.getLast?
          ((c :: rest).drop kj.length)).head? =
          wOpt w ((c :: rest).drop kj.length).head? := by
        apply subWB_headClass hrne
        rw [wOpt_head_congr hwr, wOpt_head_congr hwj, hjh, hrh]
      have hb2' : wOpt w (subWB w kj rj kj.getLast?
          ((c :: rest).drop kj.length)).head? = !(wOpt w kj.getLast?) := by
        rw [hheadcls]
        exact Bool.eq_not_of_ne (Ne.symm hb2)
      rcases Nat.lt_trichotomy k.length rj.length with hlt | heqq | hgt
      · have hkrj : k <+: rj :=
          List.prefix_of_prefix_length_le hkpre (List.prefix_append rj _)
            (by omega)
        have hktake : k = rj.take k.length := List.prefix_iff_eq_take.mp hkrj
        have hendc : wOpt w k.getLast? ≠ wOpt w rj[k.length]? := by
          rw [List.drop_append_of_le_length (by omega)] at hendb
          rw [List.head?_append_of_ne_nil _ (by
            rw [ne_eq, List.drop_eq_nil_iff]
            omega)] at hendb
          rwa [List.head?_drop] at hendb
        have hbad : innerBadB k kj rj = true := by
          rw [innerBadB, List.any_eq_true]
          refine ⟨0, List.mem_range.mpr (by omega), ?_⟩
          rw [if_pos rfl, if_pos (by omega)]
          simp only [Bool.and_eq_true, beq_iff_eq, bne_iff_ne]
          refine ⟨⟨?_, hkh⟩, ?_⟩
          · rw [List.drop_zero]
            exact hktake.symm
          · rw [wOpt_getLast_congr hwk, wOpt_getElem_congr hwr] at hendc
            simpa using hendc
        rw [hbad] at hInner
        exact absurd hInner (by simp)
      · have hkrj : k <+: rj :=
          List.prefix_of_prefix_length_le hkpre (List.prefix_append rj _)
            (by omega)
        have hkeq : k = rj := by
          have h3 := List.prefix_iff_eq_take.mp hkrj
          rwa [heqq, List.take_length] at h3
        have hendc : wOpt w k.getLast? = wOpt w kj.getLast? := by
          rw [heqq, List.drop_left] at hendb
          rw [hb2'] at hendb
          exact bool_resolve _ _ hendb
        have hbad : innerBadB k kj rj = true := by
          rw [innerBadB, List.any_eq_true]
          refine ⟨0, List.mem_range.mpr (by omega), ?_⟩
          rw [if_pos rfl, if_neg (by omega)]
          simp only [Bool.and_eq_true, beq_iff_eq, bne_iff_ne]
          refine ⟨⟨?_, hkh⟩, ?_⟩
          · rw [List.drop_zero, hkeq]
            exact List.take_length rj
          · rw [wOpt_getLast_congr hwk, wOpt_getLast_congr hwj] at hendc
            simpa using hendc
        rw [hbad] at hInner
        exact absurd hInner (by simp)
      · have hrjk : rj <+: k :=
          List.prefix_of_prefix_length_le (List.prefix_append rj _) hkpre
            (by omega)
        have hrjtake : k.take rj.length = rj :=
          (List.prefix_iff_eq_take.mp hrjk).symm
        have hkget : k[rj.length]? = (subWB w kj rj kj.getLast?
            ((c :: rest).drop kj.length)).head? := by
          have hK := List.prefix_iff_eq_take.mp hkpre
          rw [hK, List.getElem?_take, if_pos (by omega),
            List.getElem?_append_right (Nat.le_refl _), Nat.sub_self]
          exact (List.head?_eq_getElem? _).symm
        have hafter : wOpt w k[rj.length]? = !(wOpt w kj.getLast?) := by
          rw [hkget, hb2']
        have hbad : rightBadB k kj rj = true := by
          rw [rightBadB, List.any_eq_true]
          refine ⟨rj.length, List.mem_range.mpr (by omega), ?_⟩
          rw [if_pos (by omega)]
          simp only [Bool.and_eq_true, decide_eq_true_eq, beq_iff_eq,
            bne_iff_ne]
          refine ⟨⟨⟨⟨⟨?_, ?_⟩, ?_⟩, ?_⟩, hkh⟩, ?_⟩
          · have : 1 ≤ rj.length := by
              cases rj with
              | nil => exact absurd rfl hrne
              | cons a t => simp
            exact this
          · omega
          · exact Nat.le_refl _
          · rw [Nat.sub_self, List.drop_zero]
            exact hrjtake.symm
          · rw [wOpt_getElem_congr hwk, wOpt_getLast_congr hwj] at hafter
            exact hafter
        rw [hbad] at hRight
        exact absurd hRight (by simp)
    · rw [subWB_nomatch w kj rj prev c rest hm] at hma
      rcases matchAt_iff.mp hma with ⟨hk, hkpre, hstart, hendb⟩
      cases hkc : k with
      | nil => exact absurd hkc hk
      | cons kh kt =>
        subst hkc
        obtain ⟨hc, hkt⟩ := List.cons_prefix_cons.mp hkpre
        by_cases hkt0 : kt = []
        · subst hkt0
          rw [matchAt_iff]
          refine ⟨hk, ?_, hstart, ?_⟩
          · rw [hc]
            exact List.cons_prefix_cons.mpr ⟨rfl, List.nil_prefix⟩
          · simp only [List.length_cons, List.length_nil, List.drop_succ_cons,
              List.drop_zero] at hendb ⊢
            have hcls : wOpt w (subWB w kj rj (some c) rest).head? =
                wOpt w rest.head? := by
              apply subWB_headClass hrne
              rw [wOpt_head_congr hwr, wOpt_head_congr hwj, hjh, hrh]
            rwa [hcls] at hendb
        · have hktpos : 0 < kt.length := List.length_pos.mpr hkt0
          have hlen2 : 2 ≤ (kh :: kt).length := by
            simp only [List.length_cons]
            omega
          have hprev1 : wOpt w (some c) = wOpt w (kh :: kt)[1-1]? := by
            show wOpt w (some c) = wOpt w (kh :: kt)[0]?
            have h0 : ((kh :: kt)[0]? : Option Char) = some kh := by simp
            rw [h0, ← hc]
          have hdrop1 : (kh :: kt).drop 1 = kt := rfl
          have hend1 : wOpt w (kh :: kt).getLast? ≠
              wOpt w ((subWB w kj rj (some c) rest).drop
                ((kh :: kt).length - 1)).head? := by
            have hL : (kh :: kt).length = kt.length + 1 := by simp
            rw [hL] at hendb ⊢
            simp only [Nat.add_sub_cancel]
            rw [List.drop_succ_cons] at hendb
            exact hendb
          obtain ⟨hp2, he2⟩ := align_pullback w (kh :: kt) kj rj hwk hwj hwr
            hshape hsafe rest.length rest (Nat.le_refl _) (some c) 1
            (Nat.le_refl 1) (by simp only [List.length_cons]; omega) hprev1
            (by rw [hdrop1]; exact hkt) hend1
          rw [matchAt_iff]
          refine ⟨hk, ?_, hstart, ?_⟩
          · rw [hc]
            refine List.cons_prefix_cons.mpr ⟨rfl, ?_⟩
            rw [hdrop1] at hp2
            exact hp2
          · have hL : (kh :: kt).length = kt.length + 1 := by simp
            rw [hL, List.drop_succ_cons]
            rw [hL] at he2
            simp only [Nat.add_sub_cancel] at he2
            exact he2

/-- No `\b k \b` match can start at any offset inside a replacement
block (`v` is the output text after the block; its head class is opposite
to the key's final character class). -/
theorem block_offset_excluded (w : Char → Bool) (k kj rj : List Char)
    (hwk : ∀ c ∈ k, w c = stdW c) (hwj : ∀ c ∈ kj, w c = stdW c)
    (hwr : ∀ c ∈ rj, w c = stdW c)
    (hshape : keyShape kj rj = true)
    (hsafe : safeTriple k kj rj = true)
    (prev : Option Char) (hprevf : wOpt w prev = false)
    (v : List Char) (hv : wOpt w v.head? = !(wOpt w kj.getLast?)) :
    ∀ i, i < rj.length →
      matchAt w k (prevAt prev rj i) (rj.drop i ++ v) = true → False := by
  obtain ⟨hjne, hrne, hjh, hrh⟩ := keyShape_unpack hshape
  obtain ⟨hInner, hRight, hLeft, hctx⟩ := safeTriple_unpack hsafe
  intro i hi hma
  rcases matchAt_iff.mp hma with ⟨hk, hkpre, hstart, hendb⟩
  have hkpos : 0 < k.length := List.length_pos.mpr hk
  have hdlen : (rj.drop i).length = rj.length - i := List.length_drop i rj
  have hstartB : (if i = 0 then wOpt stdW k.head?
      else (wOpt stdW rj[i-1]? != wOpt stdW k.head?)) = true := by
    by_cases hi0 : i = 0
    · rw [if_pos hi0]
      subst hi0
      unfold prevAt at hstart
      rw [if_pos rfl, hprevf] at hstart
      rw [← wOpt_head_congr hwk]
      simpa using (Ne.symm hstart)
    · rw [if_neg hi0]
      unfold prevAt at hstart
      rw [if_neg hi0] at hstart
      rw [bne_iff_ne, ← wOpt_getElem_congr hwr, ← wOpt_head_congr hwk]
      exact hstart
  rcases Nat.lt_trichotomy k.length (rj.length - i) with hlt | heqq | hgt
  · -- the match ends strictly inside the block
    have hkd : k <+: rj.drop i :=
      List.prefix_of_prefix_length_le hkpre (List.prefix_append _ _)
        (by omega)
    have htake : k = (rj.drop i).take k.length := List.prefix_iff_eq_take.mp hkd
    have hendc : wOpt w k.getLast? ≠ wOpt w rj[i + k.length]? := by
      rw [List.drop_append_of_le_length (by omega)] at hendb
      rw [List.head?_append_of_ne_nil _ (by
        rw [ne_eq, List.drop_eq_nil_iff]
        omega)] at hendb
      rw [List.head?_drop, List.getElem?_drop] at hendb
      exact hendb
    have hbad : innerBadB k kj rj = true := by
      rw [innerBadB, List.any_eq_true]
      refine ⟨i, List.mem_range.mpr hi, ?_⟩
      rw [if_pos (show i + k.length < rj.length by omega)]
      simp only [Bool.and_eq_true, beq_iff_eq, bne_iff_ne]
      refine ⟨⟨htake.symm, hstartB⟩, ?_⟩
      rw [wOpt_getLast_congr hwk, wOpt_getElem_congr hwr] at hendc
      exact hendc
    rw [hbad] at hInner
    exact absurd hInner (by simp)
  · -- the match ends flush with the block
    have hkd : k <+: rj.drop i :=
      List.prefix_of_prefix_length_le hkpre (List.prefix_append _ _)
        (by omega)
    have hkeq : k = rj.drop i := by
      have h3 := List.prefix_iff_eq_take.mp hkd
      rwa [heqq, ← hdlen, List.take_length] at h3
    have hendc : wOpt w k.getLast? = wOpt w kj.getLast? := by
      have hdl : ((rj.drop i ++ v).drop k.length) = v := by
        rw [show k.length = (rj.drop i).length by rw [hdlen]; omega]
        exact List.drop_left _ _
      rw [hdl, hv] at hendb
      exact bool_resolve _ _ hendb
    have hbad : innerBadB k kj rj = true := by
      rw [innerBadB, List.any_eq_true]
      refine ⟨i, List.mem_range.mpr hi, ?_⟩
      rw [if_neg (show ¬ i + k.length < rj.length by omega)]
      simp only [Bool.and_eq_true, beq_iff_eq, bne_iff_ne]
      refine ⟨⟨?_, hstartB⟩, ?_⟩
      · rw [← hkeq]
        exact List.take_length k
      · rw [wOpt_getLast_congr hwk, wOpt_getLast_congr hwj] at hendc
        simpa using hendc
    rw [hbad] at hInner
    exact absurd hInner (by simp)
  · -- the match runs past the block
    have hdk : rj.drop i <+: k :=
      List.prefix_of_prefix_length_le (List.prefix_append _ _) hkpre
        (by omega)
    have htake : k.take (rj.length - i) = rj.drop i := by
      have h3 := List.prefix_iff_eq_take.mp hdk
      rw [hdlen] at h3
      exact h3.symm
    have hget : k[rj.length - i]? = v.head? := by
      have hK := List.prefix_iff_eq_take.mp hkpre
      rw [hK, List.getElem?_take, if_pos (by omega),
        List.getElem?_append_right (by rw [hdlen])]
      rw [hdlen, Nat.sub_self]
      exact (List.head?_eq_getElem? _).symm
    have hafter : wOpt w k[rj.length - i]? = !(wOpt w kj.getLast?) := by
      rw [hget, hv]
    have hbad : rightBadB k kj rj = true := by
      rw [rightBadB, List.any_eq_true]
      refine ⟨rj.length - i, List.mem_range.mpr (by omega), ?_⟩
      rw [show rj.length - (rj.length - i) = i from by omega]
      simp only [Bool.and_eq_true, decide_eq_true_eq, beq_iff_eq]
      refine ⟨⟨⟨⟨⟨by omega, by omega⟩, by omega⟩, htake.symm⟩, ?_⟩, ?_⟩
      · exact hstartB
      · rw [wOpt_getElem_congr hwk, wOpt_getLast_congr hwj] at hafter
        exact hafter
    rw [hbad] at hRight
    exact absurd hRight (by simp)

/-- Cross-key preservation: any `\b k \b` match in a substitution output
pulls back to one in the input — the pass for `(kj, rj)` cannot create
occurrences of `k`. -/
theorem hasMatch_pullback (w : Char → Bool) (k kj rj : List Char)
    (hwk : ∀ c ∈ k, w c = stdW c) (hwj : ∀ c ∈ kj, w c = stdW c)
    (hwr : ∀ c ∈ rj, w c = stdW c)
    (hshape : keyShape kj rj = true)
    (hsafe : safeTriple k kj rj = true) :
    ∀ (n : Nat) (s : List Char), s.length ≤ n → ∀ (prev : Option Char),
      hasMatch w k prev (subWB w kj rj prev s) = true →
      hasMatch w k prev s = true := by
  obtain ⟨hjne, hrne, hjh, hrh⟩ := keyShape_unpack hshape
  obtain ⟨hInner, hRight, hLeft, hctx⟩ := safeTriple_unpack hsafe
  have hjpos : 0 < kj.length := List.length_pos.mpr hjne
  intro n
  induction n with
  | zero =>
    intro s hs prev h
    have hs0 : s = [] := List.length_eq_zero.mp (Nat.le_zero.mp hs)
    subst hs0
    rw [subWB_nil] at h
    exact h
  | succ n ihn =>
    intro s hs prev h
    cases s with
    | nil =>
      rw [subWB_nil] at h
      exact h
    | cons c rest =>
      by_cases hm : matchAt w kj prev (c :: rest) = true
      · rw [subWB_match w kj rj prev c rest hm] at h
        rcases matchAt_iff.mp hm with ⟨-, hkjpre, hb1, hb2⟩
        have hprevf : wOpt w prev = false := by
          have h1 : wOpt w kj.head? = true := by
            rw [wOpt_head_congr hwj]
            exact hjh
          rw [h1] at hb1
          simpa using hb1
        have hheadcls : wOpt w (subWB w kj rj kj.getLast?
            ((c :: rest).drop kj.length)).head? =
            wOpt w ((c :: rest).drop kj.length).head? := by
          apply subWB_headClass hrne
          rw [wOpt_head_congr hwr, wOpt_head_congr hwj, hjh, hrh]
        have hb2' : wOpt w (subWB w kj rj kj.getLast?
            ((c :: rest).drop kj.length)).head? = !(wOpt w kj.getLast?) := by
          rw [hheadcls]
          exact Bool.eq_not_of_ne (Ne.symm hb2)
        rcases hasMatch_append_cases rj prev _ h with ⟨i, hi, hma⟩ | hres
        · exact absurd hma (by
            intro hma
            exact block_offset_excluded w k kj rj hwk hwj hwr hshape hsafe
              prev hprevf _ hb2' i hi hma)
        · rw [if_neg hrne] at hres
          have hctx' : wOpt w rj.getLast? = wOpt w kj.getLast? ∨
              wOpt w rj.getLast? = wOpt w k.head? := by
            simp only [ctxOKB, Bool.or_eq_true, beq_iff_eq] at hctx
            rcases hctx with h1 | h1
            · left
              rw [wOpt_getLast_congr hwr, wOpt_getLast_congr hwj]
              exact h1
            · right
              rw [wOpt_getLast_congr hwr, wOpt_head_congr hwk]
              exact h1
          have hres2 : hasMatch w k kj.getLast? (subWB w kj rj kj.getLast?
              ((c :: rest).drop kj.length)) = true :=
            hasMatch_weaken _ hctx' hres
          have hs2len : ((c :: rest).drop kj.length).length ≤ n := by
            rw [List.length_drop]
            simp only [List.length_cons]
            simp only [List.length_cons] at hs
            omega
          have hres3 := ihn ((c :: rest).drop kj.length) hs2len kj.getLast?
            hres2
          have happ : kj ++ (c :: rest).drop kj.length = c :: rest :=
            List.prefix_iff_eq_append.mp hkjpre
          have := hasMatch_lift kj prev kj.getLast? _
            (fun hh => absurd hh hjne) (fun _ => rfl) hres3
          rwa [happ] at this
      · rw [subWB_nomatch w kj rj prev c rest hm] at h
        rw [hasMatch_cons] at h
        rcases Bool.or_eq_true_iff.mp h with h0 | ht
        · have h0' : matchAt w k prev (subWB w kj rj prev (c :: rest)) =
              true := by
            rw [subWB_nomatch w kj rj prev c rest hm]
            exact h0
          have := matchAt_pullback w k kj rj hwk hwj hwr hshape hsafe
            (c :: rest) prev h0'
          rw [hasMatch_cons, this]
          rfl
        · have ht2 := ihn rest (by
              simp only [List.length_cons] at hs
              omega) (some c) ht
          rw [hasMatch_cons, ht2]
          simp

/-- Self-cleanliness: after the pass for `(kj, rj)` there is no
`\b kj \b` occurrence left anywhere in the output. -/
theorem subWB_selfclean (w : Char → Bool) (kj rj : List Char)
    (hwj : ∀ c ∈ kj, w c = stdW c) (hwr : ∀ c ∈ rj, w c = stdW c)
    (hshape : keyShape kj rj = true)
    (hsafe : safeTriple kj kj rj = true) :
    ∀ (n : Nat) (s : List Char), s.length ≤ n → ∀ (prev : Option Char),
      hasMatch w kj prev (subWB w kj rj prev s) = false := by
  obtain ⟨hjne, hrne, hjh, hrh⟩ := keyShape_unpack hshape
  obtain ⟨hInner, hRight, hLeft, hctx⟩ := safeTriple_unpack hsafe
  have hjpos : 0 < kj.length := List.length_pos.mpr hjne
  intro n
  induction n with
  | zero =>
    intro s hs prev
    have hs0 : s = [] := List.length_eq_zero.mp (Nat.le_zero.mp hs)
    subst hs0
    rw [subWB_nil]
    rfl
  | succ n ihn =>
    intro s hs prev
    cases s with
    | nil =>
      rw [subWB_nil]
      rfl
    | cons c rest =>
      by_cases hm : matchAt w kj prev (c :: rest) = true
      · rw [subWB_match w kj rj prev c rest hm]
        by_contra hcon
        have h : hasMatch w kj prev (rj ++ subWB w kj rj kj.getLast?
            ((c :: rest).drop kj.length)) = true := by
          simpa using hcon
        rcases matchAt_iff.mp hm with ⟨-, hkjpre, hb1, hb2⟩
        have hprevf : wOpt w prev = false := by
          have h1 : wOpt w kj.head? = true := by
            rw [wOpt_head_congr hwj]
            exact hjh
          rw [h1] at hb1
          simpa using hb1
        have hheadcls : wOpt w (subWB w kj rj kj.getLast?
            ((c :: rest).drop kj.length)).head? =
            wOpt w ((c :: rest).drop kj.length).head? := by
          apply subWB_headClass hrne
          rw [wOpt_head_congr hwr, wOpt_head_congr hwj, hjh, hrh]
        have hb2' : wOpt w (subWB w kj rj kj.getLast?
            ((c :: rest).drop kj.length)).head? = !(wOpt w kj.getLast?) := by
          rw [hheadcls]
          exact Bool.eq_not_of_ne (Ne.symm hb2)
        rcases hasMatch_append_cases rj prev _ h with ⟨i, hi, hma⟩ | hres
        · exact block_offset_excluded w kj kj rj hwj hwj hwr hshape hsafe
            prev hprevf _ hb2' i hi hma
        · rw [if_neg hrne] at hres
          have hctx' : wOpt w rj.getLast? = wOpt w kj.getLast? ∨
              wOpt w rj.getLast? = wOpt w kj.head? := by
            simp only [ctxOKB, Bool.or_eq_true, beq_iff_eq] at hctx
            rcases hctx with h1 | h1
            · left
              rw [wOpt_getLast_congr hwr, wOpt_getLast_congr hwj]
              exact h1
            · right
              rw [wOpt_getLast_congr hwr, wOpt_head_congr hwj]
              exact h1
          have hres2 : hasMatch w kj kj.getLast? (subWB w kj rj kj.getLast?
              ((c :: rest).drop kj.length)) = true :=
            hasMatch_weaken _ hctx' hres
          have hs2len : ((c :: rest).drop kj.length).length ≤ n := by
            rw [List.length_drop]
            simp only [List.length_cons]
            simp only [List.length_cons] at hs
            omega
          have := ihn ((c :: rest).drop kj.length) hs2len kj.getLast?
          rw [this] at hres2
          exact absurd hres2 (by simp)
      · rw [subWB_nomatch w kj rj prev c rest hm]
        rw [hasMatch_cons]
        apply Bool.or_eq_false_iff.mpr
        constructor
        · by_contra hcon
          have h0 : matchAt w kj prev
              (c :: subWB w kj rj (some c) rest) = true := by
            simpa using hcon
          have h0' : matchAt w kj prev (subWB w kj rj prev (c :: rest)) =
              true := by
            rw [subWB_nomatch w kj rj prev c rest hm]
            exact h0
          exact hm (matchAt_pullback w kj kj rj hwj hwj hwr hshape hsafe
            (c :: rest) prev h0')
        · exact ihn rest (by
            simp only [List.length_cons] at hs
            omega) (some c)

/-- Each dictionary pair is seam-safe against itself and against every
LATER pair (occurrences created by an earlier pass are removed by the
later key's own pass, so only this direction matters). -/
def dictSafe : List (String × String) → Bool
  | [] => true
  | p :: rest =>
      safeTriple p.1.data p.1.data p.2.data &&
      rest.all (fun q => safeTriple p.1.data q.1.data q.2.data) &&
      dictSafe rest

/-- After a full dictionary pass, no key of the dictionary — nor any
previously-cleaned key that is safe against the dictionary — has a
`\b`-bounded occurrence left. -/
theorem applySubs_clean (w : Char → Bool) :
    ∀ (D : List (String × String)) (ks : List (List Char)) (s : List Char),
      (∀ k ∈ ks, ∀ c ∈ k, w c = stdW c) →
      (∀ p ∈ D, (∀ c ∈ p.1.data, w c = stdW c) ∧
        (∀ c ∈ p.2.data, w c = stdW c)) →
      (∀ p ∈ D, keyShape p.1.data p.2.data = true) →
      (∀ k ∈ ks, ∀ p ∈ D, safeTriple k p.1.data p.2.data = true) →
      dictSafe D = true →
      (∀ k ∈ ks, hasMatch w k none s = false) →
      ∀ k, (k ∈ ks ∨ ∃ p ∈ D, k = p.1.data) →
        hasMatch w k none (applySubs w D s) = false := by
  intro D
  induction D with
  | nil =>
    intro ks s hwks _ _ _ _ hclean k hk
    rcases hk with hk | ⟨p, hp, -⟩
    · exact hclean k hk
    · exact absurd hp (by simp)
  | cons p D' ih =>
    intro ks s hwks hwD hshapes hcross hdict hclean k hk
    obtain ⟨hwp1, hwp2⟩ := hwD p (by simp)
    have hshapep : keyShape p.1.data p.2.data = true := hshapes p (by simp)
    obtain ⟨hselfp, hlater, hdict'⟩ :
        safeTriple p.1.data p.1.data p.2.data = true ∧
        (∀ q ∈ D', safeTriple p.1.data q.1.data q.2.data = true) ∧
        dictSafe D' = true := by
      have hd := hdict
      rw [dictSafe, Bool.and_eq_true, Bool.and_eq_true] at hd
      exact ⟨hd.1.1, by
        intro q hq
        exact List.all_eq_true.mp hd.1.2 q hq, hd.2⟩
    have hfold : applySubs w (p :: D') s =
        applySubs w D' (subWB w p.1.data p.2.data none s) := rfl
    rw [hfold]
    apply ih (p.1.data :: ks) (subWB w p.1.data p.2.data none s)
    · intro k2 hk2
      rcases List.mem_cons.mp hk2 with rfl | hk2
      · exact hwp1
      · exact hwks k2 hk2
    · intro q hq
      exact hwD q (by simp [hq])
    · intro q hq
      exact hshapes q (by simp [hq])
    · intro k2 hk2 q hq
      rcases List.mem_cons.mp hk2 with rfl | hk2
      · exact hlater q hq
      · exact hcross k2 hk2 q (by simp [hq])
    · exact hdict'
    · intro k2 hk2
      rcases List.mem_cons.mp hk2 with rfl | hk2
      · exact subWB_selfclean w p.1.data p.2.data hwp1 hwp2 hshapep hselfp
          s.length s (Nat.le_refl _) none
      · rw [← Bool.not_eq_true]
        intro hcon
        have := hasMatch_pullback w k2 p.1.data p.2.data
          (hwks k2 hk2) hwp1 hwp2 hshapep
          (hcross k2 hk2 p (by simp)) s.length s (Nat.le_refl _) none hcon
        rw [hclean k2 hk2] at this
        exact absurd this (by simp)
    · rcases hk with hk | ⟨q, hq, hkq⟩
      · exact Or.inl (List.mem_cons_of_mem _ hk)
      · rcases List.mem_cons.mp hq with rfl | hq
        · exact Or.inl (by simp [hkq])
        · exact Or.inr ⟨q, hq, hkq⟩

/-- A dictionary pass over a text free of all its keys is the identity. -/
theorem applySubs_id (w : Char → Bool) :
    ∀ (D : List (String × String)) (s : List Char),
      (∀ p ∈ D, hasMatch w p.1.data none s = false) →
      applySubs w D s = s := by
  intro D
  induction D with
  | nil => intro s _; rfl
  | cons p D' ih =>
    intro s hclean
    have hfold : applySubs w (p :: D') s =
        applySubs w D' (subWB w p.1.data p.2.data none s) := rfl
    rw [hfold, subWB_id w p.1.data p.2.data s none (hclean p (by simp))]
    apply ih
    intro q hq
    exact hclean q (by simp [hq])

/-- The per-character action of a sequential `str.replace` chain. -/
def chainMap (m : List (Char × Char)) (c : Char) : Char :=
  m.foldl (fun c kv => if c = kv.1 then kv.2 else c) c

theorem applyCharMap_eq_map :
    ∀ (m : List (Char × Char)) (s : List Char),
      applyCharMap m s = s.map (chainMap m) := by
  intro m
  induction m with
  | nil =>
    intro s
    show s = s.map (chainMap [])
    have h1 : ∀ c ∈ s, chainMap [] c = id c := fun c _ => rfl
    rw [List.map_congr_left h1, List.map_id]
  | cons kv m ih =>
    intro s
    show applyCharMap m (replaceChar s kv.1 kv.2) = _
    rw [ih, replaceChar, List.map_map]
    apply List.map_congr_left
    intro c _
    rfl

theorem chainMap_or : ∀ (m : List (Char × Char)) (c : Char),
    chainMap m c = c ∨ chainMap m c ∈ m.map Prod.snd := by
  intro m
  induction m with
  | nil => intro c; exact Or.inl rfl
  | cons kv m ih =>
    intro c
    have hc : chainMap (kv :: m) c = chainMap m (if c = kv.1 then kv.2 else c) :=
      rfl
    by_cases h : c = kv.1
    · rw [hc, if_pos h]
      rcases ih kv.2 with h2 | h2
      · refine Or.inr ?_
        rw [h2, List.map_cons]
        exact List.mem_cons_self _ _
      · refine Or.inr ?_
        rw [List.map_cons]
        exact List.mem_cons_of_mem _ h2
    · rw [hc, if_neg h]
      rcases ih c with h2 | h2
      · exact Or.inl h2
      · refine Or.inr ?_
        rw [List.map_cons]
        exact List.mem_cons_of_mem _ h2

theorem applyCharMap_id_of_fixed (m : List (Char × Char)) (s : List Char)
    (h : ∀ c ∈ s, chainMap m c = c) : applyCharMap m s = s := by
  rw [applyCharMap_eq_map, List.map_congr_left h, List.map_id']

/-- Characters of a collapsed text come from the input or are periods. -/
theorem mem_collapseDots :
    ∀ (n : Nat) (s : List Char), s.length ≤ n →
      ∀ c ∈ collapseDots s, c ∈ s ∨ c = '.' := by
  intro n
  induction n with
  | zero =>
    intro s hs c hc
    have hs0 : s = [] := List.length_eq_zero.mp (Nat.le_zero.mp hs)
    subst hs0
    rw [show collapseDots [] = [] from by rw [collapseDots]] at hc
    exact absurd hc (by simp)
  | succ n ihn =>
    intro s hs c hc
    cases s with
    | nil =>
      rw [show collapseDots [] = [] from by rw [collapseDots]] at hc
      exact absurd hc (by simp)
    | cons c0 rest =>
      by_cases hcond : c0 = '.' ∧ dotRun rest ≠ 0
      · rw [show collapseDots (c0 :: rest) =
            '.' :: '.' :: '.' :: collapseDots (rest.drop (dotRun rest)) from by
          rw [collapseDots]
          simp [hcond]] at hc
        simp only [List.mem_cons] at hc
        rcases hc with rfl | rfl | rfl | hc
        · exact Or.inr rfl
        · exact Or.inr rfl
        · exact Or.inr rfl
        · rcases ihn (rest.drop (dotRun rest)) (by
              rw [List.length_drop]
              simp only [List.length_cons] at hs
              omega) c hc with h2 | h2
          · exact Or.inl (List.mem_cons_of_mem _
              (List.mem_of_mem_drop h2))
          · exact Or.inr h2
      · rw [show collapseDots (c0 :: rest) = c0 :: collapseDots rest from by
          rw [collapseDots]
          simp [hcond]] at hc
        simp only [List.mem_cons] at hc
        rcases hc with rfl | hc
        · exact Or.inl (by simp)
        · rcases ihn rest (by
              simp only [List.length_cons] at hs
              omega) c hc with h2 | h2
          · exact Or.inl (List.mem_cons_of_mem _ h2)
          · exact Or.inr h2

theorem mem_expandAmp : ∀ (s : List Char), ∀ c ∈ expandAmp s,
    c ∈ s ∨ c = 'a' ∨ c = 'n' ∨ c = 'd' := by
  intro s
  induction s with
  | nil => intro c hc; exact absurd hc (by simp [expandAmp])
  | cons c0 rest ih =>
    intro c hc
    by_cases h0 : c0 = '&'
    · rw [show expandAmp (c0 :: rest) = 'a' :: 'n' :: 'd' :: expandAmp rest
          from by rw [expandAmp, if_pos h0]] at hc
      simp only [List.mem_cons] at hc
      rcases hc with rfl | rfl | rfl | hc
      · exact Or.inr (Or.inl rfl)
      · exact Or.inr (Or.inr (Or.inl rfl))
      · exact Or.inr (Or.inr (Or.inr rfl))
      · rcases ih c hc with h2 | h2
        · exact Or.inl (List.mem_cons_of_mem _ h2)
        · exact Or.inr h2
    · rw [show expandAmp (c0 :: rest) = c0 :: expandAmp rest
          from by rw [expandAmp, if_neg h0]] at hc
      simp only [List.mem_cons] at hc
      rcases hc with rfl | hc
      · exact Or.inl (by simp)
      · rcases ih c hc with h2 | h2
        · exact Or.inl (List.mem_cons_of_mem _ h2)
        · exact Or.inr h2

/-- The output of one substitution pass is made of input characters and
replacement characters. -/
theorem mem_subWB (w : Char → Bool) (key repl : List Char) :
    ∀ (n : Nat) (s : List Char), s.length ≤ n → ∀ (prev : Option Char),
      ∀ c ∈ subWB w key repl prev s, c ∈ s ∨ c ∈ repl := by
  intro n
  induction n with
  | zero =>
    intro s hs prev c hc
    have hs0 : s = [] := List.length_eq_zero.mp (Nat.le_zero.mp hs)
    subst hs0
    rw [subWB_nil] at hc
    exact absurd hc (by simp)
  | succ n ihn =>
    intro s hs prev c hc
    cases s with
    | nil =>
      rw [subWB_nil] at hc
      exact absurd hc (by simp)
    | cons c0 rest =>
      by_cases hm : matchAt w key prev (c0 :: rest) = true
      · rw [subWB_match w key repl prev c0 rest hm] at hc
        rcases List.mem_append.mp hc with hc | hc
        · exact Or.inr hc
        · have hkl : 1 ≤ key.length :=
            List.length_pos.mpr (matchAt_iff.mp hm).1
          rcases ihn ((c0 :: rest).drop key.length) (by
              rw [List.length_drop]
              simp only [List.length_cons] at hs ⊢
              omega) key.getLast? c hc with h2 | h2
          · exact Or.inl (List.mem_of_mem_drop h2)
          · exact Or.inr h2
      · rw [subWB_nomatch w key repl prev c0 rest hm] at hc
        simp only [List.mem_cons] at hc
        rcases hc with rfl | hc
        · exact Or.inl (by simp)
        · rcases ihn rest (by
              simp only [List.length_cons] at hs
              omega) (some c0) c hc with h2 | h2
          · exact Or.inl (List.mem_cons_of_mem _ h2)
          · exact Or.inr h2

theorem mem_applySubs (w : Char → Bool) :
    ∀ (D : List (String × String)) (s : List Char),
      ∀ c ∈ applySubs w D s, c ∈ s ∨ ∃ p ∈ D, c ∈ p.2.data := by
  intro D
  induction D with
  | nil => intro s c hc; exact Or.inl hc
  | cons p D' ih =>
    intro s c hc
    have hfold : applySubs w (p :: D') s =
        applySubs w D' (subWB w p.1.data p.2.data none s) := rfl
    rw [hfold] at hc
    rcases ih _ c hc with h2 | ⟨q, hq, hcq⟩
    · rcases mem_subWB w p.1.data p.2.data s.length s (Nat.le_refl _) none
        c h2 with h3 | h3
      · exact Or.inl h3
      · exact Or.inr ⟨p, by simp, h3⟩
    · exact Or.inr ⟨q, by simp [hq], hcq⟩

theorem expandAmp_id : ∀ (s : List Char), (∀ c ∈ s, c ≠ '&') →
    expandAmp s = s := by
  intro s
  induction s with
  | nil => intro _; rfl
  | cons c0 rest ih =>
    intro h
    rw [expandAmp, if_neg (h c0 (by simp)), ih (fun c hc => h c (by simp [hc]))]

theorem expandAmp_no_amp : ∀ (s : List Char), ∀ c ∈ expandAmp s,
    c ≠ '&' := by
  intro s
  induction s with
  | nil => intro c hc; exact absurd hc (by simp [expandAmp])
  | cons c0 rest ih =>
    intro c hc
    by_cases h0 : c0 = '&'
    · rw [show expandAmp (c0 :: rest) = 'a' :: 'n' :: 'd' :: expandAmp rest
          from by rw [expandAmp, if_pos h0]] at hc
      simp only [List.mem_cons] at hc
      rcases hc with rfl | rfl | rfl | hc
      · decide
      · decide
      · decide
      · exact ih c hc
    · rw [show expandAmp (c0 :: rest) = c0 :: expandAmp rest
          from by rw [expandAmp, if_neg h0]] at hc
      simp only [List.mem_cons] at hc
      rcases hc with rfl | hc
      · exact h0
      · exact ih c hc

/-- Scan of the `{1,3}`-dot-run discipline: `b` records that the previous
character closed a complete run (so the next one must not be a dot). -/
def dotsOKAux : Bool → List Char → Bool
  | _, [] => true
  | b, c :: rest =>
      if c = '.' then
        !b && (dotRun rest == 0 || dotRun rest == 2) &&
          dotsOKAux true (rest.drop (dotRun rest))
      else dotsOKAux false rest
termination_by _ s => s.length
decreasing_by
  · simp [List.length_drop]
    omega
  · simp

/-- No two adjacent periods. -/
def noDD : List Char → Bool
  | [] => true
  | c :: rest => ((!(c == '.')) || (rest.head? != some '.')) && noDD rest

theorem dotsOKAux_nil (b : Bool) : dotsOKAux b [] = true := by
  rw [dotsOKAux]

theorem dotsOKAux_dot (b : Bool) (rest : List Char) :
    dotsOKAux b ('.' :: rest) =
      (!b && (dotRun rest == 0 || dotRun rest == 2) &&
        dotsOKAux true (rest.drop (dotRun rest))) := by
  rw [dotsOKAux]
  simp

theorem dotsOKAux_nodot (b : Bool) (c : Char) (rest : List Char)
    (h : c ≠ '.') : dotsOKAux b (c :: rest) = dotsOKAux false rest := by
  rw [dotsOKAux]
  simp [h]

theorem dotRun_cons_dot (rest : List Char) :
    dotRun ('.' :: rest) = dotRun rest + 1 := by
  simp [dotRun]

theorem dotRun_cons_nodot (c : Char) (rest : List Char) (h : c ≠ '.') :
    dotRun (c :: rest) = 0 := by
  simp [dotRun, h]

theorem dotRun_zero (t : List Char) : dotRun t = 0 ↔ t.head? ≠ some '.' := by
  cases t with
  | nil => simp [dotRun]
  | cons c r =>
    by_cases h : c = '.'
    · subst h
      rw [dotRun_cons_dot]
      simp
    · rw [dotRun_cons_nodot c r h]
      simp [h]

theorem dotRun_drop : ∀ (t : List Char),
    (t.drop (dotRun t)).head? ≠ some '.' := by
  intro t
  induction t with
  | nil => simp
  | cons c r ih =>
    by_cases h : c = '.'
    · subst h
      rw [dotRun_cons_dot, List.drop_succ_cons]
      exact ih
    · rw [dotRun_cons_nodot c r h, List.drop_zero]
      simp [h]

theorem dotRun_two (t : List Char) (h : dotRun t = 2) :
    ∃ r2, t = '.' :: '.' :: r2 ∧ dotRun r2 = 0 := by
  cases t with
  | nil => simp [dotRun] at h
  | cons c r =>
    by_cases hc : c = '.'
    · subst hc
      rw [dotRun_cons_dot] at h
      cases r with
      | nil => simp [dotRun] at h
      | cons c2 r2 =>
        by_cases hc2 : c2 = '.'
        · subst hc2
          rw [dotRun_cons_dot] at h
          exact ⟨r2, rfl, by omega⟩
        · rw [dotRun_cons_nodot c2 r2 hc2] at h
          omega
    · rw [dotRun_cons_nodot c r hc] at h
      omega

theorem dotsOKAux_true_eq (t : List Char) :
    dotsOKAux true t = ((t.head? != some '.') && dotsOKAux false t) := by
  cases t with
  | nil =>
    rw [dotsOKAux_nil, dotsOKAux_nil]
    rfl
  | cons c r =>
    by_cases h : c = '.'
    · subst h
      rw [dotsOKAux_dot]
      simp
    · rw [dotsOKAux_nodot _ c r h, dotsOKAux_nodot _ c r h]
      simp [h]

theorem dotsOKAux_mono {t : List Char} (h : dotsOKAux true t = true) :
    dotsOKAux false t = true := by
  rw [dotsOKAux_true_eq, Bool.and_eq_true] at h
  exact h.2

/-- Scanning a dot-free nonempty prefix resets the state. -/
theorem dotsOKAux_nodot_front :
    ∀ (u : List Char), (∀ c ∈ u, c ≠ '.') → u ≠ [] →
      ∀ (b : Bool) (v : List Char),
        dotsOKAux b (u ++ v) = dotsOKAux false v := by
  intro u
  induction u with
  | nil => intro _ hne; exact absurd rfl hne
  | cons c ut ih =>
    intro hnd _ b v
    rw [List.cons_append, dotsOKAux_nodot b c _ (hnd c (by simp))]
    cases hu : ut with
    | nil =>
      subst hu
      rw [List.nil_append]
    | cons d dt =>
      subst hu
      exact ih (fun x hx => hnd x (by simp [hx])) (by simp) false v

/-- Scanning an adjacent-dot-free word whose head is not a dot leaves the
scan in the state recorded by its final character. -/
theorem dotsOKAux_pass :
    ∀ (u : List Char), noDD u = true →
      ∀ (b : Bool) (v : List Char),
        (b = true → u.head? ≠ some '.') →
        (u.getLast? = some '.' → dotRun v = 0) →
        dotsOKAux b (u ++ v) = true →
        dotsOKAux (u.getLast? == some '.') v = true := by
  intro u
  induction u with
  | nil =>
    intro _ b v hbd _ h
    rw [List.nil_append] at h
    show dotsOKAux false v = true
    cases hb : b with
    | false => rwa [hb] at h
    | true =>
      rw [hb] at h
      exact dotsOKAux_mono h
  | cons c ut ih =>
    intro hDD b v hbd hlast h
    have hDD2 : ((!(c == '.')) || (ut.head? != some '.')) = true ∧
        noDD ut = true := by
      rw [noDD, Bool.and_eq_true] at hDD
      exact hDD
    by_cases hc : c = '.'
    · subst hc
      have hb : b = false := by
        cases hb : b with
        | false => rfl
        | true => exact absurd rfl (hbd hb)
      subst hb
      have huthead : ut.head? ≠ some '.' := by
        rcases Bool.or_eq_true_iff.mp hDD2.1 with h1 | h1
        · simp at h1
        · simpa using h1
      cases hu : ut with
      | nil =>
        subst hu
        rw [List.cons_append, List.nil_append, dotsOKAux_dot] at h
        have hlast' : dotRun v = 0 := hlast rfl
        rw [hlast'] at h
        simp only [Bool.and_eq_true] at h
        rw [List.drop_zero] at h
        show dotsOKAux ((['.'] : List Char).getLast? == some '.') v = true
        rw [show ((['.'] : List Char).getLast? == some '.') = true from rfl]
        exact h.2
      | cons d dt =>
        subst hu
        have hd : d ≠ '.' := by
          intro hdd
          exact huthead (by rw [hdd]; rfl)
        rw [List.cons_append, dotsOKAux_dot] at h
        have hdr : dotRun ((d :: dt) ++ v) = 0 :=
          dotRun_cons_nodot d _ hd
        rw [hdr] at h
        simp only [Bool.and_eq_true] at h
        rw [List.drop_zero] at h
        have h2 : dotsOKAux false ((d :: dt) ++ v) = true :=
          dotsOKAux_mono h.2
        have h3 := ih hDD2.2 false v (by simp)
          (by
            intro hl
            apply hlast
            rw [List.getLast?_cons_cons]
            exact hl) h2
        rwa [show (('.' :: d :: dt : List Char).getLast? == some '.') =
          ((d :: dt : List Char).getLast? == some '.') from by
            rw [List.getLast?_cons_cons]]
    · rw [List.cons_append, dotsOKAux_nodot b c _ hc] at h
      cases hu : ut with
      | nil =>
        subst hu
        rw [List.nil_append] at h
        show dotsOKAux (((c :: [] : List Char).getLast?) == some '.') v = true
        rw [show ((c :: [] : List Char).getLast? == some '.') = false from by
          simp [hc]]
        exact h
      | cons d dt =>
        subst hu
        have h3 := ih hDD2.2 false v (by simp)
          (by
            intro hl
            apply hlast
            rw [List.getLast?_cons_cons]
            exact hl) h
        rwa [show ((c :: d :: dt : List Char).getLast? == some '.') =
          ((d :: dt : List Char).getLast? == some '.') from by
            rw [List.getLast?_cons_cons]]

theorem collapseDots_nil : collapseDots [] = [] := by
  rw [collapseDots]

theorem collapseDots_sub (c0 : Char) (rest : List Char)
    (h : c0 = '.' ∧ dotRun rest ≠ 0) : collapseDots (c0 :: rest) =
      '.' :: '.' :: '.' :: collapseDots (rest.drop (dotRun rest)) := by
  rw [collapseDots]
  simp [h]

theorem collapseDots_keep (c0 : Char) (rest : List Char)
    (h : ¬(c0 = '.' ∧ dotRun rest ≠ 0)) :
    collapseDots (c0 :: rest) = c0 :: collapseDots rest := by
  rw [collapseDots]
  simp only [h, dite_false, if_neg h]

theorem collapseDots_head (s : List Char) (h : s.head? ≠ some '.') :
    (collapseDots s).head? ≠ some '.' := by
  cases s with
  | nil =>
    rw [collapseDots_nil]
    simp
  | cons c0 rest =>
    have hc0 : c0 ≠ '.' := by
      intro hh
      exact h (by rw [hh]; rfl)
    rw [collapseDots_keep c0 rest (by simp [hc0])]
    simpa using hc0

/-- The collapsed text observes the `{1,3}`-run discipline. -/
theorem collapseDots_dotsOK : ∀ (n : Nat) (s : List Char), s.length ≤ n →
    dotsOKAux false (collapseDots s) = true := by
  intro n
  induction n with
  | zero =>
    intro s hs
    have hs0 : s = [] := List.length_eq_zero.mp (Nat.le_zero.mp hs)
    subst hs0
    rw [collapseDots_nil, dotsOKAux_nil]
  | succ n ihn =>
    intro s hs
    cases s with
    | nil => rw [collapseDots_nil, dotsOKAux_nil]
    | cons c0 rest =>
      by_cases hcond : c0 = '.' ∧ dotRun rest ≠ 0
      · rw [collapseDots_sub c0 rest hcond]
        have hXhead : (collapseDots (rest.drop (dotRun rest))).head? ≠
            some '.' := collapseDots_head _ (dotRun_drop rest)
        have hX0 : dotRun (collapseDots (rest.drop (dotRun rest))) = 0 :=
          (dotRun_zero _).mpr hXhead
        rw [dotsOKAux_dot]
        have hdr : dotRun ('.' :: '.' ::
            collapseDots (rest.drop (dotRun rest))) = 2 := by
          rw [dotRun_cons_dot, dotRun_cons_dot, hX0]
        rw [hdr]
        simp only [Bool.not_false, Bool.and_eq_true, Bool.or_eq_true]
        refine ⟨⟨trivial, Or.inr (by decide)⟩, ?_⟩
        rw [show (('.' :: '.' ::
            collapseDots (rest.drop (dotRun rest)) : List Char).drop 2) =
          collapseDots (rest.drop (dotRun rest)) from rfl]
        rw [dotsOKAux_true_eq, Bool.and_eq_true]
        refine ⟨by simpa using hXhead, ?_⟩
        exact ihn _ (by
          rw [List.length_drop]
          simp only [List.length_cons] at hs
          omega)
      · rw [collapseDots_keep c0 rest hcond]
        by_cases hc0 : c0 = '.'
        · have hr0 : dotRun rest = 0 := by
            by_contra hr
            exact hcond ⟨hc0, hr⟩
          have hrhead : rest.head? ≠ some '.' := (dotRun_zero rest).mp hr0
          have hXhead : (collapseDots rest).head? ≠ some '.' :=
            collapseDots_head _ hrhead
          subst hc0
          rw [dotsOKAux_dot]
          rw [(dotRun_zero _).mpr hXhead]
          simp only [Bool.not_false, Bool.and_eq_true, Bool.or_eq_true]
          refine ⟨⟨trivial, Or.inl (by decide)⟩, ?_⟩
          rw [List.drop_zero, dotsOKAux_true_eq, Bool.and_eq_true]
          refine ⟨by simpa using hXhead, ?_⟩
          exact ihn rest (by
            simp only [List.length_cons] at hs
            omega)
        · rw [dotsOKAux_nodot false c0 _ hc0]
          exact ihn rest (by
            simp only [List.length_cons] at hs
            omega)

/-- A text observing the run discipline is a fixed point of the
collapser. -/
theorem collapseDots_id : ∀ (n : Nat) (s : List Char), s.length ≤ n →
    dotsOKAux false s = true → collapseDots s = s := by
  intro n
  induction n with
  | zero =>
    intro s hs _
    have hs0 : s = [] := List.length_eq_zero.mp (Nat.le_zero.mp hs)
    subst hs0
    exact collapseDots_nil
  | succ n ihn =>
    intro s hs h
    cases s with
    | nil => exact collapseDots_nil
    | cons c0 rest =>
      by_cases hc0 : c0 = '.'
      · subst hc0
        rw [dotsOKAux_dot] at h
        simp only [Bool.not_false, Bool.and_eq_true, Bool.or_eq_true,
          beq_iff_eq] at h
        obtain ⟨⟨-, hm⟩, htrue⟩ := h
        rcases hm with hm | hm
        · rw [collapseDots_keep _ rest (by simp [hm])]
          have h2 : dotsOKAux false rest = true := by
            rw [hm, List.drop_zero] at htrue
            exact dotsOKAux_mono htrue
          rw [ihn rest (by
            simp only [List.length_cons] at hs
            omega) h2]
        · obtain ⟨r2, hr2, hdr2⟩ := dotRun_two rest hm
          rw [collapseDots_sub _ rest ⟨rfl, by omega⟩]
          rw [hm] at htrue ⊢
          subst hr2
          rw [show (('.' :: '.' :: r2 : List Char).drop 2) = r2 from rfl]
            at htrue ⊢
          have h2 : dotsOKAux false r2 = true := dotsOKAux_mono htrue
          rw [ihn r2 (by
            simp only [List.length_cons] at hs
            omega) h2]
      · rw [collapseDots_keep c0 rest (by simp [hc0])]
        rw [dotsOKAux_nodot false c0 rest hc0] at h
        rw [ihn rest (by
          simp only [List.length_cons] at hs
          omega) h]

/-- `&`-expansion neither changes a leading dot run nor what follows
it. -/
theorem expandAmp_dotRun : ∀ (t : List Char),
    dotRun (expandAmp t) = dotRun t ∧
      (expandAmp t).drop (dotRun t) = expandAmp (t.drop (dotRun t)) := by
  intro t
  induction t with
  | nil => exact ⟨rfl, rfl⟩
  | cons d t2 ih =>
    by_cases hd : d = '.'
    · subst hd
      have he : expandAmp ('.' :: t2) = '.' :: expandAmp t2 := by
        rw [expandAmp, if_neg (by decide)]
      rw [he, dotRun_cons_dot, dotRun_cons_dot, ih.1]
      refine ⟨rfl, ?_⟩
      rw [List.drop_succ_cons, List.drop_succ_cons]
      exact ih.2
    · have h0 : dotRun (d :: t2) = 0 := dotRun_cons_nodot d t2 hd
      rw [h0]
      by_cases ha : d = '&'
      · subst ha
        have he : expandAmp ('&' :: t2) = 'a' :: 'n' :: 'd' :: expandAmp t2 := by
          rw [expandAmp, if_pos rfl]
        rw [he]
        refine ⟨dotRun_cons_nodot _ _ (by decide), ?_⟩
        rw [List.drop_zero, List.drop_zero, he]
      · have he : expandAmp (d :: t2) = d :: expandAmp t2 := by
          rw [expandAmp, if_neg ha]
        rw [he]
        refine ⟨dotRun_cons_nodot _ _ hd, ?_⟩
        rw [List.drop_zero, List.drop_zero, he]

/-- `&`-expansion preserves the run discipline. -/
theorem expandAmp_dotsOK : ∀ (n : Nat) (s : List Char), s.length ≤ n →
    ∀ (b : Bool), dotsOKAux b s = true → dotsOKAux b (expandAmp s) = true := by
  intro n
  induction n with
  | zero =>
    intro s hs b h
    have hs0 : s = [] := List.length_eq_zero.mp (Nat.le_zero.mp hs)
    subst hs0
    exact h
  | succ n ihn =>
    intro s hs b h
    cases s with
    | nil => exact h
    | cons c0 rest =>
      by_cases hc0 : c0 = '.'
      · subst hc0
        have he : expandAmp ('.' :: rest) = '.' :: expandAmp rest := by
          rw [expandAmp, if_neg (by decide)]
        rw [he, dotsOKAux_dot]
        rw [dotsOKAux_dot] at h
        simp only [Bool.and_eq_true, Bool.or_eq_true, beq_iff_eq] at h ⊢
        obtain ⟨⟨hb, hm⟩, htrue⟩ := h
        obtain ⟨hdr, hdrop⟩ := expandAmp_dotRun rest
        refine ⟨⟨hb, by rw [hdr]; exact hm⟩, ?_⟩
        rw [hdr, hdrop]
        exact ihn (rest.drop (dotRun rest)) (by
          rw [List.length_drop]
          simp only [List.length_cons] at hs
          omega) true htrue
      · by_cases ha : c0 = '&'
        · subst ha
          have he : expandAmp ('&' :: rest) =
              'a' :: 'n' :: 'd' :: expandAmp rest := by
            rw [expandAmp, if_pos rfl]
          rw [he]
          rw [dotsOKAux_nodot b _ rest (by decide)] at h
          rw [dotsOKAux_nodot b 'a' _ (by decide),
            dotsOKAux_nodot false 'n' _ (by decide),
            dotsOKAux_nodot false 'd' _ (by decide)]
          exact ihn rest (by
            simp only [List.length_cons] at hs
            omega) false h
        · have he : expandAmp (c0 :: rest) = c0 :: expandAmp rest := by
            rw [expandAmp, if_neg ha]
          rw [he, dotsOKAux_nodot b c0 _ hc0]
          rw [dotsOKAux_nodot b c0 rest hc0] at h
          exact ihn rest (by
            simp only [List.length_cons] at hs
            omega) false h

theorem head_word_ne_dot {l : List Char} (h : wOpt stdW l.head? = true) :
    l.head? ≠ some '.' := by
  intro hh
  rw [hh] at h
  exact absurd h (by decide)

theorem subWB_headNotDot (w : Char → Bool) (kj rj : List Char)
    (hkjh : kj.head? ≠ some '.') (hrne : rj ≠ [])
    (hrjh : rj.head? ≠ some '.') :
    ∀ (prev : Option Char) (s : List Char), s.head? ≠ some '.' →
      (subWB w kj rj prev s).head? ≠ some '.' := by
  intro prev s hs
  cases s with
  | nil =>
    rw [subWB_nil]
    simp
  | cons c0 rest =>
    by_cases hm : matchAt w kj prev (c0 :: rest) = true
    · rw [subWB_match w kj rj prev c0 rest hm]
      cases hr : rj with
      | nil => exact absurd hr hrne
      | cons r0 rt =>
        rw [List.cons_append]
        subst hr
        exact hrjh
    · rw [subWB_nomatch w kj rj prev c0 rest hm]
      exact hs

theorem subWB_dot_peel (w : Char → Bool) (kj rj : List Char)
    (hkjh : kj.head? ≠ some '.') :
    ∀ (prev : Option Char) (r : List Char),
      subWB w kj rj prev ('.' :: r) = '.' :: subWB w kj rj (some '.') r := by
  intro prev r
  apply subWB_nomatch
  intro hm
  rcases matchAt_iff.mp hm with ⟨hkne, hkpre, -, -⟩
  cases hkc : kj with
  | nil => exact absurd hkc hkne
  | cons kh kt =>
    have h1 := List.cons_prefix_cons.mp (hkc ▸ hkpre)
    apply hkjh
    rw [hkc, h1.1]
    rfl

/-- One substitution pass preserves the dot-run discipline: keys start
with a word character and have no adjacent dots, replacements are
dot-free. -/
theorem subWB_dotsOK (w : Char → Bool) (kj rj : List Char)
    (hwj : ∀ c ∈ kj, w c = stdW c)
    (hshape : keyShape kj rj = true)
    (hnoDD : noDD kj = true)
    (hrjnd : ∀ c ∈ rj, c ≠ '.') :
    ∀ (n : Nat) (s : List Char), s.length ≤ n →
      ∀ (prev : Option Char) (b : Bool), dotsOKAux b s = true →
        dotsOKAux b (subWB w kj rj prev s) = true := by
  obtain ⟨hjne, hrne, hjh, hrh⟩ := keyShape_unpack hshape
  have hkjh : kj.head? ≠ some '.' := head_word_ne_dot hjh
  have hrjh : rj.head? ≠ some '.' := head_word_ne_dot hrh
  intro n
  induction n with
  | zero =>
    intro s hs prev b h
    have hs0 : s = [] := List.length_eq_zero.mp (Nat.le_zero.mp hs)
    subst hs0
    rw [subWB_nil]
    exact h
  | succ n ihn =>
    intro s hs prev b h
    cases s with
    | nil =>
      rw [subWB_nil]
      exact h
    | cons c0 rest =>
      by_cases hm : matchAt w kj prev (c0 :: rest) = true
      · rw [subWB_match w kj rj prev c0 rest hm]
        rw [dotsOKAux_nodot_front rj hrjnd hrne b _]
        rcases matchAt_iff.mp hm with ⟨hkne, hkpre, -, hb2⟩
        have happ : kj ++ (c0 :: rest).drop kj.length = c0 :: rest :=
          List.prefix_iff_eq_append.mp hkpre
        have hin : dotsOKAux b (kj ++ (c0 :: rest).drop kj.length) = true := by
          rw [happ]
          exact h
        have hlast : kj.getLast? = some '.' →
            dotRun ((c0 :: rest).drop kj.length) = 0 := by
          intro hgl
          have hdotmem : ('.' : Char) ∈ kj := by
            rw [List.getLast?_eq_getElem?] at hgl
            exact List.getElem?_mem hgl
          have hwdot : w '.' = false := by
            rw [hwj '.' hdotmem]
            decide
          rw [hgl] at hb2
          have h1 : wOpt w ((c0 :: rest).drop kj.length).head? = true := by
            have h2 : wOpt w (some '.') = false := hwdot
            rw [h2] at hb2
            simpa using (Ne.symm hb2)
          cases hs2 : ((c0 :: rest).drop kj.length).head? with
          | none =>
            rw [hs2] at h1
            rw [show wOpt w none = false from rfl] at h1
            exact absurd h1 (by decide)
          | some c2 =>
            rw [hs2] at h1
            rw [dotRun_zero, hs2]
            intro hcc
            have hc2 : c2 = '.' := Option.some.inj hcc
            rw [hc2] at h1
            have hred : wOpt w (some '.') = false := hwdot
            rw [hred] at h1
            exact absurd h1 (by decide)
        have hpass := dotsOKAux_pass kj hnoDD b _ (fun _ => hkjh) hlast hin
        have hfalse : dotsOKAux false ((c0 :: rest).drop kj.length) = true := by
          cases hgl : (kj.getLast? == some '.') with
          | false => rwa [hgl] at hpass
          | true =>
            rw [hgl] at hpass
            exact dotsOKAux_mono hpass
        have hkpos : 0 < kj.length := List.length_pos.mpr hjne
        exact ihn _ (by
            rw [List.length_drop]
            simp only [List.length_cons] at hs ⊢
            omega) kj.getLast? false hfalse
      · rw [subWB_nomatch w kj rj prev c0 rest hm]
        by_cases hc0 : c0 = '.'
        · subst hc0
          rw [dotsOKAux_dot] at h
          simp only [Bool.and_eq_true, Bool.or_eq_true, beq_iff_eq] at h
          obtain ⟨⟨hb, hm01⟩, htrue⟩ := h
          rcases hm01 with hm0 | hm2
          · have hrhead : rest.head? ≠ some '.' := (dotRun_zero rest).mp hm0
            have hohead : (subWB w kj rj (some '.') rest).head? ≠ some '.' :=
              subWB_headNotDot w kj rj hkjh hrne hrjh _ rest hrhead
            have hdr0 : dotRun (subWB w kj rj (some '.') rest) = 0 :=
              (dotRun_zero _).mpr hohead
            rw [dotsOKAux_dot, hdr0]
            simp only [Bool.and_eq_true, Bool.or_eq_true, beq_iff_eq]
            refine ⟨⟨hb, Or.inl trivial⟩, ?_⟩
            rw [List.drop_zero, dotsOKAux_true_eq, Bool.and_eq_true]
            refine ⟨by simpa using hohead, ?_⟩
            rw [hm0, List.drop_zero] at htrue
            exact ihn rest (by
                simp only [List.length_cons] at hs
                omega) (some '.') false (dotsOKAux_mono htrue)
          · obtain ⟨r2, hr2, hdr2⟩ := dotRun_two rest hm2
            subst hr2
            rw [subWB_dot_peel w kj rj hkjh, subWB_dot_peel w kj rj hkjh]
            have hr2head : r2.head? ≠ some '.' := (dotRun_zero r2).mp hdr2
            have hohead : (subWB w kj rj (some '.') r2).head? ≠ some '.' :=
              subWB_headNotDot w kj rj hkjh hrne hrjh _ r2 hr2head
            have hdr3 : dotRun (subWB w kj rj (some '.') r2) = 0 :=
              (dotRun_zero _).mpr hohead
            rw [dotsOKAux_dot]
            have hdr22 : dotRun ('.' :: '.' ::
                subWB w kj rj (some '.') r2) = 2 := by
              rw [dotRun_cons_dot, dotRun_cons_dot, hdr3]
            rw [hdr22]
            simp only [Bool.and_eq_true, Bool.or_eq_true, beq_iff_eq]
            refine ⟨⟨hb, Or.inr trivial⟩, ?_⟩
            rw [show (('.' :: '.' :: subWB w kj rj (some '.') r2 :
                List Char).drop 2) = subWB w kj rj (some '.') r2 from rfl]
            rw [dotsOKAux_true_eq, Bool.and_eq_true]
            refine ⟨by simpa using hohead, ?_⟩
            rw [hm2] at htrue
            rw [show (('.' :: '.' :: r2 : List Char).drop 2) = r2 from rfl]
              at htrue
            exact ihn r2 (by
                simp only [List.length_cons] at hs
                omega) (some '.') false (dotsOKAux_mono htrue)
        · rw [dotsOKAux_nodot b c0 rest hc0] at h
          rw [dotsOKAux_nodot b c0 _ hc0]
          exact ihn rest (by
              simp only [List.length_cons] at hs
              omega) (some c0) false h

/-- A whole dictionary pass preserves the dot-run discipline. -/
theorem applySubs_dotsOK (w : Char → Bool) :
    ∀ (D : List (String × String)),
      (∀ p ∈ D, ∀ c ∈ p.1.data, w c = stdW c) →
      (∀ p ∈ D, keyShape p.1.data p.2.data = true) →
      (∀ p ∈ D, noDD p.1.data = true) →
      (∀ p ∈ D, ∀ c ∈ p.2.data, c ≠ '.') →
      ∀ s, dotsOKAux false s = true →
        dotsOKAux false (applySubs w D s) = true := by
  intro D
  induction D with
  | nil => intro _ _ _ _ s h; exact h
  | cons p D' ih =>
    intro hw hshapes hDD hnd s h
    have hfold : applySubs w (p :: D') s =
        applySubs w D' (subWB w p.1.data p.2.data none s) := rfl
    rw [hfold]
    apply ih (fun q hq => hw q (by simp [hq]))
      (fun q hq => hshapes q (by simp [hq]))
      (fun q hq => hDD q (by simp [hq]))
      (fun q hq => hnd q (by simp [hq]))
    exact subWB_dotsOK w p.1.data p.2.data (hw p (by simp))
      (hshapes p (by simp)) (hDD p (by simp)) (hnd p (by simp))
      s.length s (Nat.le_refl _) none false h

/-! Aggregate decidable conditions over the concrete dictionaries. -/

def dictShapeB (D : List (String × String)) : Bool :=
  D.all (fun p => keyShape p.1.data p.2.data)

def crossSafeB (A B : List (String × String)) : Bool :=
  A.all (fun p => B.all (fun q => safeTriple p.1.data q.1.data q.2.data))

def dictDDB (D : List (String × String)) : Bool :=
  D.all (fun p => noDD p.1.data)

def dictNoDotB (D : List (String × String)) : Bool :=
  D.all (fun p => p.2.data.all (fun c => !(c == '.')))

def dictNoAmpB (D : List (String × String)) : Bool :=
  D.all (fun p => p.2.data.all (fun c => !(c == '&')))

def dictFixedB (m : List (Char × Char)) (D : List (String × String)) : Bool :=
  D.all (fun p => p.2.data.all (fun c => chainMap m c == c))

theorem dictShapeB_abbr : dictShapeB abbreviations = true := by decide

theorem dictShapeB_contr : dictShapeB contractions = true := by decide

theorem dictSafe_abbr : dictSafe abbreviations = true := by decide

theorem dictSafe_contr : dictSafe contractions = true := by decide

theorem crossSafe_abbr_contr : crossSafeB abbreviations contractions = true := by
  decide

theorem dictDDB_abbr : dictDDB abbreviations = true := by decide

theorem dictDDB_contr : dictDDB contractions = true := by decide

theorem dictNoDotB_abbr : dictNoDotB abbreviations = true := by decide

theorem dictNoDotB_contr : dictNoDotB contractions = true := by decide

theorem dictNoAmpB_abbr : dictNoAmpB abbreviations = true := by decide

theorem dictNoAmpB_contr : dictNoAmpB contractions = true := by decide

theorem dictFixedB_d_abbr : dictFixedB dashChars abbreviations = true := by
  decide

theorem dictFixedB_d_contr : dictFixedB dashChars contractions = true := by
  decide

/-- The six optional steps of `processText`, as named composable maps. -/
def nQuotes (cfg : TextNormalizer) (x : List Char) : List Char :=
  if cfg.normalize_quotes then applyStrMap quoteChars x else x

def nDashes (cfg : TextNormalizer) (x : List Char) : List Char :=
  if cfg.normalize_dashes then applyCharMap dashChars x else x

def nEllipses (cfg : TextNormalizer) (x : List Char) : List Char :=
  if cfg.normalize_ellipses then collapseDots x else x

def nAmps (cfg : TextNormalizer) (x : List Char) : List Char :=
  if cfg.normalize_ampersands then expandAmp x else x

def nAbbr (w : Char → Bool) (cfg : TextNormalizer) (x : List Char) :
    List Char :=
  if cfg.normalize_abbreviations then applySubs w abbreviations x else x

def nContr (w : Char → Bool) (cfg : TextNormalizer) (x : List Char) :
    List Char :=
  if cfg.expand_contractions then applySubs w contractions x else x

theorem processText_comp (w : Char → Bool) (cfg : TextNormalizer)
    (x : List Char) :
    TextNormalizer.processText w cfg x =
      nContr w cfg (nAbbr w cfg (nAmps cfg (nEllipses cfg
        (nDashes cfg (nQuotes cfg x))))) := rfl

theorem chainMap_idem (m : List (Char × Char))
    (ht : ∀ t ∈ m.map Prod.snd, chainMap m t = t) (c : Char) :
    chainMap m (chainMap m c) = chainMap m c := by
  rcases chainMap_or m c with h | h
  · rw [h]
    exact h
  · exact ht _ h

/-- Every character of the two substitution dictionaries. -/
def dictChars : List Char :=
  (abbreviations ++ contractions).foldr
    (fun q acc => q.1.data ++ q.2.data ++ acc) []

theorem chars_mem_fold : ∀ (L : List (String × String)) (p : String × String),
    p ∈ L →
    (∀ c ∈ p.1.data,
      c ∈ L.foldr (fun q acc => q.1.data ++ q.2.data ++ acc) []) ∧
    (∀ c ∈ p.2.data,
      c ∈ L.foldr (fun q acc => q.1.data ++ q.2.data ++ acc) []) := by
  intro L
  induction L with
  | nil => intro p hp; exact absurd hp (by simp)
  | cons q L' ih =>
    intro p hp
    rw [List.foldr_cons]
    rcases List.mem_cons.mp hp with rfl | hp
    · exact ⟨fun c hc => by simp [hc], fun c hc => by simp [hc]⟩
    · obtain ⟨h1, h2⟩ := ih p hp
      refine ⟨fun c hc => ?_, fun c hc => ?_⟩
      · simp only [List.mem_append]
        exact Or.inr (h1 c hc)
      · simp only [List.mem_append]
        exact Or.inr (h2 c hc)

theorem chars_mem_dict (p : String × String)
    (hp : p ∈ abbreviations ++ contractions) :
    (∀ c ∈ p.1.data, c ∈ dictChars) ∧ (∀ c ∈ p.2.data, c ∈ dictChars) :=
  chars_mem_fold _ p hp

theorem dictShape_unpack (D : List (String × String))
    (h : dictShapeB D = true) :
    ∀ p ∈ D, keyShape p.1.data p.2.data = true := by
  rw [dictShapeB] at h
  exact fun p hp => List.all_eq_true.mp h p hp

theorem crossSafe_unpack (A B : List (String × String))
    (h : crossSafeB A B = true) :
    ∀ p ∈ A, ∀ q ∈ B, safeTriple p.1.data q.1.data q.2.data = true := by
  rw [crossSafeB] at h
  intro p hp q hq
  exact List.all_eq_true.mp (List.all_eq_true.mp h p hp) q hq

theorem dictDD_unpack (D : List (String × String))
    (h : dictDDB D = true) : ∀ p ∈ D, noDD p.1.data = true := by
  rw [dictDDB] at h
  exact fun p hp => List.all_eq_true.mp h p hp

theorem dictNoDot_unpack (D : List (String × String))
    (h : dictNoDotB D = true) : ∀ p ∈ D, ∀ c ∈ p.2.data, c ≠ '.' := by
  rw [dictNoDotB] at h
  intro p hp c hc
  have h2 := List.all_eq_true.mp (List.all_eq_true.mp h p hp) c hc
  simpa using h2

theorem dictNoAmp_unpack (D : List (String × String))
    (h : dictNoAmpB D = true) : ∀ p ∈ D, ∀ c ∈ p.2.data, c ≠ '&' := by
  rw [dictNoAmpB] at h
  intro p hp c hc
  have h2 := List.all_eq_true.mp (List.all_eq_true.mp h p hp) c hc
  simpa using h2

theorem dictFixed_unpack (m : List (Char × Char))
    (D : List (String × String)) (h : dictFixedB m D = true) :
    ∀ p ∈ D, ∀ c ∈ p.2.data, chainMap m c = c := by
  rw [dictFixedB] at h
  intro p hp c hc
  have h2 := List.all_eq_true.mp (List.all_eq_true.mp h p hp) c hc
  exact eq_of_beq h2

/-- After a full `processText` pass, each enabled step has nothing left to
do: quote and dash images are fixed points of their maps, the dot-run
discipline holds, no ampersand survives, and no bounded dictionary key
occurs. -/
theorem processText_invariants (w : Char → Bool) (cfg : TextNormalizer)
    (hw : ∀ c ∈ dictChars, w c = stdW c) (s : List Char) :
    (cfg.normalize_dashes = true →
      ∀ c ∈ TextNormalizer.processText w cfg s, chainMap dashChars c = c) ∧
    (cfg.normalize_ellipses = true →
      dotsOKAux false (TextNormalizer.processText w cfg s) = true) ∧
    (cfg.normalize_ampersands = true →
      ∀ c ∈ TextNormalizer.processText w cfg s, c ≠ '&') ∧
    (cfg.normalize_abbreviations = true →
      ∀ p ∈ abbreviations,
        hasMatch w p.1.data none (TextNormalizer.processText w cfg s) =
          false) ∧
    (cfg.expand_contractions = true →
      ∀ p ∈ contractions,
        hasMatch w p.1.data none (TextNormalizer.processText w cfg s) =
          false) := by
  have hwP : ∀ p ∈ abbreviations ++ contractions,
      (∀ c ∈ p.1.data, w c = stdW c) ∧ (∀ c ∈ p.2.data, w c = stdW c) := by
    intro p hp
    obtain ⟨h1, h2⟩ := chars_mem_dict p hp
    exact ⟨fun c hc => hw c (h1 c hc), fun c hc => hw c (h2 c hc)⟩
  have hwA : ∀ p ∈ abbreviations,
      (∀ c ∈ p.1.data, w c = stdW c) ∧ (∀ c ∈ p.2.data, w c = stdW c) :=
    fun p hp => hwP p (List.mem_append.mpr (Or.inl hp))
  have hwC : ∀ p ∈ contractions,
      (∀ c ∈ p.1.data, w c = stdW c) ∧ (∀ c ∈ p.2.data, w c = stdW c) :=
    fun p hp => hwP p (List.mem_append.mpr (Or.inr hp))
  have hshapeA := dictShape_unpack _ dictShapeB_abbr
  have hshapeC := dictShape_unpack _ dictShapeB_contr
  have hcrossAC := crossSafe_unpack _ _ crossSafe_abbr_contr
  have hDDA := dictDD_unpack _ dictDDB_abbr
  have hDDC := dictDD_unpack _ dictDDB_contr
  have hndA := dictNoDot_unpack _ dictNoDotB_abbr
  have hndC := dictNoDot_unpack _ dictNoDotB_contr
  have hnaA := dictNoAmp_unpack _ dictNoAmpB_abbr
  have hnaC := dictNoAmp_unpack _ dictNoAmpB_contr
  have hfdA := dictFixed_unpack _ _ dictFixedB_d_abbr
  have hfdC := dictFixed_unpack _ _ dictFixedB_d_contr
  rw [processText_comp]
  generalize hy1 : nQuotes cfg s = y1
  generalize hy2 : nDashes cfg y1 = y2
  generalize hy3 : nEllipses cfg y2 = y3
  generalize hy4 : nAmps cfg y3 = y4
  generalize hy5 : nAbbr w cfg y4 = y5
  generalize hy6 : nContr w cfg y5 = y6
  have d2 : cfg.normalize_dashes = true →
      ∀ c ∈ y2, chainMap dashChars c = c := by
    intro hd c hc
    simp only [nDashes] at hy2
    rw [if_pos hd, applyCharMap_eq_map] at hy2
    rw [← hy2] at hc
    obtain ⟨c0, -, rfl⟩ := List.mem_map.mp hc
    exact chainMap_idem dashChars (by decide) c0
  have d3 : cfg.normalize_dashes = true →
      ∀ c ∈ y3, chainMap dashChars c = c := by
    intro hd c hc
    simp only [nEllipses] at hy3
    by_cases he : cfg.normalize_ellipses = true
    · rw [if_pos he] at hy3
      rw [← hy3] at hc
      rcases mem_collapseDots y2.length y2 (Nat.le_refl _) c hc with h2 | rfl
      · exact d2 hd c h2
      · decide
    · rw [if_neg he] at hy3
      rw [← hy3] at hc
      exact d2 hd c hc
  have d4 : cfg.normalize_dashes = true →
      ∀ c ∈ y4, chainMap dashChars c = c := by
    intro hd c hc
    simp only [nAmps] at hy4
    by_cases ha : cfg.normalize_ampersands = true
    · rw [if_pos ha] at hy4
      rw [← hy4] at hc
      rcases mem_expandAmp y3 c hc with h2 | rfl | rfl | rfl
      · exact d3 hd c h2
      · decide
      · decide
      · decide
    · rw [if_neg ha] at hy4
      rw [← hy4] at hc
      exact d3 hd c hc
  have d5 : cfg.normalize_dashes = true →
      ∀ c ∈ y5, chainMap dashChars c = c := by
    intro hd c hc
    simp only [nAbbr] at hy5
    by_cases hab : cfg.normalize_abbreviations = true
    · rw [if_pos hab] at hy5
      rw [← hy5] at hc
      rcases mem_applySubs w abbreviations y4 c hc with h2 | ⟨p, hp, hcp⟩
      · exact d4 hd c h2
      · exact hfdA p hp c hcp
    · rw [if_neg hab] at hy5
      rw [← hy5] at hc
      exact d4 hd c hc
  have d6 : cfg.normalize_dashes = true →
      ∀ c ∈ y6, chainMap dashChars c = c := by
    intro hd c hc
    simp only [nContr] at hy6
    by_cases hco : cfg.expand_contractions = true
    · rw [if_pos hco] at hy6
      rw [← hy6] at hc
      rcases mem_applySubs w contractions y5 c hc with h2 | ⟨p, hp, hcp⟩
      · exact d5 hd c h2
      · exact hfdC p hp c hcp
    · rw [if_neg hco] at hy6
      rw [← hy6] at hc
      exact d5 hd c hc
  have e3 : cfg.normalize_ellipses = true → dotsOKAux false y3 = true := by
    intro he
    simp only [nEllipses] at hy3
    rw [if_pos he] at hy3
    rw [← hy3]
    exact collapseDots_dotsOK y2.length y2 (Nat.le_refl _)
  have e4 : cfg.normalize_ellipses = true → dotsOKAux false y4 = true := by
    intro he
    simp only [nAmps] at hy4
    by_cases ha : cfg.normalize_ampersands = true
    · rw [if_pos ha] at hy4
      rw [← hy4]
      exact expandAmp_dotsOK y3.length y3 (Nat.le_refl _) false (e3 he)
    · rw [if_neg ha] at hy4
      rw [← hy4]
      exact e3 he
  have e5 : cfg.normalize_ellipses = true → dotsOKAux false y5 = true := by
    intro he
    simp only [nAbbr] at hy5
    by_cases hab : cfg.normalize_abbreviations = true
    · rw [if_pos hab] at hy5
      rw [← hy5]
      exact applySubs_dotsOK w abbreviations (fun p hp => (hwA p hp).1)
        hshapeA hDDA hndA y4 (e4 he)
    · rw [if_neg hab] at hy5
      rw [← hy5]
      exact e4 he
  have e6 : cfg.normalize_ellipses = true → dotsOKAux false y6 = true := by
    intro he
    simp only [nContr] at hy6
    by_cases hco : cfg.expand_contractions = true
    · rw [if_pos hco] at hy6
      rw [← hy6]
      exact applySubs_dotsOK w contractions (fun p hp => (hwC p hp).1)
        hshapeC hDDC hndC y5 (e5 he)
    · rw [if_neg hco] at hy6
      rw [← hy6]
      exact e5 he
  have a4 : cfg.normalize_ampersands = true → ∀ c ∈ y4, c ≠ '&' := by
    intro ha c hc
    simp only [nAmps] at hy4
    rw [if_pos ha] at hy4
    rw [← hy4] at hc
    exact expandAmp_no_amp y3 c hc
  have a5 : cfg.normalize_ampersands = true → ∀ c ∈ y5, c ≠ '&' := by
    intro ha c hc
    simp only [nAbbr] at hy5
    by_cases hab : cfg.normalize_abbreviations = true
    · rw [if_pos hab] at hy5
      rw [← hy5] at hc
      rcases mem_applySubs w abbreviations y4 c hc with h2 | ⟨p, hp, hcp⟩
      · exact a4 ha c h2
      · exact hnaA p hp c hcp
    · rw [if_neg hab] at hy5
      rw [← hy5] at hc
      exact a4 ha c hc
  have a6 : cfg.normalize_ampersands = true → ∀ c ∈ y6, c ≠ '&' := by
    intro ha c hc
    simp only [nContr] at hy6
    by_cases hco : cfg.expand_contractions = true
    · rw [if_pos hco] at hy6
      rw [← hy6] at hc
      rcases mem_applySubs w contractions y5 c hc with h2 | ⟨p, hp, hcp⟩
      · exact a5 ha c h2
      · exact hnaC p hp c hcp
    · rw [if_neg hco] at hy6
      rw [← hy6] at hc
      exact a5 ha c hc
  have b5 : cfg.normalize_abbreviations = true →
      ∀ p ∈ abbreviations, hasMatch w p.1.data none y5 = false := by
    intro hab p hp
    simp only [nAbbr] at hy5
    rw [if_pos hab] at hy5
    rw [← hy5]
    exact applySubs_clean w abbreviations [] y4
      (fun k hk => absurd hk (List.not_mem_nil _)) hwA hshapeA
      (fun k hk => absurd hk (List.not_mem_nil _)) dictSafe_abbr
      (fun k hk => absurd hk (List.not_mem_nil _))
      p.1.data (Or.inr ⟨p, hp, rfl⟩)
  have b6 : cfg.normalize_abbreviations = true →
      ∀ p ∈ abbreviations, hasMatch w p.1.data none y6 = false := by
    intro hab p hp
    simp only [nContr] at hy6
    by_cases hco : cfg.expand_contractions = true
    · rw [if_pos hco] at hy6
      rw [← hy6]
      refine applySubs_clean w contractions
        (abbreviations.map (fun q => q.1.data)) y5 ?_ hwC hshapeC ?_
        dictSafe_contr ?_ p.1.data
        (Or.inl (List.mem_map.mpr ⟨p, hp, rfl⟩))
      · intro k hk
        obtain ⟨q, hq, rfl⟩ := List.mem_map.mp hk
        exact (hwA q hq).1
      · intro k hk q hq
        obtain ⟨q2, hq2, rfl⟩ := List.mem_map.mp hk
        exact hcrossAC q2 hq2 q hq
      · intro k hk
        obtain ⟨q2, hq2, rfl⟩ := List.mem_map.mp hk
        exact b5 hab q2 hq2
    · rw [if_neg hco] at hy6
      rw [← hy6]
      exact b5 hab p hp
  have c6 : cfg.expand_contractions = true →
      ∀ p ∈ contractions, hasMatch w p.1.data none y6 = false := by
    intro hco p hp
    simp only [nContr] at hy6
    rw [if_pos hco] at hy6
    rw [← hy6]
    exact applySubs_clean w contractions [] y5
      (fun k hk => absurd hk (List.not_mem_nil _)) hwC hshapeC
      (fun k hk => absurd hk (List.not_mem_nil _)) dictSafe_contr
      (fun k hk => absurd hk (List.not_mem_nil _))
      p.1.data (Or.inr ⟨p, hp, rfl⟩)
  exact ⟨d6, e6, a6, b6, c6⟩

/-- C5 (amended): the claimed idempotence fails for configurations with
quote normalization enabled, because the accidental 49-character
`quote_chars` key can be re-created by its own replacement (see
`claim_C5_cex`). For every configuration with `normalize_quotes` disabled,
applying the text transformation twice yields the same result as applying
it once: the dash, ellipsis, ampersand, abbreviation and contraction
substitutions all reach a fixed point after one application. The
word-character predicate `w` (Python's `\w`) is a parameter pinned to the
standard predicate on the finitely many characters appearing in the
substitution dictionaries. -/
theorem claim_C5 (w : Char → Bool) (cfg : TextNormalizer)
    (hq : cfg.normalize_quotes = false)
    (hw : ∀ c ∈ dictChars, w c = stdW c) :
    (∀ s : List Char,
      TextNormalizer.processText w cfg (TextNormalizer.processText w cfg s) =
        TextNormalizer.processText w cfg s) ∧
    (∀ d : ProcessedDocument,
      (TextNormalizer.process w cfg (TextNormalizer.process w cfg d)).text =
        (TextNormalizer.process w cfg d).text) := by
  have hmain : ∀ s : List Char,
      TextNormalizer.processText w cfg (TextNormalizer.processText w cfg s) =
        TextNormalizer.processText w cfg s := by
    intro s
    obtain ⟨idh, ie, ia, iab, ico⟩ := processText_invariants w cfg hw s
    have e1 : nQuotes cfg (TextNormalizer.processText w cfg s) =
        TextNormalizer.processText w cfg s := by
      simp only [nQuotes]
      rw [if_neg (by simp [hq])]
    have e2 : nDashes cfg (TextNormalizer.processText w cfg s) =
        TextNormalizer.processText w cfg s := by
      simp only [nDashes]
      by_cases hd : cfg.normalize_dashes = true
      · rw [if_pos hd]
        exact applyCharMap_id_of_fixed _ _ (idh hd)
      · rw [if_neg hd]
    have e3 : nEllipses cfg (TextNormalizer.processText w cfg s) =
        TextNormalizer.processText w cfg s := by
      simp only [nEllipses]
      by_cases he : cfg.normalize_ellipses = true
      · rw [if_pos he]
        exact collapseDots_id (TextNormalizer.processText w cfg s).length _
          (Nat.le_refl _) (ie he)
      · rw [if_neg he]
    have e4 : nAmps cfg (TextNormalizer.processText w cfg s) =
        TextNormalizer.processText w cfg s := by
      simp only [nAmps]
      by_cases ha : cfg.normalize_ampersands = true
      · rw [if_pos ha]
        exact expandAmp_id _ (ia ha)
      · rw [if_neg ha]
    have e5 : nAbbr w cfg (TextNormalizer.processText w cfg s) =
        TextNormalizer.processText w cfg s := by
      simp only [nAbbr]
      by_cases hab : cfg.normalize_abbreviations = true
      · rw [if_pos hab]
        exact applySubs_id w abbreviations _ (iab hab)
      · rw [if_neg hab]
    have e6 : nContr w cfg (TextNormalizer.processText w cfg s) =
        TextNormalizer.processText w cfg s := by
      simp only [nContr]
      by_cases hco : cfg.expand_contractions = true
      · rw [if_pos hco]
        exact applySubs_id w contractions _ (ico hco)
      · rw [if_neg hco]
    rw [processText_comp w cfg (TextNormalizer.processText w cfg s),
      e1, e2, e3, e4, e5, e6]
  refine ⟨hmain, ?_⟩
  intro d
  have hp : ∀ d' : ProcessedDocument, (TextNormalizer.process w cfg d').text =
      String.mk (TextNormalizer.processText w cfg d'.text.data) :=
    fun d' => rfl
  rw [hp, hp]
  rw [show (String.mk (TextNormalizer.processText w cfg d.text.data)).data =
    TextNormalizer.processText w cfg d.text.data from rfl]
  rw [hmain d.text.data]

theorem claim_C5_witness :
    TextNormalizer.processText stdW
      { normalize_quotes := false, normalize_abbreviations := true,
        expand_contractions := true }
      (TextNormalizer.processText stdW
        { normalize_quotes := false, normalize_abbreviations := true,
          expand_contractions := true }
        ("He said e.g. U.S. can't.. — it's A & B…".data)) =
      TextNormalizer.processText stdW
        { normalize_quotes := false, normalize_abbreviations := true,
          expand_contractions := true }
        ("He said e.g. U.S. can't.. — it's A & B…".data) :=
  (claim_C5 stdW
    { normalize_quotes := false, normalize_abbreviations := true,
      expand_contractions := true }
    rfl (fun c _ => rfl)).1 _

/-- A configuration with only quote normalization enabled. -/
def cfgC5x : TextNormalizer :=
  { normalize_dashes := false, normalize_ellipses := false,
    normalize_ampersands := false }

/-- Wrapping the accidental quote key in the context it was torn from:
replacing its inner occurrence re-creates the key itself. -/
def sC5x : String :=
  ": \"" ++ quoteKey ++ "\",  # left single quotation mark\n            "

/-- C5 counterexample: with quote normalization enabled (the constructor
default), one pass maps `sC5x` to the 49-character accidental key and a
second pass maps that key to a single apostrophe, so applying the text
transformation twice differs from applying it once. -/
theorem claim_C5_cex :
    TextNormalizer.processText stdW cfgC5x
        (TextNormalizer.processText stdW cfgC5x sC5x.data) ≠
      TextNormalizer.processText stdW cfgC5x sC5x.data := by
  have h1 : TextNormalizer.processText stdW cfgC5x sC5x.data =
      quoteKey.data := by decide
  have h2 : TextNormalizer.processText stdW cfgC5x quoteKey.data =
      "'".data := by decide
  rw [h1, h2]
  decide

end Pipeline
